import Mathlib

/-! # Tripod: prefix store backed by a byte trie

A shallow embedding of `prefixstorebytetrie.go` and, further down, of
`prefixstorerunetrie.go` (the same code over `[]rune`, embedded the same way
under names that carry `Rune` or `rune`).

* A byte is a value of `Fin 256`; a key (`[]byte`) is a `List Byte`.
* A node is `PrefixStoreByteTrie.mk isLast children maxKeySizeInBytes`.
* The Go map `children : map[int]*PrefixStoreByteTrie` is a finite map. It is
  represented by its list of bindings kept in ascending key order, so that two
  maps with the same bindings are the same Lean value. Reading `m[k]` is
  `lookup`, writing `m[k] = v` is `setChild`.
* `Put` mutates the receiver in Go; here it returns the new trie together
  with the two Go results.
* `for ch, tt := range t.children` visits the bindings in an order Go leaves
  unspecified. The functions `_dfs`, `list`, `PrefixSearch` visit them in the
  stored order (one admissible schedule), and the relations `DfsRun`,
  `ListRun`, `PrefixSearchRun` describe the outcome under every order.
* A run-time panic is the result `none`. The only call that can panic is the
  `make([]T, 0, limit)` of `list`: the runtime's `makeslice` panics (`cap out
  of range`) when the capacity is negative or when the size in bytes,
  `capacity * sizeof(T)`, exceeds the runtime's allocation limit. That limit
  is a constant of the Go runtime, not of this repository; it is the parameter
  `maxAlloc` of `list`, `PrefixSearch` and their run relations
  (`maxAlloc64` is its value on 64-bit Linux, `maxAlloc32` on a 32-bit
  platform). An allocation that passes this check is taken to succeed; the
  theorems that assume a limit within `maxAlloc` hold for every value of
  `maxAlloc`, so a machine that cannot serve an allocation of that size is
  covered by a smaller value.
* `maxKeySizeInBytes` and `len` are Go `int`s; no operation on them can
  overflow (they are only compared), so they are integers here.
-/

namespace Tripod

/-- A Go `byte`. -/
abbrev Byte := Fin 256

/-- A Go `[]byte`. -/
abbrev Key := List Byte

/-- The Go conversion `int(b)` of a byte. -/
def byteToInt (b : Byte) : Int := (b.val : Int)

/-- The Go conversion `byte(ch)` of an `int`: the low eight bits. -/
def intToByte (ch : Int) : Byte := Fin.ofNat (ch % 256).toNat

/-- The node type `PrefixStoreByteTrie` of the source. -/
inductive PrefixStoreByteTrie where
  | mk (isLast : Bool) (children : List (Int × PrefixStoreByteTrie))
      (maxKeySizeInBytes : Int) : PrefixStoreByteTrie

namespace PrefixStoreByteTrie

/-- Field `isLast`. -/
def isLast : PrefixStoreByteTrie → Bool
  | mk l _ _ => l

/-- Field `children`. -/
def children : PrefixStoreByteTrie → List (Int × PrefixStoreByteTrie)
  | mk _ cs _ => cs

/-- Field `maxKeySizeInBytes`. -/
def maxKeySizeInBytes : PrefixStoreByteTrie → Int
  | mk _ _ m => m

end PrefixStoreByteTrie

/-- Map read `children[ch]`: the bound node, or `none` for Go's `nil`. -/
def lookup (ch : Int) : List (Int × PrefixStoreByteTrie) → Option PrefixStoreByteTrie
  | [] => none
  | (c, u) :: rest => if ch = c then some u else lookup ch rest

/-- Map write `children[ch] = child`: replaces the binding of `ch` when there
is one, adds it otherwise (at its place in ascending key order). -/
def setChild (ch : Int) (child : PrefixStoreByteTrie) :
    List (Int × PrefixStoreByteTrie) → List (Int × PrefixStoreByteTrie)
  | [] => [(ch, child)]
  | (c, u) :: rest =>
    if ch = c then (ch, child) :: rest
    else if ch < c then (ch, child) :: (c, u) :: rest
    else (c, u) :: setChild ch child rest

/-- Function `CreatePrefixStoreByteTrie`: a node with an empty map and
`isLast = false`. -/
def CreatePrefixStoreByteTrie (maxKeySizeInBytes : Int) : PrefixStoreByteTrie :=
  .mk false [] maxKeySizeInBytes

/-- The text of the error built by `fmt.Errorf` in `Put` (the same format in
both tries): `%d` writes an integer in decimal, as `toString` does. -/
def putErrorMessage (maxKeySizeInBytes : Int) (len : Int) : String :=
  "max size of key should be " ++ toString maxKeySizeInBytes ++ " (" ++ toString len ++
    " > " ++ toString maxKeySizeInBytes ++ ")"

/-- What a call of `Put` leaves behind: the trie after the call and the two
Go results (`err = none` is Go's `nil` error). -/
structure PutResult where
  store : PrefixStoreByteTrie
  newlyAdded : Bool
  err : Option String

/-- The loop of `Put` followed by the update of `isLast`, run from a node
from which at least the symbols in `key` remain to be walked. `rootMax` is
`t.maxKeySizeInBytes` of the receiver, given to the nodes created on the way.
Returns the rebuilt node and `newlyAdded`. The case `key = []` is a node
reached after the last symbol, hence not the receiver. -/
def putWalk (rootMax : Int) : Key → PrefixStoreByteTrie → PrefixStoreByteTrie × Bool
  | [], .mk l cs mx => (.mk true cs mx, l == false)
  | b :: rest, .mk l cs mx =>
    let child := match lookup (byteToInt b) cs with
      | some c => c
      | none => CreatePrefixStoreByteTrie rootMax
    let r := putWalk rootMax rest child
    (.mk l (setChild (byteToInt b) r.1 cs) mx, r.2)

/-- The node from which the loop of `Put` continues after reading `b`: the
child bound to `int(b)`, or a fresh node (the `let child` of `putWalk`). -/
def childOrNew (rootMax : Int) (b : Byte) (cs : List (Int × PrefixStoreByteTrie)) :
    PrefixStoreByteTrie :=
  match lookup (byteToInt b) cs with
  | some c => c
  | none => CreatePrefixStoreByteTrie rootMax

namespace PrefixStoreByteTrie

/-- Method `Put`. After the loop `current_node == t` holds exactly when the key is
empty: every other node on the path is a child below `t`. -/
def Put (t : PrefixStoreByteTrie) (key : Key) : PutResult :=
  if (key.length : Int) > t.maxKeySizeInBytes then
    ⟨t, false, some (putErrorMessage t.maxKeySizeInBytes key.length)⟩
  else
    match key with
    | [] => ⟨t, false, none⟩
    | b :: rest =>
      let r := putWalk t.maxKeySizeInBytes (b :: rest) t
      ⟨r.1, r.2, none⟩

end PrefixStoreByteTrie

/-- The loop of `Exists`: walks `key` from a node, `false` as soon as a
child is missing, the flag of the node reached otherwise. -/
def existsWalk : Key → PrefixStoreByteTrie → Bool
  | [], t => t.isLast
  | b :: rest, t =>
    match lookup (byteToInt b) t.children with
    | none => false
    | some child => existsWalk rest child

/-- The loop of `get`: the node reached by walking `key`, `none` (Go's `nil`)
as soon as a child is missing. -/
def getWalk : Key → PrefixStoreByteTrie → Option PrefixStoreByteTrie
  | [], t => some t
  | b :: rest, t =>
    match lookup (byteToInt b) t.children with
    | none => none
    | some child => getWalk rest child

namespace PrefixStoreByteTrie

/-- Method `Exists`: the length guard, then the walk. -/
def Exists (t : PrefixStoreByteTrie) (key : Key) : Bool :=
  if (key.length : Int) > t.maxKeySizeInBytes then false
  else existsWalk key t

/-- Method `get`: the length guard, then the walk. -/
def get (t : PrefixStoreByteTrie) (key : Key) : Option PrefixStoreByteTrie :=
  if (key.length : Int) > t.maxKeySizeInBytes then none
  else getWalk key t

end PrefixStoreByteTrie

/-- The range check of the Go runtime's `makeslice` for `make([]T, 0, cap)`
with elements of `elemSize` bytes: the call panics when `cap` is negative or
when `elemSize * cap` bytes exceed the allocation limit `maxAlloc` (a product
that overflows the machine word exceeds it too). -/
def makeslicePanics (elemSize maxAlloc cap : Int) : Bool :=
  decide (cap < 0) || decide (elemSize * cap > maxAlloc)

/-- The allocation limit of the Go runtime on 64-bit Linux, `1 << 48` bytes. -/
def maxAlloc64 : Int := 281474976710656

/-- The largest Go `int` on a 64-bit platform, `math.MaxInt64`. -/
def maxInt64 : Int := 9223372036854775807

mutual
/-- Function `_dfs`, with the list `entries` passed in and returned; the children are
visited in the stored order. -/
def _dfs : PrefixStoreByteTrie → Key → Key → List Key → List Key
  | .mk l cs _, pfx, buffer, entries =>
    dfsRange cs pfx buffer (if l then entries ++ [pfx ++ buffer] else entries)
/-- The `for ch, tt := range ...` loop shared by `list` and `_dfs`: append
`byte(ch)` to the buffer, descend, truncate the buffer by one. -/
def dfsRange : List (Int × PrefixStoreByteTrie) → Key → Key → List Key → List Key
  | [], _, _, entries => entries
  | (ch, tt) :: rest, pfx, buffer, entries =>
    let buffer1 := buffer ++ [intToByte ch]
    let entries1 := _dfs tt pfx buffer1 entries
    dfsRange rest pfx (buffer1.take (buffer1.length - 1)) entries1
end

namespace PrefixStoreByteTrie

/-- Method `list`. The call `make([]byte, 0, t.maxKeySizeInBytes)` panics when
`makeslicePanics` says so (a byte takes one byte): the result is then `none`.
The loop starts from an empty buffer and an empty list. -/
def list (maxAlloc : Int) (t : PrefixStoreByteTrie) (pfx : Key) : Option (List Key) :=
  if makeslicePanics 1 maxAlloc t.maxKeySizeInBytes then none
  else some (dfsRange t.children pfx [] [])

/-- Method `PrefixSearch`. The call `PushFront` puts the prefix before the
other entries. -/
def PrefixSearch (maxAlloc : Int) (t : PrefixStoreByteTrie) (pfx : Key) :
    Option (List Key) :=
  if (pfx.length : Int) > t.maxKeySizeInBytes then some []
  else
    match t.get pfx with
    | none => some []
    | some subTrie =>
      match subTrie.list maxAlloc pfx with
      | none => none
      | some entries => some (if subTrie.isLast then pfx :: entries else entries)

end PrefixStoreByteTrie

mutual
/-- The outcomes of `_dfs` when each `range` loop may visit the bindings of
its map in any order: `DfsRun t pfx buffer entries out` says that a call
started with the list `entries` can end with the list `out`. -/
inductive DfsRun : PrefixStoreByteTrie → Key → Key → List Key → List Key → Prop
  | node {l : Bool} {cs order : List (Int × PrefixStoreByteTrie)} {mx : Int}
      {pfx buffer : Key} {entries out : List Key} :
      order.Perm cs →
      RangeRun order pfx buffer (if l then entries ++ [pfx ++ buffer] else entries) out →
      DfsRun (.mk l cs mx) pfx buffer entries out
/-- The outcomes of the `range` loop once the order of the visit is fixed to
the order of the given list. -/
inductive RangeRun : List (Int × PrefixStoreByteTrie) → Key → Key → List Key → List Key → Prop
  | done {pfx buffer : Key} {entries : List Key} : RangeRun [] pfx buffer entries entries
  | step {ch : Int} {tt : PrefixStoreByteTrie} {rest : List (Int × PrefixStoreByteTrie)}
      {pfx buffer : Key} {entries entries1 out : List Key} :
      DfsRun tt pfx (buffer ++ [intToByte ch]) entries entries1 →
      RangeRun rest pfx
        ((buffer ++ [intToByte ch]).take ((buffer ++ [intToByte ch]).length - 1)) entries1 out →
      RangeRun ((ch, tt) :: rest) pfx buffer entries out
end

/-- The outcomes of `list` under every visiting order; `none` is the panic of
`make` (capacity negative or above the allocation limit). -/
inductive ListRun (maxAlloc : Int) : PrefixStoreByteTrie → Key → Option (List Key) → Prop
  | panics {t : PrefixStoreByteTrie} {pfx : Key} :
      makeslicePanics 1 maxAlloc t.maxKeySizeInBytes = true → ListRun maxAlloc t pfx none
  | returns {t : PrefixStoreByteTrie} {pfx : Key} {order : List (Int × PrefixStoreByteTrie)}
      {out : List Key} :
      makeslicePanics 1 maxAlloc t.maxKeySizeInBytes = false → order.Perm t.children →
      RangeRun order pfx [] [] out → ListRun maxAlloc t pfx (some out)

/-- The outcomes of `PrefixSearch` under every visiting order. -/
def PrefixSearchRun (maxAlloc : Int) (t : PrefixStoreByteTrie) (pfx : Key)
    (res : Option (List Key)) : Prop :=
  if (pfx.length : Int) > t.maxKeySizeInBytes then res = some []
  else
    match t.get pfx with
    | none => res = some []
    | some subTrie =>
      ∃ lr, ListRun maxAlloc subTrie pfx lr ∧
        res = match lr with
          | none => none
          | some entries => some (if subTrie.isLast then pfx :: entries else entries)

/-- The trie after a sequence of `Put` calls, one per key, in order. -/
def putAll (t : PrefixStoreByteTrie) : List Key → PrefixStoreByteTrie
  | [] => t
  | k :: ks => putAll (t.Put k).store ks

/-- The record of a sequence of `Put` calls: each key with the two results
`(newlyAdded, err)` its call returned. -/
def putLog (t : PrefixStoreByteTrie) : List Key → List (Key × Bool × Option String)
  | [] => []
  | k :: ks => (k, (t.Put k).newlyAdded, (t.Put k).err) :: putLog (t.Put k).store ks

/-- The tries a program can hold: `CreatePrefixStoreByteTrie m` and whatever
`Put` calls make of it. -/
inductive Reachable : PrefixStoreByteTrie → Prop
  | create (m : Int) : Reachable (CreatePrefixStoreByteTrie m)
  | put {t : PrefixStoreByteTrie} (k : Key) : Reachable t → Reachable (t.Put k).store

mutual
/-- The paths from a node down to the terminal nodes of its subtree, the node
itself included, listed in stored order and written in bytes as `_dfs` does. -/
def suffixes : PrefixStoreByteTrie → List Key
  | .mk l cs _ => (if l then [[]] else []) ++ suffixesRange cs
/-- The paths of `suffixes` that go through one of the given bindings. -/
def suffixesRange : List (Int × PrefixStoreByteTrie) → List Key
  | [] => []
  | (ch, tt) :: rest => (suffixes tt).map (fun s => intToByte ch :: s) ++ suffixesRange rest
end

/-- Keys of a map listed in strictly ascending order. -/
def SortedKeys (cs : List (Int × PrefixStoreByteTrie)) : Prop :=
  cs.Pairwise (fun a b => a.1 < b.1)

/-- The shape of the tries `Put` builds under limit `m`: every node carries
the limit `m`, every map has its keys in ascending order without repetition,
and every key of a map is `int(b)` of a byte. -/
inductive Inv (m : Int) : PrefixStoreByteTrie → Prop
  | mk {l : Bool} {cs : List (Int × PrefixStoreByteTrie)} {mx : Int} :
      mx = m → SortedKeys cs → (∀ c ∈ cs, 0 ≤ c.1 ∧ c.1 < 256) → (∀ c ∈ cs, Inv m c.2) →
      Inv m (.mk l cs mx)

/-- The statement that `_dfs` on `t` appends, to whatever list it is given,
the keys `pfx ++ buffer ++ s` for the paths `s` of `suffixes t`, in order. -/
def DfsSpec (t : PrefixStoreByteTrie) : Prop :=
  ∀ (pfx buffer : Key) (entries : List Key),
    _dfs t pfx buffer entries = entries ++ (suffixes t).map (fun s => pfx ++ (buffer ++ s))

/-- The statement that every run of `_dfs` on `t` ends with the list it was
given followed by the keys of `DfsSpec`, up to their order. -/
def DfsRunSpec (t : PrefixStoreByteTrie) : Prop :=
  ∀ (pfx buffer : Key) (entries out : List Key), DfsRun t pfx buffer entries out →
    out.Perm (entries ++ (suffixes t).map (fun s => pfx ++ (buffer ++ s)))

/-- The statement that visiting the children in stored order is one of the
runs of `_dfs` on `t`. -/
def DfsHasRun (t : PrefixStoreByteTrie) : Prop :=
  ∀ (pfx buffer : Key) (entries : List Key),
    DfsRun t pfx buffer entries (_dfs t pfx buffer entries)

/-- The statement that, in a trie of the shape `Inv`, the paths listed by
`suffixes` are the keys on which the walk of `Exists` ends on a set flag. -/
def SuffixesSpec (t : PrefixStoreByteTrie) : Prop :=
  ∀ m, Inv m t → ∀ s, s ∈ suffixes t ↔ existsWalk s t = true

/-- The key `"test"` of the test suite. -/
def keyTest : Key := [116, 101, 115, 116]

/-- The key `"te"` of the test suite. -/
def keyTe : Key := [116, 101]

/-- The key `"test123"` of the test suite. -/
def keyTest123 : Key := [116, 101, 115, 116, 49, 50, 51]

/-- The key `"tes"`: a path of `sampleTrie` that was not inserted. -/
def keyTes : Key := [116, 101, 115]

/-- The trie of the test suite: limit 128 and the keys `"test"`, `"te"`,
`"test123"` put in that order. -/
def sampleTrie : PrefixStoreByteTrie :=
  putAll (CreatePrefixStoreByteTrie 128) [keyTest, keyTe, keyTest123]

/-- A key of 129 zero bytes, `make([]byte, 129, 129)` of the test suite. -/
def keyTooLong : Key := List.replicate 129 0

/-- The statement that, in a trie of the shape `Inv`, `suffixes` lists no
path twice. -/
def SuffixesNodup (t : PrefixStoreByteTrie) : Prop :=
  ∀ m, Inv m t → (suffixes t).Nodup

/-- The keys of a sequence of `Put` calls that were successfully inserted:
those of the record `putLog` that are non-empty and whose call returned a
`nil` error, in the order of the calls and as often as they were put. -/
def acceptedKeys (t : PrefixStoreByteTrie) (ks : List Key) : List Key :=
  ((putLog t ks).filter (fun e => e.2.2.isNone && !e.1.isEmpty)).map (fun e => e.1)

/-- A sequence of `Put` calls in which `"test"` and `"te"` are put twice. -/
def repeatedPuts : List Key := [keyTest, keyTe, keyTest, keyTest123, keyTe]

/-- The spec's "node reached by following the symbols of the key": the walk
from `t` along `key`, one child per symbol, ends at the node `n`. -/
inductive Reaches : PrefixStoreByteTrie → Key → PrefixStoreByteTrie → Prop
  | here (t : PrefixStoreByteTrie) : Reaches t [] t
  | step {t child n : PrefixStoreByteTrie} {b : Byte} {rest : Key} :
      lookup (byteToInt b) t.children = some child → Reaches child rest n →
      Reaches t (b :: rest) n

/-- The spec's "some symbol along the path has no corresponding child": the
key splits as `pre ++ b :: post` where the walk along `pre` ends at a node
that has no child for `b`. -/
def MissingChild (t : PrefixStoreByteTrie) (key : Key) : Prop :=
  ∃ (pre : Key) (b : Byte) (post : Key) (n : PrefixStoreByteTrie),
    key = pre ++ b :: post ∧ Reaches t pre n ∧ lookup (byteToInt b) n.children = none

/-- The spec's contract of the internal lookup, for one trie and one key:
`get` returns none exactly when a symbol of the key has no child on the way,
and returns `n` exactly when the walk along the key ends at `n`. -/
def GetContract (t : PrefixStoreByteTrie) (key : Key) : Prop :=
  (t.get key = none ↔ MissingChild t key) ∧ ∀ n, t.get key = some n ↔ Reaches t key n

/-- A Go `rune` (an `int32`). The rune trie only compares runes and uses them
as map keys, so a rune is taken as an integer. -/
abbrev Rune := Int

/-- A Go `[]rune`. -/
abbrev RuneKey := List Rune

/-- The node type `PrefixStoreRuneTrie` of `prefixstorerunetrie.go`; the map
`children : map[rune]*PrefixStoreRuneTrie` is kept as the byte trie keeps
its map. -/
inductive PrefixStoreRuneTrie where
  | mk (isLast : Bool) (children : List (Rune × PrefixStoreRuneTrie))
      (maxKeySizeInRunes : Int) : PrefixStoreRuneTrie

namespace PrefixStoreRuneTrie

/-- Field `isLast` of the rune trie. -/
def isLast : PrefixStoreRuneTrie → Bool
  | mk l _ _ => l

/-- Field `children` of the rune trie. -/
def children : PrefixStoreRuneTrie → List (Rune × PrefixStoreRuneTrie)
  | mk _ cs _ => cs

/-- Field `maxKeySizeInRunes`. -/
def maxKeySizeInRunes : PrefixStoreRuneTrie → Int
  | mk _ _ m => m

end PrefixStoreRuneTrie

/-- Map read `children[b]` of the rune trie. -/
def runeLookup (ch : Rune) : List (Rune × PrefixStoreRuneTrie) → Option PrefixStoreRuneTrie
  | [] => none
  | (c, u) :: rest => if ch = c then some u else runeLookup ch rest

/-- Map write `children[b] = child` of the rune trie. -/
def runeSetChild (ch : Rune) (child : PrefixStoreRuneTrie) :
    List (Rune × PrefixStoreRuneTrie) → List (Rune × PrefixStoreRuneTrie)
  | [] => [(ch, child)]
  | (c, u) :: rest =>
    if ch = c then (ch, child) :: rest
    else if ch < c then (ch, child) :: (c, u) :: rest
    else (c, u) :: runeSetChild ch child rest

/-- Function `CreatePrefixStoreRuneTrie`. -/
def CreatePrefixStoreRuneTrie (maxKeySizeInRunes : Int) : PrefixStoreRuneTrie :=
  .mk false [] maxKeySizeInRunes

/-- What a call of `Put` on the rune trie leaves behind: the trie after the
call and the two Go results. -/
structure RunePutResult where
  store : PrefixStoreRuneTrie
  newlyAdded : Bool
  err : Option String

/-- The loop of `Put` of the rune trie followed by the update of `isLast`,
as `putWalk` for the byte trie. -/
def runePutWalk (rootMax : Int) : RuneKey → PrefixStoreRuneTrie → PrefixStoreRuneTrie × Bool
  | [], .mk l cs mx => (.mk true cs mx, l == false)
  | b :: rest, .mk l cs mx =>
    let child := match runeLookup b cs with
      | some c => c
      | none => CreatePrefixStoreRuneTrie rootMax
    let r := runePutWalk rootMax rest child
    (.mk l (runeSetChild b r.1 cs) mx, r.2)

/-- The loop of `Exists` of the rune trie. -/
def runeExistsWalk : RuneKey → PrefixStoreRuneTrie → Bool
  | [], t => t.isLast
  | b :: rest, t =>
    match runeLookup b t.children with
    | none => false
    | some child => runeExistsWalk rest child

/-- The loop of `get` of the rune trie. -/
def runeGetWalk : RuneKey → PrefixStoreRuneTrie → Option PrefixStoreRuneTrie
  | [], t => some t
  | b :: rest, t =>
    match runeLookup b t.children with
    | none => none
    | some child => runeGetWalk rest child

mutual
/-- Function `_dfs_rune`, with the list `entries` passed in and returned; the
children are visited in the stored order. -/
def _dfs_rune : PrefixStoreRuneTrie → RuneKey → RuneKey → List RuneKey → List RuneKey
  | .mk l cs _, pfx, buffer, entries =>
    dfsRuneRange cs pfx buffer (if l then entries ++ [pfx ++ buffer] else entries)
/-- The `range` loop shared by `list` and `_dfs_rune`: append `ch` to the
buffer, descend, truncate the buffer by one. -/
def dfsRuneRange : List (Rune × PrefixStoreRuneTrie) → RuneKey → RuneKey → List RuneKey →
    List RuneKey
  | [], _, _, entries => entries
  | (ch, tt) :: rest, pfx, buffer, entries =>
    let buffer1 := buffer ++ [ch]
    let entries1 := _dfs_rune tt pfx buffer1 entries
    dfsRuneRange rest pfx (buffer1.take (buffer1.length - 1)) entries1
end

namespace PrefixStoreRuneTrie

/-- Method `Put` of the rune trie. -/
def Put (t : PrefixStoreRuneTrie) (key : RuneKey) : RunePutResult :=
  if (key.length : Int) > t.maxKeySizeInRunes then
    ⟨t, false, some (putErrorMessage t.maxKeySizeInRunes key.length)⟩
  else
    match key with
    | [] => ⟨t, false, none⟩
    | b :: rest =>
      let r := runePutWalk t.maxKeySizeInRunes (b :: rest) t
      ⟨r.1, r.2, none⟩

/-- Method `Exists` of the rune trie. -/
def Exists (t : PrefixStoreRuneTrie) (key : RuneKey) : Bool :=
  if (key.length : Int) > t.maxKeySizeInRunes then false
  else runeExistsWalk key t

/-- Method `get` of the rune trie. -/
def get (t : PrefixStoreRuneTrie) (key : RuneKey) : Option PrefixStoreRuneTrie :=
  if (key.length : Int) > t.maxKeySizeInRunes then none
  else runeGetWalk key t

/-- Method `list` of the rune trie; `none` is the panic of
`make([]rune, 0, t.maxKeySizeInRunes)`, a rune taking four bytes. -/
def list (maxAlloc : Int) (t : PrefixStoreRuneTrie) (pfx : RuneKey) :
    Option (List RuneKey) :=
  if makeslicePanics 4 maxAlloc t.maxKeySizeInRunes then none
  else some (dfsRuneRange t.children pfx [] [])

/-- Method `PrefixSearch` of the rune trie. -/
def PrefixSearch (maxAlloc : Int) (t : PrefixStoreRuneTrie) (pfx : RuneKey) :
    Option (List RuneKey) :=
  if (pfx.length : Int) > t.maxKeySizeInRunes then some []
  else
    match t.get pfx with
    | none => some []
    | some subTrie =>
      match subTrie.list maxAlloc pfx with
      | none => none
      | some entries => some (if subTrie.isLast then pfx :: entries else entries)

end PrefixStoreRuneTrie

mutual
/-- The outcomes of `_dfs_rune` when each `range` loop may visit the bindings
of its map in any order. -/
inductive DfsRuneRun :
    PrefixStoreRuneTrie → RuneKey → RuneKey → List RuneKey → List RuneKey → Prop
  | node {l : Bool} {cs order : List (Rune × PrefixStoreRuneTrie)} {mx : Int}
      {pfx buffer : RuneKey} {entries out : List RuneKey} :
      order.Perm cs →
      RuneRangeRun order pfx buffer (if l then entries ++ [pfx ++ buffer] else entries) out →
      DfsRuneRun (.mk l cs mx) pfx buffer entries out
/-- The outcomes of the `range` loop of the rune trie once the order of the
visit is fixed to the order of the given list. -/
inductive RuneRangeRun :
    List (Rune × PrefixStoreRuneTrie) → RuneKey → RuneKey → List RuneKey → List RuneKey → Prop
  | done {pfx buffer : RuneKey} {entries : List RuneKey} : RuneRangeRun [] pfx buffer entries entries
  | step {ch : Rune} {tt : PrefixStoreRuneTrie} {rest : List (Rune × PrefixStoreRuneTrie)}
      {pfx buffer : RuneKey} {entries entries1 out : List RuneKey} :
      DfsRuneRun tt pfx (buffer ++ [ch]) entries entries1 →
      RuneRangeRun rest pfx ((buffer ++ [ch]).take ((buffer ++ [ch]).length - 1)) entries1 out →
      RuneRangeRun ((ch, tt) :: rest) pfx buffer entries out
end

/-- The outcomes of `list` of the rune trie under every visiting order;
`none` is the panic of `make` (capacity negative or above the allocation
limit). -/
inductive RuneListRun (maxAlloc : Int) :
    PrefixStoreRuneTrie → RuneKey → Option (List RuneKey) → Prop
  | panics {t : PrefixStoreRuneTrie} {pfx : RuneKey} :
      makeslicePanics 4 maxAlloc t.maxKeySizeInRunes = true → RuneListRun maxAlloc t pfx none
  | returns {t : PrefixStoreRuneTrie} {pfx : RuneKey} {order : List (Rune × PrefixStoreRuneTrie)}
      {out : List RuneKey} :
      makeslicePanics 4 maxAlloc t.maxKeySizeInRunes = false → order.Perm t.children →
      RuneRangeRun order pfx [] [] out → RuneListRun maxAlloc t pfx (some out)

/-- The outcomes of `PrefixSearch` of the rune trie under every visiting
order. -/
def RunePrefixSearchRun (maxAlloc : Int) (t : PrefixStoreRuneTrie) (pfx : RuneKey)
    (res : Option (List RuneKey)) : Prop :=
  if (pfx.length : Int) > t.maxKeySizeInRunes then res = some []
  else
    match t.get pfx with
    | none => res = some []
    | some subTrie =>
      ∃ lr, RuneListRun maxAlloc subTrie pfx lr ∧
        res = match lr with
          | none => none
          | some entries => some (if subTrie.isLast then pfx :: entries else entries)

/-- The rune trie after a sequence of `Put` calls, one per key, in order. -/
def runePutAll (t : PrefixStoreRuneTrie) : List RuneKey → PrefixStoreRuneTrie
  | [] => t
  | k :: ks => runePutAll (t.Put k).store ks

/-- The record of a sequence of `Put` calls on the rune trie: each key with
the two results `(newlyAdded, err)` its call returned. -/
def runePutLog (t : PrefixStoreRuneTrie) : List RuneKey → List (RuneKey × Bool × Option String)
  | [] => []
  | k :: ks => (k, (t.Put k).newlyAdded, (t.Put k).err) :: runePutLog (t.Put k).store ks

/-- The rune with the numeric value of a byte, Go's `rune(b)`. -/
def runeOfByte (b : Byte) : Rune := (b.val : Int)

/-- A byte key read as a rune key, symbol by symbol. -/
def runesOfKey (k : Key) : RuneKey := k.map runeOfByte

mutual
/-- The rune trie with the flags, limits and bindings of a byte trie. -/
def toRuneTrie : PrefixStoreByteTrie → PrefixStoreRuneTrie
  | .mk l cs mx => .mk l (toRuneChildren cs) mx
/-- The bindings of `toRuneTrie`. -/
def toRuneChildren : List (Int × PrefixStoreByteTrie) → List (Rune × PrefixStoreRuneTrie)
  | [] => []
  | (ch, tt) :: rest => (ch, toRuneTrie tt) :: toRuneChildren rest
end

/-- The number of bytes Go writes for a rune in a string (UTF-8; a surrogate
or a value outside Unicode is written as U+FFFD, three bytes). -/
def utf8Len (r : Rune) : Nat :=
  if r < 0 then 3
  else if r < 0x80 then 1
  else if r < 0x800 then 2
  else if r < 0x10000 then 3
  else if r ≤ 0x10FFFF then 4
  else 3

/-- The storage size in bytes of a rune key written as a UTF-8 string. -/
def utf8Size (k : RuneKey) : Nat := (k.map utf8Len).sum

/-- The rune key `"ãã"`: two code points U+00E3, two bytes each in UTF-8. -/
def runesTwoWide : RuneKey := [227, 227]

/-- The rune key `"aaa"`: three ASCII code points, one byte each. -/
def runesThreeAscii : RuneKey := [97, 97, 97]

/-- The rune key `"ããa"`: two code points U+00E3 and one ASCII code point. -/
def runesTwoWideOneAscii : RuneKey := [227, 227, 97]

/-- The statement that `_dfs_rune` on `t` leaves the list it is given in
front of what it would append to the empty list. -/
def RuneDfsAppends (t : PrefixStoreRuneTrie) : Prop :=
  ∀ (pfx buffer : RuneKey) (entries : List RuneKey),
    _dfs_rune t pfx buffer entries = entries ++ _dfs_rune t pfx buffer []

/-- The statement that every run of `_dfs_rune` on `t` ends with a
rearrangement of the list found in stored order. -/
def RuneDfsRunSpec (t : PrefixStoreRuneTrie) : Prop :=
  ∀ (pfx buffer : RuneKey) (entries out : List RuneKey), DfsRuneRun t pfx buffer entries out →
    out.Perm (_dfs_rune t pfx buffer entries)

/-- The statement that, on a byte trie of the shape `Inv`, `_dfs_rune` on the
trie read as a rune trie finds the keys `_dfs` finds, read as rune keys. -/
def DfsRuneAgrees (t : PrefixStoreByteTrie) : Prop :=
  ∀ m, Inv m t → ∀ (pfx buffer : Key) (entries : List Key),
    _dfs_rune (toRuneTrie t) (runesOfKey pfx) (runesOfKey buffer) (entries.map runesOfKey) =
      (_dfs t pfx buffer entries).map runesOfKey

/-- The statement that visiting the children in stored order is one of the
runs of `_dfs_rune` on `t`. -/
def RuneDfsHasRun (t : PrefixStoreRuneTrie) : Prop :=
  ∀ (pfx buffer : RuneKey) (entries : List RuneKey),
    DfsRuneRun t pfx buffer entries (_dfs_rune t pfx buffer entries)

/-- The statement that every run of `_dfs` on `t` keeps the list it is given
as an initial segment of the list it ends with. -/
def DfsRunAppends (t : PrefixStoreByteTrie) : Prop :=
  ∀ (pfx buffer : Key) (entries out : List Key), DfsRun t pfx buffer entries out →
    ∃ new, out = entries ++ new

/-- The key `"a"`. -/
def keyA : Key := [97]

/-- The key `"b"`. -/
def keyB : Key := [98]

/-- A trie whose limit is `math.MaxInt64`, above the allocation limit, on
which `"a"` was put. -/
def hugeTrie : PrefixStoreByteTrie :=
  putAll (CreatePrefixStoreByteTrie maxInt64) [keyA]

/-- The allocation limit of the Go runtime on a 32-bit platform,
`1 << 32 - 1` bytes. -/
def maxAlloc32 : Int := 4294967295

/-- A limit of `1 << 30`: that many bytes (one GiB) are within the allocation
limit of a 32-bit platform, that many runes (four bytes each) are not. -/
def limitGiB : Int := 1073741824

end Tripod

/-! ## Conversions, maps and induction on tries -/

namespace Tripod


theorem intToByte_byteToInt (b : Byte) : intToByte (byteToInt b) = b := by
  unfold intToByte byteToInt
  apply Fin.ext
  have h : ((b.val : Int) % 256).toNat = b.val := by
    have : (b.val : Int) % 256 = b.val := Int.emod_eq_of_lt (by omega) (by omega)
    rw [this]; simp
  rw [h]
  simp [Fin.ofNat]

theorem byteToInt_injective {a b : Byte} (h : byteToInt a = byteToInt b) : a = b := by
  have := congrArg intToByte h
  simpa [intToByte_byteToInt] using this

theorem byteToInt_range (b : Byte) : 0 ≤ byteToInt b ∧ byteToInt b < 256 := by
  unfold byteToInt
  constructor <;> omega

theorem byteToInt_intToByte {ch : Int} (h0 : 0 ≤ ch) (h1 : ch < 256) :
    byteToInt (intToByte ch) = ch := by
  unfold intToByte byteToInt
  have : ch % 256 = ch := Int.emod_eq_of_lt h0 h1
  rw [this]
  simp [Fin.ofNat]
  omega

theorem take_length_pred_append_singleton {α : Type} (l : List α) (x : α) :
    (l ++ [x]).take ((l ++ [x]).length - 1) = l := by
  simp

theorem lookup_setChild_self (ch : Int) (v : PrefixStoreByteTrie)
    (cs : List (Int × PrefixStoreByteTrie)) : lookup ch (setChild ch v cs) = some v := by
  induction cs with
  | nil => simp [setChild, lookup]
  | cons c rest ih =>
    obtain ⟨c, u⟩ := c
    unfold setChild
    by_cases h : ch = c
    · simp [h, lookup]
    · by_cases h2 : ch < c
      · simp [h, h2, lookup]
      · simp [h, h2, lookup, ih]

theorem lookup_setChild_ne {ch c : Int} (v : PrefixStoreByteTrie)
    (cs : List (Int × PrefixStoreByteTrie)) (hne : c ≠ ch) :
    lookup c (setChild ch v cs) = lookup c cs := by
  induction cs with
  | nil => simp [setChild, lookup, hne]
  | cons d rest ih =>
    obtain ⟨d, u⟩ := d
    unfold setChild
    by_cases h : ch = d
    · subst h; simp [lookup, hne]
    · by_cases h2 : ch < d
      · simp [h, h2, lookup, hne]
      · simp [h, h2, lookup, ih]

theorem trie_induction {P : PrefixStoreByteTrie → Prop}
    (h : ∀ l cs mx, (∀ c ∈ cs, P c.2) → P (.mk l cs mx)) : ∀ t, P t := by
  intro t
  refine PrefixStoreByteTrie.rec (motive_1 := P) (motive_2 := fun cs => ∀ c ∈ cs, P c.2)
    (motive_3 := fun c => P c.2) ?_ ?_ ?_ ?_ t
  · intro l cs mx ih; exact h l cs mx ih
  · intro c hc; cases hc
  · intro hd tl ih1 ih2 c hc
    rcases List.mem_cons.1 hc with rfl | hc
    · exact ih1
    · exact ih2 c hc
  · intro ch tt ih; exact ih

end Tripod

/-! ## What `Put` does to the walks -/

namespace Tripod

theorem existsWalk_create (m : Int) (k : Key) :
    existsWalk k (CreatePrefixStoreByteTrie m) = false := by
  cases k with
  | nil => rfl
  | cons b rest => simp [existsWalk, CreatePrefixStoreByteTrie, PrefixStoreByteTrie.children, lookup]

theorem getWalk_create (m : Int) (k : Key) :
    getWalk k (CreatePrefixStoreByteTrie m) = if k = [] then some (CreatePrefixStoreByteTrie m) else none := by
  cases k with
  | nil => rfl
  | cons b rest => simp [getWalk, CreatePrefixStoreByteTrie, PrefixStoreByteTrie.children, lookup]

theorem putWalk_nil (m : Int) (l : Bool) (cs : List (Int × PrefixStoreByteTrie)) (mx : Int) :
    putWalk m [] (.mk l cs mx) = (.mk true cs mx, l == false) := rfl

theorem putWalk_cons (m : Int) (b : Byte) (rest : Key) (l : Bool)
    (cs : List (Int × PrefixStoreByteTrie)) (mx : Int) :
    putWalk m (b :: rest) (.mk l cs mx) =
      (.mk l (setChild (byteToInt b) (putWalk m rest (childOrNew m b cs)).1 cs) mx,
        (putWalk m rest (childOrNew m b cs)).2) := rfl

theorem existsWalk_childOrNew (m : Int) (b : Byte) (rest : Key)
    (l : Bool) (cs : List (Int × PrefixStoreByteTrie)) (mx : Int) :
    existsWalk rest (childOrNew m b cs) = existsWalk (b :: rest) (.mk l cs mx) := by
  unfold childOrNew
  cases h : lookup (byteToInt b) cs with
  | none => simp [existsWalk, PrefixStoreByteTrie.children, h, existsWalk_create]
  | some c => simp [existsWalk, PrefixStoreByteTrie.children, h]

theorem putWalk_snd (m : Int) (k : Key) (t : PrefixStoreByteTrie) :
    (putWalk m k t).2 = !existsWalk k t := by
  induction k generalizing t with
  | nil => cases t with
    | mk l cs mx => cases l <;> rfl
  | cons b rest ih =>
    cases t with
    | mk l cs mx =>
      rw [putWalk_cons, ih, existsWalk_childOrNew m b rest l cs mx]

theorem existsWalk_putWalk (m : Int) (k k' : Key) (t : PrefixStoreByteTrie) :
    existsWalk k' (putWalk m k t).1 = (if k' = k then true else existsWalk k' t) := by
  induction k generalizing t k' with
  | nil =>
    cases t with
    | mk l cs mx =>
      cases k' with
      | nil => simp [putWalk_nil, existsWalk, PrefixStoreByteTrie.isLast]
      | cons b' rest' => simp [putWalk_nil, existsWalk, PrefixStoreByteTrie.children]
  | cons b rest ih =>
    cases t with
    | mk l cs mx =>
      rw [putWalk_cons]
      cases k' with
      | nil => simp [existsWalk, PrefixStoreByteTrie.isLast]
      | cons b' rest' =>
        by_cases hb : b' = b
        · subst hb
          simp only [existsWalk, PrefixStoreByteTrie.children, lookup_setChild_self, ih]
          rw [show (existsWalk rest' (childOrNew m b' cs))
              = existsWalk (b' :: rest') (.mk l cs mx) from existsWalk_childOrNew m b' rest' l cs mx]
          simp [existsWalk, PrefixStoreByteTrie.children]
        · have hne : byteToInt b' ≠ byteToInt b := fun h => hb (byteToInt_injective h)
          simp [existsWalk, PrefixStoreByteTrie.children, lookup_setChild_ne _ _ hne, hb]

theorem putWalk_max (m : Int) (k : Key) (t : PrefixStoreByteTrie) :
    (putWalk m k t).1.maxKeySizeInBytes = t.maxKeySizeInBytes := by
  cases t with
  | mk l cs mx => cases k <;> rfl

theorem put_max (t : PrefixStoreByteTrie) (k : Key) :
    (t.Put k).store.maxKeySizeInBytes = t.maxKeySizeInBytes := by
  unfold PrefixStoreByteTrie.Put
  split
  · rfl
  · cases k with
    | nil => rfl
    | cons b rest => exact putWalk_max _ _ _

theorem putAll_max (t : PrefixStoreByteTrie) (ks : List Key) :
    (putAll t ks).maxKeySizeInBytes = t.maxKeySizeInBytes := by
  induction ks generalizing t with
  | nil => rfl
  | cons k ks ih => simp [putAll, ih, put_max]

/-- What `Put` does to the answers of the walk of `Exists`. -/
theorem existsWalk_put (t : PrefixStoreByteTrie) (k k' : Key) :
    existsWalk k' (t.Put k).store =
      (existsWalk k' t ||
        (decide (k' = k) && decide (k ≠ []) && decide ((k.length : Int) ≤ t.maxKeySizeInBytes))) := by
  unfold PrefixStoreByteTrie.Put
  split
  · rename_i h
    have : ¬ ((k.length : Int) ≤ t.maxKeySizeInBytes) := by omega
    simp [this]
  · rename_i h
    have hle : (k.length : Int) ≤ t.maxKeySizeInBytes := by omega
    cases k with
    | nil => simp
    | cons b rest =>
      simp only [existsWalk_putWalk]
      by_cases h' : k' = b :: rest
      · have hle2 : (rest.length : Int) + 1 ≤ t.maxKeySizeInBytes := by simpa using hle
        simp [h', hle2]
      · simp [h']

end Tripod

/-! ## The shape of reachable tries -/

namespace Tripod

theorem mem_setChild {ch : Int} {v : PrefixStoreByteTrie} {cs : List (Int × PrefixStoreByteTrie)}
    {c : Int × PrefixStoreByteTrie} (h : c ∈ setChild ch v cs) : c = (ch, v) ∨ c ∈ cs := by
  induction cs with
  | nil => simpa [setChild] using h
  | cons d rest ih =>
    obtain ⟨d, u⟩ := d
    unfold setChild at h
    by_cases h1 : ch = d
    · simp only [h1, if_true, List.mem_cons] at h
      rcases h with h | h
      · left; rw [h, h1]
      · right; exact List.mem_cons_of_mem _ h
    · by_cases h2 : ch < d
      · simp only [h1, h2, if_true, if_false, List.mem_cons] at h
        rcases h with h | h | h
        · left; exact h
        · right; rw [h]; exact List.mem_cons_self _ _
        · right; exact List.mem_cons_of_mem _ h
      · simp only [h1, h2, if_false, List.mem_cons] at h
        rcases h with h | h
        · right; rw [h]; exact List.mem_cons_self _ _
        · rcases ih h with h | h
          · left; exact h
          · right; exact List.mem_cons_of_mem _ h

theorem sortedKeys_setChild {ch : Int} {v : PrefixStoreByteTrie}
    {cs : List (Int × PrefixStoreByteTrie)} (h : SortedKeys cs) :
    SortedKeys (setChild ch v cs) := by
  unfold SortedKeys at *
  induction cs with
  | nil => simp [setChild]
  | cons d rest ih =>
    obtain ⟨d, u⟩ := d
    rw [List.pairwise_cons] at h
    unfold setChild
    by_cases h1 : ch = d
    · simp only [h1, if_true]
      exact List.pairwise_cons.2 ⟨h.1, h.2⟩
    · by_cases h2 : ch < d
      · simp only [h1, h2, if_true, if_false]
        refine List.pairwise_cons.2 ⟨?_, List.pairwise_cons.2 ⟨h.1, h.2⟩⟩
        intro c hc
        rcases List.mem_cons.1 hc with rfl | hc
        · exact h2
        · exact lt_trans h2 (h.1 c hc)
      · simp only [h1, h2, if_false]
        refine List.pairwise_cons.2 ⟨?_, ih h.2⟩
        intro c hc
        rcases mem_setChild hc with rfl | hc
        · show d < ch
          omega
        · exact h.1 c hc

theorem lookup_mem {ch : Int} {v : PrefixStoreByteTrie} {cs : List (Int × PrefixStoreByteTrie)}
    (h : lookup ch cs = some v) : (ch, v) ∈ cs := by
  induction cs with
  | nil => simp [lookup] at h
  | cons d rest ih =>
    obtain ⟨d, u⟩ := d
    unfold lookup at h
    by_cases h1 : ch = d
    · simp only [h1, if_true, Option.some.injEq] at h
      rw [h1, h]; exact List.mem_cons_self _ _
    · simp only [h1, if_false] at h
      exact List.mem_cons_of_mem _ (ih h)

theorem lookup_of_mem {ch : Int} {v : PrefixStoreByteTrie} {cs : List (Int × PrefixStoreByteTrie)}
    (hs : SortedKeys cs) (h : (ch, v) ∈ cs) : lookup ch cs = some v := by
  unfold SortedKeys at hs
  induction cs with
  | nil => cases h
  | cons d rest ih =>
    obtain ⟨d, u⟩ := d
    rw [List.pairwise_cons] at hs
    unfold lookup
    rcases List.mem_cons.1 h with h | h
    · injection h with h1 h2
      simp [h1, h2]
    · have : d < ch := hs.1 _ h
      have hne : ch ≠ d := by omega
      simp only [hne, if_false]
      exact ih hs.2 h

theorem setChild_of_lookup {ch : Int} {v : PrefixStoreByteTrie}
    {cs : List (Int × PrefixStoreByteTrie)} (hs : SortedKeys cs) (h : lookup ch cs = some v) :
    setChild ch v cs = cs := by
  unfold SortedKeys at hs
  induction cs with
  | nil => simp [lookup] at h
  | cons d rest ih =>
    obtain ⟨d, u⟩ := d
    rw [List.pairwise_cons] at hs
    unfold lookup at h
    unfold setChild
    by_cases h1 : ch = d
    · simp only [h1, if_true, Option.some.injEq] at h
      simp [h1, h]
    · simp only [h1, if_false] at h
      have : d < ch := hs.1 _ (lookup_mem h)
      have h2 : ¬ ch < d := by omega
      simp only [h1, h2, if_false]
      rw [ih hs.2 h]

theorem inv_create (m : Int) : Inv m (CreatePrefixStoreByteTrie m) :=
  Inv.mk rfl List.Pairwise.nil (fun _ h => by cases h) (fun _ h => by cases h)

theorem inv_childOrNew {m : Int} {cs : List (Int × PrefixStoreByteTrie)}
    (h : ∀ c ∈ cs, Inv m c.2) (b : Byte) : Inv m (childOrNew m b cs) := by
  unfold childOrNew
  cases hl : lookup (byteToInt b) cs with
  | none => exact inv_create m
  | some c => exact h _ (lookup_mem hl)

theorem inv_putWalk {m : Int} (k : Key) {t : PrefixStoreByteTrie} (h : Inv m t) :
    Inv m (putWalk m k t).1 := by
  induction k generalizing t with
  | nil =>
    cases h with
    | mk h1 h2 h3 h4 => exact Inv.mk h1 h2 h3 h4
  | cons b rest ih =>
    cases h with
    | mk h1 h2 h3 h4 =>
      rw [putWalk_cons]
      refine Inv.mk h1 (sortedKeys_setChild h2) ?_ ?_
      · intro c hc
        rcases mem_setChild hc with rfl | hc
        · exact byteToInt_range b
        · exact h3 c hc
      · intro c hc
        rcases mem_setChild hc with rfl | hc
        · exact ih (inv_childOrNew h4 b)
        · exact h4 c hc

theorem inv_max {m : Int} {t : PrefixStoreByteTrie} (h : Inv m t) : t.maxKeySizeInBytes = m := by
  cases h with
  | mk h1 _ _ _ => exact h1

theorem inv_put {m : Int} {t : PrefixStoreByteTrie} (h : Inv m t) (k : Key) :
    Inv m (t.Put k).store := by
  unfold PrefixStoreByteTrie.Put
  split
  · exact h
  · cases k with
    | nil => exact h
    | cons b rest =>
      show Inv m (putWalk t.maxKeySizeInBytes (b :: rest) t).1
      rw [inv_max h]
      exact inv_putWalk _ h

theorem inv_putAll {m : Int} {t : PrefixStoreByteTrie} (h : Inv m t) (ks : List Key) :
    Inv m (putAll t ks) := by
  induction ks generalizing t with
  | nil => exact h
  | cons k ks ih => exact ih (inv_put h k)

theorem reachable_inv {t : PrefixStoreByteTrie} (h : Reachable t) : Inv t.maxKeySizeInBytes t := by
  induction h with
  | create m => exact inv_create m
  | put k _ ih => rw [put_max]; exact inv_put ih k

theorem reachable_putAll {t : PrefixStoreByteTrie} (h : Reachable t) (ks : List Key) :
    Reachable (putAll t ks) := by
  induction ks generalizing t with
  | nil => exact h
  | cons k ks ih => exact ih (Reachable.put k h)

theorem reachable_iff (t : PrefixStoreByteTrie) :
    Reachable t ↔ ∃ m ks, t = putAll (CreatePrefixStoreByteTrie m) ks := by
  constructor
  · intro h
    induction h with
    | create m => exact ⟨m, [], rfl⟩
    | put k _ ih =>
      obtain ⟨m, ks, rfl⟩ := ih
      refine ⟨m, ks ++ [k], ?_⟩
      clear * -
      generalize CreatePrefixStoreByteTrie m = t
      induction ks generalizing t with
      | nil => rfl
      | cons a ks ih => exact ih _
  · rintro ⟨m, ks, rfl⟩
    exact reachable_putAll (Reachable.create m) ks

end Tripod

/-! ## The traversal -/

namespace Tripod

theorem dfs_mk (l : Bool) (cs : List (Int × PrefixStoreByteTrie)) (mx : Int)
    (pfx buffer : Key) (entries : List Key) :
    _dfs (.mk l cs mx) pfx buffer entries =
      dfsRange cs pfx buffer (if l then entries ++ [pfx ++ buffer] else entries) := by
  rw [_dfs]

theorem dfsRange_nil (pfx buffer : Key) (entries : List Key) :
    dfsRange [] pfx buffer entries = entries := by
  rw [dfsRange]

theorem dfsRange_cons (ch : Int) (tt : PrefixStoreByteTrie)
    (rest : List (Int × PrefixStoreByteTrie)) (pfx buffer : Key) (entries : List Key) :
    dfsRange ((ch, tt) :: rest) pfx buffer entries =
      dfsRange rest pfx buffer (_dfs tt pfx (buffer ++ [intToByte ch]) entries) := by
  rw [dfsRange]
  simp

theorem suffixes_mk (l : Bool) (cs : List (Int × PrefixStoreByteTrie)) (mx : Int) :
    suffixes (.mk l cs mx) = (if l then [[]] else []) ++ suffixesRange cs := by
  rw [suffixes]

theorem suffixesRange_nil : suffixesRange [] = [] := by
  rw [suffixesRange]

theorem suffixesRange_cons (ch : Int) (tt : PrefixStoreByteTrie)
    (rest : List (Int × PrefixStoreByteTrie)) :
    suffixesRange ((ch, tt) :: rest) =
      (suffixes tt).map (fun s => intToByte ch :: s) ++ suffixesRange rest := by
  rw [suffixesRange]

theorem dfsRange_eq {cs : List (Int × PrefixStoreByteTrie)} (h : ∀ c ∈ cs, DfsSpec c.2)
    (pfx buffer : Key) (entries : List Key) :
    dfsRange cs pfx buffer entries =
      entries ++ (suffixesRange cs).map (fun s => pfx ++ (buffer ++ s)) := by
  induction cs generalizing entries with
  | nil => simp [dfsRange_nil, suffixesRange_nil]
  | cons c rest ih =>
    obtain ⟨ch, tt⟩ := c
    rw [dfsRange_cons, ih (fun c hc => h c (List.mem_cons_of_mem _ hc)),
      h (ch, tt) (List.mem_cons_self _ _), suffixesRange_cons]
    simp [List.map_append, List.map_map, Function.comp_def, List.append_assoc]

theorem dfs_eq (t : PrefixStoreByteTrie) : DfsSpec t := by
  induction t using trie_induction with
  | h l cs mx ih =>
    intro pfx buffer entries
    rw [dfs_mk, dfsRange_eq ih, suffixes_mk]
    cases l <;> simp

theorem dfsRange_eq_suffixes (cs : List (Int × PrefixStoreByteTrie))
    (pfx buffer : Key) (entries : List Key) :
    dfsRange cs pfx buffer entries =
      entries ++ (suffixesRange cs).map (fun s => pfx ++ (buffer ++ s)) :=
  dfsRange_eq (fun c _ => dfs_eq c.2) pfx buffer entries

theorem suffixesRange_perm {order cs : List (Int × PrefixStoreByteTrie)} (h : order.Perm cs) :
    (suffixesRange order).Perm (suffixesRange cs) := by
  induction h with
  | nil => exact List.Perm.refl _
  | cons c _ ih =>
    obtain ⟨ch, tt⟩ := c
    rw [suffixesRange_cons, suffixesRange_cons]
    exact List.Perm.append_left _ ih
  | swap c d l =>
    obtain ⟨ch, tt⟩ := c
    obtain ⟨dh, dt⟩ := d
    simp only [suffixesRange_cons]
    rw [← List.append_assoc, ← List.append_assoc]
    exact List.Perm.append_right _ List.perm_append_comm
  | trans _ _ ih1 ih2 => exact ih1.trans ih2

theorem rangeRun_perm {order : List (Int × PrefixStoreByteTrie)}
    (h : ∀ c ∈ order, DfsRunSpec c.2) (pfx buffer : Key) (entries out : List Key)
    (hr : RangeRun order pfx buffer entries out) :
    out.Perm (entries ++ (suffixesRange order).map (fun s => pfx ++ (buffer ++ s))) := by
  induction order generalizing entries with
  | nil =>
    cases hr
    simp [suffixesRange_nil]
  | cons c rest ih =>
    cases hr with
    | step h1 h2 =>
      rename_i ch tt entries1
      rw [take_length_pred_append_singleton] at h2
      have p1 := h (ch, tt) (List.mem_cons_self _ _) pfx _ entries entries1 h1
      have p2 := ih (fun c hc => h c (List.mem_cons_of_mem _ hc)) entries1 h2
      refine p2.trans ?_
      rw [suffixesRange_cons, List.map_append, ← List.append_assoc]
      refine List.Perm.append_right _ ?_
      refine p1.trans ?_
      simp [List.map_map, Function.comp_def]

theorem dfsRun_perm (t : PrefixStoreByteTrie) : DfsRunSpec t := by
  induction t using trie_induction with
  | h l cs mx ih =>
    intro pfx buffer entries out hr
    cases hr with
    | node hp hrange =>
      rename_i order
      have hall : ∀ c ∈ order, DfsRunSpec c.2 := fun c hc => ih c (hp.subset hc)
      have p := rangeRun_perm hall pfx buffer _ out hrange
      refine p.trans ?_
      rw [suffixes_mk]
      have q := (suffixesRange_perm hp).map (fun s => pfx ++ (buffer ++ s))
      cases l
      · simpa using List.Perm.append_left entries q
      · simpa using List.Perm.append_left (entries ++ [pfx ++ buffer]) q

theorem rangeRun_perm_suffixes {order : List (Int × PrefixStoreByteTrie)}
    (pfx buffer : Key) (entries out : List Key) (hr : RangeRun order pfx buffer entries out) :
    out.Perm (entries ++ (suffixesRange order).map (fun s => pfx ++ (buffer ++ s))) :=
  rangeRun_perm (fun c _ => dfsRun_perm c.2) pfx buffer entries out hr

theorem rangeRun_dfsRange {cs : List (Int × PrefixStoreByteTrie)}
    (h : ∀ c ∈ cs, DfsHasRun c.2) (pfx buffer : Key) (entries : List Key) :
    RangeRun cs pfx buffer entries (dfsRange cs pfx buffer entries) := by
  induction cs generalizing entries with
  | nil => rw [dfsRange_nil]; exact RangeRun.done
  | cons c rest ih =>
    obtain ⟨ch, tt⟩ := c
    rw [dfsRange_cons]
    refine RangeRun.step (h (ch, tt) (List.mem_cons_self _ _) pfx _ entries) ?_
    rw [take_length_pred_append_singleton]
    exact ih (fun c hc => h c (List.mem_cons_of_mem _ hc)) _

theorem dfsRun_dfs (t : PrefixStoreByteTrie) : DfsHasRun t := by
  induction t using trie_induction with
  | h l cs mx ih =>
    intro pfx buffer entries
    rw [dfs_mk]
    exact DfsRun.node (List.Perm.refl cs) (rangeRun_dfsRange ih pfx buffer _)

theorem rangeRun_dfsRange_all (cs : List (Int × PrefixStoreByteTrie))
    (pfx buffer : Key) (entries : List Key) :
    RangeRun cs pfx buffer entries (dfsRange cs pfx buffer entries) :=
  rangeRun_dfsRange (fun c _ => dfsRun_dfs c.2) pfx buffer entries

end Tripod

/-! ## Paths and walks -/

namespace Tripod

theorem mem_suffixesRange {cs : List (Int × PrefixStoreByteTrie)} {s : Key} :
    s ∈ suffixesRange cs ↔ ∃ c ∈ cs, ∃ r ∈ suffixes c.2, s = intToByte c.1 :: r := by
  induction cs with
  | nil => simp [suffixesRange_nil]
  | cons c rest ih =>
    obtain ⟨ch, tt⟩ := c
    rw [suffixesRange_cons, List.mem_append, ih]
    constructor
    · rintro (h | ⟨c, hc, r, hr, rfl⟩)
      · obtain ⟨r, hr, rfl⟩ := List.mem_map.1 h
        exact ⟨(ch, tt), List.mem_cons_self _ _, r, hr, rfl⟩
      · exact ⟨c, List.mem_cons_of_mem _ hc, r, hr, rfl⟩
    · rintro ⟨c, hc, r, hr, rfl⟩
      rcases List.mem_cons.1 hc with rfl | hc
      · left; exact List.mem_map.2 ⟨r, hr, rfl⟩
      · right; exact ⟨c, hc, r, hr, rfl⟩

theorem mem_suffixesRange_iff {m : Int} {cs : List (Int × PrefixStoreByteTrie)}
    (hs : SortedKeys cs) (hr : ∀ c ∈ cs, 0 ≤ c.1 ∧ c.1 < 256) (hi : ∀ c ∈ cs, Inv m c.2)
    (ih : ∀ c ∈ cs, SuffixesSpec c.2) (b : Byte) (r : Key) :
    (b :: r) ∈ suffixesRange cs ↔
      ∃ tt, lookup (byteToInt b) cs = some tt ∧ existsWalk r tt = true := by
  rw [mem_suffixesRange]
  constructor
  · rintro ⟨c, hc, r', hr', he⟩
    obtain ⟨ch, tt⟩ := c
    injection he with h1 h2
    subst h2
    have hch : byteToInt b = ch := by
      rw [h1]; exact byteToInt_intToByte (hr _ hc).1 (hr _ hc).2
    refine ⟨tt, ?_, (ih _ hc m (hi _ hc) r).1 hr'⟩
    rw [hch]; exact lookup_of_mem hs hc
  · rintro ⟨tt, hl, he⟩
    have hc := lookup_mem hl
    exact ⟨(byteToInt b, tt), hc, r, (ih _ hc m (hi _ hc) r).2 he, by
      simp [intToByte_byteToInt]⟩

theorem nil_not_mem_suffixesRange (cs : List (Int × PrefixStoreByteTrie)) :
    ([] : Key) ∉ suffixesRange cs := by
  rw [mem_suffixesRange]
  rintro ⟨c, _, r, _, h⟩
  cases h

theorem mem_suffixes (t : PrefixStoreByteTrie) : SuffixesSpec t := by
  induction t using trie_induction with
  | h l cs mx ih =>
    intro m hinv s
    cases hinv with
    | mk h1 h2 h3 h4 =>
      rw [suffixes_mk, List.mem_append]
      cases s with
      | nil =>
        have := nil_not_mem_suffixesRange cs
        cases l <;> simp [existsWalk, PrefixStoreByteTrie.isLast, this]
      | cons b r =>
        rw [mem_suffixesRange_iff h2 h3 h4 ih b r]
        have hb : ¬ (b :: r) ∈ (if l = true then [([] : Key)] else []) := by
          cases l <;> simp
        simp only [hb, false_or, existsWalk, PrefixStoreByteTrie.children]
        cases hl : lookup (byteToInt b) cs with
        | none => simp
        | some tt => simp

theorem mem_suffixesRange_children {m : Int} {t : PrefixStoreByteTrie} (h : Inv m t)
    (s : Key) : s ∈ suffixesRange t.children ↔ s ≠ [] ∧ existsWalk s t = true := by
  cases h with
  | mk h1 h2 h3 h4 =>
    cases s with
    | nil => simpa using nil_not_mem_suffixesRange _
    | cons b r =>
      rw [PrefixStoreByteTrie.children,
        mem_suffixesRange_iff h2 h3 h4 (fun c _ => mem_suffixes c.2) b r]
      simp only [existsWalk, PrefixStoreByteTrie.children, ne_eq, reduceCtorEq,
        not_false_eq_true, true_and]
      cases hl : lookup (byteToInt b) _ with
      | none => simp
      | some tt => simp

theorem existsWalk_append (p s : Key) (t : PrefixStoreByteTrie) :
    existsWalk (p ++ s) t =
      match getWalk p t with
      | none => false
      | some sub => existsWalk s sub := by
  induction p generalizing t with
  | nil => rfl
  | cons b rest ih =>
    simp only [List.cons_append, existsWalk, getWalk]
    cases lookup (byteToInt b) t.children with
    | none => rfl
    | some child => exact ih child

theorem inv_getWalk {m : Int} {p : Key} {t sub : PrefixStoreByteTrie} (h : Inv m t)
    (hg : getWalk p t = some sub) : Inv m sub := by
  induction p generalizing t with
  | nil =>
    simp only [getWalk, Option.some.injEq] at hg
    rw [← hg]; exact h
  | cons b rest ih =>
    cases h with
    | mk h1 h2 h3 h4 =>
      simp only [getWalk, PrefixStoreByteTrie.children] at hg
      cases hl : lookup (byteToInt b) _ with
      | none => rw [hl] at hg; cases hg
      | some child =>
        rw [hl] at hg
        exact ih (h4 _ (lookup_mem hl)) hg

end Tripod

/-! ## Results of `Put`, histories and `PrefixSearch` -/

namespace Tripod

theorem put_err (t : PrefixStoreByteTrie) (k : Key) :
    (t.Put k).err = none ↔ (k.length : Int) ≤ t.maxKeySizeInBytes := by
  unfold PrefixStoreByteTrie.Put
  split
  · rename_i h
    simp only [reduceCtorEq, false_iff]
    omega
  · rename_i h
    cases k with
    | nil => simp only [true_iff]; omega
    | cons b rest => simp only [true_iff]; omega

theorem put_newlyAdded (t : PrefixStoreByteTrie) (k : Key) :
    (t.Put k).newlyAdded =
      (decide (k ≠ []) && decide ((k.length : Int) ≤ t.maxKeySizeInBytes) && !existsWalk k t) := by
  unfold PrefixStoreByteTrie.Put
  split
  · rename_i h
    have : ¬ ((k.length : Int) ≤ t.maxKeySizeInBytes) := by omega
    simp [this]
  · rename_i h
    have hle : (k.length : Int) ≤ t.maxKeySizeInBytes := by omega
    cases k with
    | nil => simp
    | cons b rest =>
      have hle2 : (rest.length : Int) + 1 ≤ t.maxKeySizeInBytes := by simpa using hle
      simp [putWalk_snd, hle2]

theorem exists_eq (t : PrefixStoreByteTrie) (k : Key) :
    t.Exists k = (decide ((k.length : Int) ≤ t.maxKeySizeInBytes) && existsWalk k t) := by
  unfold PrefixStoreByteTrie.Exists
  split
  · rename_i h
    have : ¬ ((k.length : Int) ≤ t.maxKeySizeInBytes) := by omega
    simp [this]
  · rename_i h
    have hle : (k.length : Int) ≤ t.maxKeySizeInBytes := by omega
    simp [hle]

theorem existsWalk_putAll (t : PrefixStoreByteTrie) (ks : List Key) (k : Key) :
    existsWalk k (putAll t ks) = true ↔
      existsWalk k t = true ∨
        (k ∈ ks ∧ k ≠ [] ∧ (k.length : Int) ≤ t.maxKeySizeInBytes) := by
  induction ks generalizing t with
  | nil => simp [putAll]
  | cons a ks ih =>
    rw [putAll, ih, put_max, existsWalk_put]
    simp only [Bool.or_eq_true, Bool.and_eq_true, decide_eq_true_eq, List.mem_cons]
    constructor
    · rintro ((h | ⟨⟨h1, h2⟩, h3⟩) | ⟨h1, h2, h3⟩)
      · exact Or.inl h
      · subst h1; exact Or.inr ⟨Or.inl rfl, h2, h3⟩
      · exact Or.inr ⟨Or.inr h1, h2, h3⟩
    · rintro (h | ⟨h1 | h1, h2, h3⟩)
      · exact Or.inl (Or.inl h)
      · subst h1; exact Or.inl (Or.inr ⟨⟨rfl, h2⟩, h3⟩)
      · exact Or.inr ⟨h1, h2, h3⟩

theorem existsWalk_history (m : Int) (ks : List Key) (k : Key) :
    existsWalk k (putAll (CreatePrefixStoreByteTrie m) ks) = true ↔
      (k ∈ ks ∧ k ≠ [] ∧ (k.length : Int) ≤ m) := by
  rw [existsWalk_putAll, existsWalk_create]
  simp [CreatePrefixStoreByteTrie, PrefixStoreByteTrie.maxKeySizeInBytes]

/-- In a reachable trie the walk of `Exists` ends on a set flag only for keys
that are non-empty and within the limit. -/
theorem reachable_existsWalk {t : PrefixStoreByteTrie} (h : Reachable t) {k : Key}
    (hk : existsWalk k t = true) : k ≠ [] ∧ (k.length : Int) ≤ t.maxKeySizeInBytes := by
  obtain ⟨m, ks, rfl⟩ := (reachable_iff t).1 h
  rw [putAll_max]
  have := (existsWalk_history m ks k).1 hk
  exact ⟨this.2.1, by simpa [CreatePrefixStoreByteTrie, PrefixStoreByteTrie.maxKeySizeInBytes] using this.2.2⟩

theorem mem_putLog (t : PrefixStoreByteTrie) (ks : List Key) (k : Key) :
    (∃ a, (k, a, (none : Option String)) ∈ putLog t ks) ↔
      (k ∈ ks ∧ (k.length : Int) ≤ t.maxKeySizeInBytes) := by
  induction ks generalizing t with
  | nil => simp [putLog]
  | cons a ks ih =>
    simp only [putLog, List.mem_cons, Prod.mk.injEq]
    constructor
    · rintro ⟨x, ⟨h1, h2, h3⟩ | h⟩
      · subst h1
        exact ⟨Or.inl rfl, (put_err t k).1 h3.symm⟩
      · have := (ih (t.Put a).store).1 ⟨x, h⟩
        rw [put_max] at this
        exact ⟨Or.inr this.1, this.2⟩
    · rintro ⟨h1 | h1, h2⟩
      · subst h1
        exact ⟨_, Or.inl ⟨rfl, rfl, ((put_err t k).2 h2).symm⟩⟩
      · have h' : (k.length : Int) ≤ (t.Put a).store.maxKeySizeInBytes := by
          rw [put_max]; exact h2
        obtain ⟨x, hx⟩ := (ih (t.Put a).store).2 ⟨h1, h'⟩
        exact ⟨x, Or.inr hx⟩

theorem get_eq_of_le {t : PrefixStoreByteTrie} {p : Key}
    (h : ¬ (p.length : Int) > t.maxKeySizeInBytes) : t.get p = getWalk p t := by
  unfold PrefixStoreByteTrie.get
  simp [h]

/-- Visiting the children in stored order is one of the runs of
`PrefixSearch`. -/
theorem prefixSearchRun_prefixSearch (maxAlloc : Int) (t : PrefixStoreByteTrie) (p : Key) :
    PrefixSearchRun maxAlloc t p (t.PrefixSearch maxAlloc p) := by
  unfold PrefixSearchRun PrefixStoreByteTrie.PrefixSearch
  split
  · rfl
  · cases hg : t.get p with
    | none => rfl
    | some sub =>
      simp only
      unfold PrefixStoreByteTrie.list
      cases hneg : makeslicePanics 1 maxAlloc sub.maxKeySizeInBytes with
      | true => exact ⟨none, ListRun.panics hneg, by simp⟩
      | false =>
        exact ⟨some (dfsRange sub.children p [] []),
          ListRun.returns hneg (List.Perm.refl _) (rangeRun_dfsRange_all _ _ _ _), by simp⟩

theorem makeslicePanics_false {elemSize maxAlloc cap : Int} (h0 : 0 ≤ cap)
    (h : elemSize * cap ≤ maxAlloc) : makeslicePanics elemSize maxAlloc cap = false := by
  unfold makeslicePanics
  have h1 : ¬ cap < 0 := by omega
  have h2 : ¬ elemSize * cap > maxAlloc := by omega
  simp [h1, h2]

theorem makeslicePanics_true {elemSize maxAlloc cap : Int}
    (h : elemSize * cap > maxAlloc) : makeslicePanics elemSize maxAlloc cap = true := by
  unfold makeslicePanics
  simp [h]

/-- Past the length guard of `PrefixSearch`, on a trie of the shape `Inv`
whose limit is within the allocation limit, the `make` of `list` does not
panic. -/
theorem list_make_ok {maxAlloc : Int} {t sub : PrefixStoreByteTrie}
    (hsub : Inv t.maxKeySizeInBytes sub)
    (hcap : 0 ≤ t.maxKeySizeInBytes → t.maxKeySizeInBytes ≤ maxAlloc) {p : Key}
    (h : ¬ (p.length : Int) > t.maxKeySizeInBytes) :
    makeslicePanics 1 maxAlloc sub.maxKeySizeInBytes = false := by
  have h0 : (0 : Int) ≤ p.length := Int.natCast_nonneg _
  have h1 : 0 ≤ t.maxKeySizeInBytes := by omega
  have h2 := hcap h1
  apply makeslicePanics_false
  · rw [inv_max hsub]; exact h1
  · rw [inv_max hsub]; omega

/-- Every run of `PrefixSearch` on a trie of the shape `Inv` whose limit is
within the allocation limit returns a list, and that list is a rearrangement
of the one found in stored order. -/
theorem prefixSearchRun_perm {maxAlloc : Int} {t : PrefixStoreByteTrie}
    (hinv : Inv t.maxKeySizeInBytes t)
    (hcap : 0 ≤ t.maxKeySizeInBytes → t.maxKeySizeInBytes ≤ maxAlloc)
    {p : Key} {res : Option (List Key)} (hr : PrefixSearchRun maxAlloc t p res) :
    ∃ out out', res = some out ∧ t.PrefixSearch maxAlloc p = some out' ∧ out.Perm out' := by
  unfold PrefixSearchRun at hr
  unfold PrefixStoreByteTrie.PrefixSearch
  split at hr
  · rename_i h
    exact ⟨[], [], hr, by simp [h], List.Perm.refl _⟩
  · rename_i h
    rw [if_neg h]
    cases hg : t.get p with
    | none =>
      rw [hg] at hr
      exact ⟨[], [], hr, rfl, List.Perm.refl _⟩
    | some sub =>
      rw [hg] at hr
      obtain ⟨lr, hl, hres⟩ := hr
      have hsub : Inv t.maxKeySizeInBytes sub := by
        rw [get_eq_of_le h] at hg
        exact inv_getWalk hinv hg
      have hmax : makeslicePanics 1 maxAlloc sub.maxKeySizeInBytes = false :=
        list_make_ok hsub hcap h
      cases hl with
      | panics hneg => rw [hmax] at hneg; cases hneg
      | @returns order out _ hp hrange =>
        have q := (rangeRun_perm_suffixes p [] [] out hrange).trans
          ((suffixesRange_perm hp).map (fun s => p ++ ([] ++ s)))
        simp only [List.nil_append] at q
        unfold PrefixStoreByteTrie.list
        simp only [hmax, Bool.false_eq_true, if_false, dfsRange_eq_suffixes, List.nil_append]
        by_cases hlast : sub.isLast = true
        · exact ⟨p :: out, _, by simpa [hlast] using hres, by simp [hlast], List.Perm.cons _ q⟩
        · exact ⟨out, _, by simpa [hlast] using hres, by simp [hlast], q⟩

/-- The list `PrefixSearch` finds, in stored order, on a trie of the shape
`Inv` whose terminal nodes lie within the limit: its members are the keys
that start with the prefix and on which the walk of `Exists` succeeds. -/
theorem prefixSearch_mem {maxAlloc : Int} {t : PrefixStoreByteTrie}
    (hinv : Inv t.maxKeySizeInBytes t)
    (hcap : 0 ≤ t.maxKeySizeInBytes → t.maxKeySizeInBytes ≤ maxAlloc)
    (hdepth : ∀ k, existsWalk k t = true → (k.length : Int) ≤ t.maxKeySizeInBytes) (p : Key) :
    ∃ out, t.PrefixSearch maxAlloc p = some out ∧
      ∀ k, k ∈ out ↔ (p <+: k ∧ existsWalk k t = true) := by
  unfold PrefixStoreByteTrie.PrefixSearch
  by_cases h : (p.length : Int) > t.maxKeySizeInBytes
  · refine ⟨[], by simp [h], ?_⟩
    intro k
    simp only [List.not_mem_nil, false_iff, not_and]
    intro hp hk
    have h1 := hdepth k hk
    have h2 : p.length ≤ k.length := hp.length_le
    omega
  · rw [if_neg h, get_eq_of_le h]
    cases hg : getWalk p t with
    | none =>
      refine ⟨[], rfl, ?_⟩
      intro k
      simp only [List.not_mem_nil, false_iff, not_and]
      rintro ⟨s, rfl⟩ hk
      rw [existsWalk_append, hg] at hk
      cases hk
    | some sub =>
      have hsub : Inv t.maxKeySizeInBytes sub := inv_getWalk hinv hg
      have hmax : makeslicePanics 1 maxAlloc sub.maxKeySizeInBytes = false :=
        list_make_ok hsub hcap h
      unfold PrefixStoreByteTrie.list
      simp only [hmax, Bool.false_eq_true, if_false, dfsRange_eq_suffixes, List.nil_append]
      refine ⟨_, rfl, ?_⟩
      intro k
      have key : ∀ s, existsWalk (p ++ s) t = existsWalk s sub := by
        intro s; rw [existsWalk_append, hg]
      have hmem : k ∈ (suffixesRange sub.children).map (fun s => p ++ s) ↔
          ∃ s, s ≠ [] ∧ existsWalk s sub = true ∧ k = p ++ s := by
        rw [List.mem_map]
        constructor
        · rintro ⟨s, hs, rfl⟩
          have := (mem_suffixesRange_children hsub s).1 hs
          exact ⟨s, this.1, this.2, rfl⟩
        · rintro ⟨s, h1, h2, rfl⟩
          exact ⟨s, (mem_suffixesRange_children hsub s).2 ⟨h1, h2⟩, rfl⟩
      have hlast : existsWalk p t = sub.isLast := by
        have := key []
        simpa [existsWalk] using this
      constructor
      · intro hk
        have hk' : k = p ∧ sub.isLast = true ∨
            k ∈ (suffixesRange sub.children).map (fun s => p ++ s) := by
          by_cases hl : sub.isLast = true
          · simp only [hl, if_true, List.mem_cons] at hk
            rcases hk with hk | hk
            · exact Or.inl ⟨hk, hl⟩
            · exact Or.inr hk
          · simp only [hl] at hk
            exact Or.inr hk
        rcases hk' with ⟨rfl, hl⟩ | hk'
        · exact ⟨List.prefix_refl _, by rw [hlast, hl]⟩
        · obtain ⟨s, _, h2, rfl⟩ := hmem.1 hk'
          exact ⟨List.prefix_append _ _, by rw [key, h2]⟩
      · rintro ⟨⟨s, rfl⟩, hk⟩
        rw [key] at hk
        by_cases hs : s = []
        · subst hs
          have hl : sub.isLast = true := by simpa [existsWalk] using hk
          simp [hl]
        · have : p ++ s ∈ (suffixesRange sub.children).map (fun s => p ++ s) :=
            hmem.2 ⟨s, hs, hk, rfl⟩
          by_cases hl : sub.isLast = true
          · simp only [hl, if_true, List.mem_cons]
            exact Or.inr this
          · simp only [hl]
            exact this

/-- Past the length guard, when `get` finds a node and the `make` of `list`
panics on it, every run of `PrefixSearch` panics. -/
theorem prefixSearchRun_none {maxAlloc : Int} {t sub : PrefixStoreByteTrie} {p : Key}
    (h : ¬ (p.length : Int) > t.maxKeySizeInBytes) (hg : t.get p = some sub)
    (hpan : makeslicePanics 1 maxAlloc sub.maxKeySizeInBytes = true)
    {res : Option (List Key)} (hr : PrefixSearchRun maxAlloc t p res) : res = none := by
  unfold PrefixSearchRun at hr
  rw [if_neg h, hg] at hr
  obtain ⟨lr, hl, hres⟩ := hr
  cases hl with
  | panics _ => exact hres
  | returns hok _ _ => rw [hpan] at hok; cases hok

/-- In a reachable trie whose limit is above the allocation limit, every run
of `PrefixSearch` on a prefix whose path exists panics. -/
theorem prefixSearchRun_none_reachable {maxAlloc : Int} {t : PrefixStoreByteTrie}
    (hreach : Reachable t) (hbig : t.maxKeySizeInBytes > maxAlloc) {p : Key}
    (hp : (t.get p).isSome = true) {res : Option (List Key)}
    (hr : PrefixSearchRun maxAlloc t p res) : res = none := by
  have hle : ¬ (p.length : Int) > t.maxKeySizeInBytes := by
    intro hgt
    unfold PrefixStoreByteTrie.get at hp
    rw [if_pos hgt] at hp
    cases hp
  cases hg : t.get p with
  | none => rw [hg] at hp; cases hp
  | some sub =>
    have hsub : Inv t.maxKeySizeInBytes sub := by
      rw [get_eq_of_le hle] at hg
      exact inv_getWalk (reachable_inv hreach) hg
    refine prefixSearchRun_none hle hg (makeslicePanics_true ?_) hr
    rw [inv_max hsub]
    omega

end Tripod

/-! ## The claims -/

namespace Tripod

theorem sampleTrie_reachable : Reachable sampleTrie :=
  Reachable.put keyTest123 (Reachable.put keyTe (Reachable.put keyTest (Reachable.create 128)))

theorem hugeTrie_reachable : Reachable hugeTrie :=
  Reachable.put keyA (Reachable.create maxInt64)

/-- C1 as stated fails for a limit above the allocation limit: with limit
`math.MaxInt64` on a 64-bit runtime, after `Put "a"` returned no error,
`PrefixSearch` of the empty prefix reaches `list`, whose `make` panics, so
every run ends without a list although `"a"` is a stored key that starts with
the prefix. -/
theorem C1_prefixSearch_exact_counterexample :
    (keyA, true, (none : Option String)) ∈ putLog (CreatePrefixStoreByteTrie maxInt64) [keyA] ∧
      PrefixSearchRun maxAlloc64 (putAll (CreatePrefixStoreByteTrie maxInt64) [keyA]) [] none ∧
      ∀ res, PrefixSearchRun maxAlloc64 (putAll (CreatePrefixStoreByteTrie maxInt64) [keyA]) []
        res → res = none :=
  ⟨by decide, prefixSearchRun_prefixSearch maxAlloc64 hugeTrie [],
    fun _ hr => prefixSearchRun_none_reachable hugeTrie_reachable (by decide) (by decide) hr⟩

/-- C1, amended: for a trie built from `CreatePrefixStoreByteTrie m` by the
calls `Put k` for `k` in `ks`, with `m` not above the allocation limit
`maxAlloc` of `make`, and a prefix `p`, `PrefixSearch p` has a run (the one in
stored order), and every run, whatever the order in which the children maps
are visited, returns a list whose members are exactly the non-empty keys that
start with `p` and whose `Put` returned no error. -/
theorem C1_prefixSearch_exact (maxAlloc m : Int) (ks : List Key) (p : Key)
    (hcap : m ≤ maxAlloc) :
    PrefixSearchRun maxAlloc (putAll (CreatePrefixStoreByteTrie m) ks) p
        ((putAll (CreatePrefixStoreByteTrie m) ks).PrefixSearch maxAlloc p) ∧
      ∀ res, PrefixSearchRun maxAlloc (putAll (CreatePrefixStoreByteTrie m) ks) p res →
        ∃ out, res = some out ∧
          ∀ k, k ∈ out ↔
            (p <+: k ∧ k ≠ [] ∧
              ∃ a, (k, a, (none : Option String)) ∈ putLog (CreatePrefixStoreByteTrie m) ks) := by
  have hreach : Reachable (putAll (CreatePrefixStoreByteTrie m) ks) :=
    reachable_putAll (Reachable.create m) ks
  have hinv := reachable_inv hreach
  have hmax : (putAll (CreatePrefixStoreByteTrie m) ks).maxKeySizeInBytes = m := by
    rw [putAll_max]; rfl
  have hcap' : 0 ≤ (putAll (CreatePrefixStoreByteTrie m) ks).maxKeySizeInBytes →
      (putAll (CreatePrefixStoreByteTrie m) ks).maxKeySizeInBytes ≤ maxAlloc := by
    intro _; rw [hmax]; exact hcap
  refine ⟨prefixSearchRun_prefixSearch maxAlloc _ p, ?_⟩
  intro res hr
  obtain ⟨out, out', h1, h2, hp⟩ := prefixSearchRun_perm hinv hcap' hr
  obtain ⟨o, ho, hmem⟩ :=
    prefixSearch_mem hinv hcap' (fun k hk => (reachable_existsWalk hreach hk).2) p
  rw [h2] at ho
  injection ho with ho
  subst ho
  refine ⟨out, h1, ?_⟩
  intro k
  rw [hp.mem_iff, hmem, existsWalk_history, mem_putLog]
  simp only [CreatePrefixStoreByteTrie, PrefixStoreByteTrie.maxKeySizeInBytes]
  tauto

/-- C1 amended, on the trie of the test suite and the prefix `"tes"`, with the
allocation limit of 64-bit Linux. -/
theorem C1_prefixSearch_exact_witness :
    (128 : Int) ≤ maxAlloc64 ∧
      PrefixSearchRun maxAlloc64
        (putAll (CreatePrefixStoreByteTrie 128) [keyTest, keyTe, keyTest123]) keyTes
        (some [keyTest, keyTest123]) ∧
      ∃ out, some [keyTest, keyTest123] = some out ∧
        ∀ k, k ∈ out ↔
          (keyTes <+: k ∧ k ≠ [] ∧
            ∃ a, (k, a, (none : Option String)) ∈
              putLog (CreatePrefixStoreByteTrie 128) [keyTest, keyTe, keyTest123]) :=
  ⟨by decide,
    (C1_prefixSearch_exact maxAlloc64 128 [keyTest, keyTe, keyTest123] keyTes (by decide)).1,
    (C1_prefixSearch_exact maxAlloc64 128 [keyTest, keyTe, keyTest123] keyTes (by decide)).2 _
      (C1_prefixSearch_exact maxAlloc64 128 [keyTest, keyTe, keyTest123] keyTes (by decide)).1⟩

/-- C2: for every trie (reachable or not) and every key `k` with
`0 < len k <= maxKeySizeInBytes`, `Exists k` is true right after `Put k`
(`ks = []`) and after any further sequence `ks` of `Put` calls. -/
theorem C2_exists_after_put (t : PrefixStoreByteTrie) (k : Key) (ks : List Key)
    (hpos : 0 < k.length) (hle : (k.length : Int) ≤ t.maxKeySizeInBytes) :
    (putAll (t.Put k).store ks).Exists k = true := by
  have hne : k ≠ [] := by
    intro h; rw [h] at hpos; exact Nat.lt_irrefl _ hpos
  rw [exists_eq, putAll_max, put_max]
  have h1 : existsWalk k (putAll (t.Put k).store ks) = true := by
    rw [existsWalk_putAll, existsWalk_put]
    left
    simp [hne, hle]
  simp [h1, hle]

/-- C2 on the trie of the test suite: `"tes"` is put, then `"te"` and
`"test"` again. -/
theorem C2_exists_after_put_witness :
    0 < keyTes.length ∧ (keyTes.length : Int) ≤ sampleTrie.maxKeySizeInBytes ∧
      (putAll (sampleTrie.Put keyTes).store [keyTe, keyTest]).Exists keyTes = true :=
  ⟨by decide, by decide, C2_exists_after_put sampleTrie keyTes [keyTe, keyTest]
    (by decide) (by decide)⟩

/-- C3: in a trie built from `CreatePrefixStoreByteTrie m` by the calls
`Put k'` for `k'` in `ks`, `Exists k` is false for every key `k` that is not
among `ks`, whatever paths of the trie `k` lies on. -/
theorem C3_exists_false_never_put (m : Int) (ks : List Key) (k : Key) (hk : k ∉ ks) :
    (putAll (CreatePrefixStoreByteTrie m) ks).Exists k = false := by
  rw [exists_eq]
  have h1 : existsWalk k (putAll (CreatePrefixStoreByteTrie m) ks) = false := by
    cases h : existsWalk k (putAll (CreatePrefixStoreByteTrie m) ks) with
    | false => rfl
    | true => exact absurd ((existsWalk_history m ks k).1 h).1 hk
  simp [h1]

/-- C3 on the trie of the test suite: `"tes"` was never put, extends the key
`"te"` and is a strict prefix of the key `"test"`. -/
theorem C3_exists_false_never_put_witness :
    keyTes ∉ [keyTest, keyTe, keyTest123] ∧
      (putAll (CreatePrefixStoreByteTrie 128) [keyTest, keyTe, keyTest123]).Exists keyTes = false :=
  ⟨by decide, C3_exists_false_never_put 128 [keyTest, keyTe, keyTest123] keyTes (by decide)⟩

end Tripod

namespace Tripod

theorem sampleTrie_max : sampleTrie.maxKeySizeInBytes = 128 := by
  unfold sampleTrie
  rw [putAll_max]
  rfl

/-- C4 as stated fails for a limit above the allocation limit: on the
reachable trie `CreatePrefixStoreByteTrie math.MaxInt64`, on a 64-bit runtime,
`PrefixSearch` of the empty key fails: the `make` of `list` panics in every
run. So `Put` is not the only operation that can fail. -/
theorem C4_put_fails_iff_too_long_counterexample :
    Reachable (CreatePrefixStoreByteTrie maxInt64) ∧
      PrefixSearchRun maxAlloc64 (CreatePrefixStoreByteTrie maxInt64) [] none ∧
      ∀ res, PrefixSearchRun maxAlloc64 (CreatePrefixStoreByteTrie maxInt64) [] res →
        res = none :=
  ⟨Reachable.create maxInt64,
    prefixSearchRun_prefixSearch maxAlloc64 (CreatePrefixStoreByteTrie maxInt64) [],
    fun _ hr => prefixSearchRun_none_reachable (Reachable.create maxInt64) (by decide)
      (by decide) hr⟩

/-- C4, amended: for every trie and key, `Put key` returns a non-nil error
exactly when `len key > maxKeySizeInBytes`; and on every reachable trie whose
limit is not above the allocation limit `maxAlloc` of `make`, `PrefixSearch`
has a run and every run of it returns a list (the `make` of `list` does not
panic). `Exists` has no failing step at all: it is a total function to
`Bool`. -/
theorem C4_put_fails_iff_too_long (maxAlloc : Int) (t : PrefixStoreByteTrie) (key : Key) :
    ((t.Put key).err ≠ none ↔ (key.length : Int) > t.maxKeySizeInBytes) ∧
      (Reachable t → t.maxKeySizeInBytes ≤ maxAlloc →
        PrefixSearchRun maxAlloc t key (t.PrefixSearch maxAlloc key) ∧
        ∀ res, PrefixSearchRun maxAlloc t key res → ∃ out, res = some out) := by
  refine ⟨?_, ?_⟩
  · rw [Ne, put_err]
    omega
  · intro hreach hcap
    refine ⟨prefixSearchRun_prefixSearch maxAlloc t key, ?_⟩
    intro res hr
    obtain ⟨out, _, h1, _, _⟩ := prefixSearchRun_perm (reachable_inv hreach) (fun _ => hcap) hr
    exact ⟨out, h1⟩

/-- C4 amended, on the trie of the test suite and its key `"te"`, with the
allocation limit of 64-bit Linux. -/
theorem C4_put_fails_iff_too_long_witness :
    Reachable sampleTrie ∧ sampleTrie.maxKeySizeInBytes ≤ maxAlloc64 ∧
      (sampleTrie.Put keyTooLong).err ≠ none ∧
      ∀ res, PrefixSearchRun maxAlloc64 sampleTrie keyTe res → ∃ out, res = some out :=
  ⟨sampleTrie_reachable, by decide,
    (C4_put_fails_iff_too_long maxAlloc64 sampleTrie keyTooLong).1.2 (by
      rw [sampleTrie_max]; simp [keyTooLong]),
    ((C4_put_fails_iff_too_long maxAlloc64 sampleTrie keyTe).2 sampleTrie_reachable
      (by decide)).2⟩

/-- C5: for every trie and key `k`, `Put k` returns `newlyAdded = true`
exactly when `k` is non-empty, `len k <= maxKeySizeInBytes` and `Exists k`
was false before the call. -/
theorem C5_newlyAdded_iff (t : PrefixStoreByteTrie) (k : Key) :
    (t.Put k).newlyAdded = true ↔
      (k ≠ [] ∧ (k.length : Int) ≤ t.maxKeySizeInBytes ∧ t.Exists k = false) := by
  rw [put_newlyAdded, exists_eq]
  by_cases h1 : k = []
  · simp [h1]
  · by_cases h2 : (k.length : Int) ≤ t.maxKeySizeInBytes
    · simp [h1, h2]
    · simp [h1, h2]

/-- C6: for every trie and every non-empty key `k` within the limit that is
not stored, `Put k` returns `(true, nil)`, a second `Put k` returns
`(false, nil)`, and `Exists k` is true after the first call and after the
second. -/
theorem C6_put_twice (t : PrefixStoreByteTrie) (k : Key) (hne : k ≠ [])
    (hle : (k.length : Int) ≤ t.maxKeySizeInBytes) (hnew : t.Exists k = false) :
    (t.Put k).newlyAdded = true ∧ (t.Put k).err = none ∧
      ((t.Put k).store.Put k).newlyAdded = false ∧ ((t.Put k).store.Put k).err = none ∧
      (t.Put k).store.Exists k = true ∧ ((t.Put k).store.Put k).store.Exists k = true := by
  have hw : existsWalk k t = false := by
    rw [exists_eq] at hnew
    simpa [hle] using hnew
  have h1 : existsWalk k (t.Put k).store = true := by
    rw [existsWalk_put]; simp [hne, hle]
  have h2 : existsWalk k ((t.Put k).store.Put k).store = true := by
    rw [existsWalk_put, h1]; rfl
  refine ⟨?_, (put_err t k).2 hle, ?_, (put_err _ k).2 (by rw [put_max]; exact hle), ?_, ?_⟩
  · rw [put_newlyAdded]; simp [hne, hle, hw]
  · rw [put_newlyAdded, h1]; simp
  · rw [exists_eq, put_max, h1]; simp [hle]
  · rw [exists_eq, put_max, put_max, h2]; simp [hle]

/-- C6 on the trie of the test suite and the key `"tes"`. -/
theorem C6_put_twice_witness :
    keyTes ≠ [] ∧ (keyTes.length : Int) ≤ sampleTrie.maxKeySizeInBytes ∧
      sampleTrie.Exists keyTes = false ∧
      (sampleTrie.Put keyTes).newlyAdded = true ∧
      ((sampleTrie.Put keyTes).store.Put keyTes).newlyAdded = false :=
  ⟨by decide, by decide, by decide,
    (C6_put_twice sampleTrie keyTes (by decide) (by decide) (by decide)).1,
    (C6_put_twice sampleTrie keyTes (by decide) (by decide) (by decide)).2.2.1⟩

theorem put_store_of_gt {t : PrefixStoreByteTrie} {k : Key}
    (h : (k.length : Int) > t.maxKeySizeInBytes) : (t.Put k).store = t := by
  unfold PrefixStoreByteTrie.Put
  simp [h]

theorem put_store_nil (t : PrefixStoreByteTrie) : (t.Put []).store = t := by
  unfold PrefixStoreByteTrie.Put
  split <;> rfl

theorem putWalk_of_existsWalk {m : Int} (k : Key) {t : PrefixStoreByteTrie} (h : Inv m t)
    (hk : existsWalk k t = true) : (putWalk m k t).1 = t := by
  induction k generalizing t with
  | nil =>
    cases t with
    | mk l cs mx =>
      have : l = true := by simpa [existsWalk, PrefixStoreByteTrie.isLast] using hk
      rw [putWalk_nil, this]
  | cons b rest ih =>
    cases h with
    | @mk l cs mx h1 h2 h3 h4 =>
      rw [putWalk_cons]
      simp only [existsWalk, PrefixStoreByteTrie.children] at hk
      cases hl : lookup (byteToInt b) cs with
      | none => rw [hl] at hk; cases hk
      | some child =>
        rw [hl] at hk
        have hc : childOrNew m b cs = child := by simp [childOrNew, hl]
        rw [hc, ih (h4 _ (lookup_mem hl)) hk, setChild_of_lookup h2 hl]

theorem put_of_exists {t : PrefixStoreByteTrie} (h : Inv t.maxKeySizeInBytes t) {k : Key}
    (hk : t.Exists k = true) : (t.Put k).store = t := by
  rw [exists_eq] at hk
  simp only [Bool.and_eq_true, decide_eq_true_eq] at hk
  unfold PrefixStoreByteTrie.Put
  split
  · rfl
  · cases k with
    | nil => rfl
    | cons b rest => exact putWalk_of_existsWalk _ h hk.2

/-- C7: on a reachable trie, `Put k` of a key for which `Exists k` is true
leaves the trie as it was (same flags, same children maps at every node); and
for every key, `Put k` twice leaves the same trie as `Put k` once. -/
theorem C7_reput_no_change (t : PrefixStoreByteTrie) (k : Key) (hreach : Reachable t) :
    (t.Exists k = true → (t.Put k).store = t) ∧
      ((t.Put k).store.Put k).store = (t.Put k).store := by
  have hinv := reachable_inv hreach
  refine ⟨fun hk => put_of_exists hinv hk, ?_⟩
  have hinv' : Inv (t.Put k).store.maxKeySizeInBytes (t.Put k).store :=
    reachable_inv (Reachable.put k hreach)
  by_cases hle : (k.length : Int) ≤ t.maxKeySizeInBytes
  · by_cases hne : k = []
    · subst hne
      rw [put_store_nil, put_store_nil]
    · apply put_of_exists hinv'
      rw [exists_eq, put_max, existsWalk_put]
      simp [hle, hne]
  · have h1 : (k.length : Int) > (t.Put k).store.maxKeySizeInBytes := by
      rw [put_max]; omega
    exact put_store_of_gt h1

/-- C7 on the trie of the test suite and its key `"te"`. -/
theorem C7_reput_no_change_witness :
    Reachable sampleTrie ∧ sampleTrie.Exists keyTe = true ∧
      (sampleTrie.Put keyTe).store = sampleTrie :=
  ⟨sampleTrie_reachable, by decide,
    (C7_reput_no_change sampleTrie keyTe sampleTrie_reachable).1 (by decide)⟩

end Tripod

namespace Tripod

/-- C8: on every trie with `maxKeySizeInBytes >= 0`, `Put` of the empty key
returns `(false, nil)` and leaves the trie as it was; and on every reachable
trie (reached by any `Put` calls, the empty key included) `Exists` of the
empty key is false, before and after one more `Put` of the empty key. -/
theorem C8_empty_key (t : PrefixStoreByteTrie) :
    (0 ≤ t.maxKeySizeInBytes →
        (t.Put []).newlyAdded = false ∧ (t.Put []).err = none ∧ (t.Put []).store = t) ∧
      (Reachable t → t.Exists [] = false ∧ (t.Put []).store.Exists [] = false) := by
  refine ⟨?_, ?_⟩
  · intro h0
    refine ⟨?_, (put_err t []).2 (by simpa using h0), put_store_nil t⟩
    rw [put_newlyAdded]; simp
  · intro hreach
    have key : ∀ u, Reachable u → u.Exists [] = false := by
      intro u hu
      rw [exists_eq]
      cases h : existsWalk [] u with
      | false => simp
      | true => exact absurd rfl (reachable_existsWalk hu h).1
    exact ⟨key t hreach, key _ (Reachable.put [] hreach)⟩

/-- C8 on the trie of the test suite. -/
theorem C8_empty_key_witness :
    0 ≤ sampleTrie.maxKeySizeInBytes ∧ Reachable sampleTrie ∧
      (sampleTrie.Put []).newlyAdded = false ∧ (sampleTrie.Put []).err = none ∧
      (sampleTrie.Put []).store = sampleTrie ∧ sampleTrie.Exists [] = false :=
  ⟨by decide, sampleTrie_reachable,
    ((C8_empty_key sampleTrie).1 (by decide)).1,
    ((C8_empty_key sampleTrie).1 (by decide)).2.1,
    ((C8_empty_key sampleTrie).1 (by decide)).2.2,
    ((C8_empty_key sampleTrie).2 sampleTrie_reachable).1⟩

/-- C9: on every trie, whatever it holds, and for every key `k` with
`len k > maxKeySizeInBytes`, `Exists k` is false and `PrefixSearch k` returns
the empty list, in stored order and in every other run, whatever the
allocation limit. -/
theorem C9_too_long_query (t : PrefixStoreByteTrie) (k : Key)
    (h : (k.length : Int) > t.maxKeySizeInBytes) :
    t.Exists k = false ∧ (∀ maxAlloc, t.PrefixSearch maxAlloc k = some []) ∧
      ∀ maxAlloc res, PrefixSearchRun maxAlloc t k res → res = some [] := by
  refine ⟨?_, ?_, ?_⟩
  · unfold PrefixStoreByteTrie.Exists
    simp [h]
  · intro maxAlloc
    unfold PrefixStoreByteTrie.PrefixSearch
    simp [h]
  · intro maxAlloc res hr
    unfold PrefixSearchRun at hr
    simpa [h] using hr

/-- C9 on the trie of the test suite and the key of 129 bytes. -/
theorem C9_too_long_query_witness :
    (keyTooLong.length : Int) > sampleTrie.maxKeySizeInBytes ∧
      sampleTrie.Exists keyTooLong = false ∧
      sampleTrie.PrefixSearch maxAlloc64 keyTooLong = some [] :=
  ⟨by rw [sampleTrie_max]; simp [keyTooLong],
    (C9_too_long_query sampleTrie keyTooLong (by rw [sampleTrie_max]; simp [keyTooLong])).1,
    (C9_too_long_query sampleTrie keyTooLong
      (by rw [sampleTrie_max]; simp [keyTooLong])).2.1 maxAlloc64⟩

/-- C10: on every trie and for every key `k` with
`len k > maxKeySizeInBytes`, `Put k` returns an error and `newlyAdded = false`
and the trie after the call is the trie before it; so `Exists`,
`PrefixSearch` in stored order and the runs of `PrefixSearch` are the same
after the call as before, for every argument and every allocation limit. -/
theorem C10_too_long_put_atomic (t : PrefixStoreByteTrie) (k : Key)
    (h : (k.length : Int) > t.maxKeySizeInBytes) :
    (t.Put k).err ≠ none ∧ (t.Put k).newlyAdded = false ∧ (t.Put k).store = t ∧
      (∀ q, (t.Put k).store.Exists q = t.Exists q) ∧
      (∀ maxAlloc p, (t.Put k).store.PrefixSearch maxAlloc p = t.PrefixSearch maxAlloc p) ∧
      (∀ maxAlloc p res,
        PrefixSearchRun maxAlloc (t.Put k).store p res ↔ PrefixSearchRun maxAlloc t p res) := by
  have hs : (t.Put k).store = t := put_store_of_gt h
  refine ⟨?_, ?_, hs, ?_, ?_, ?_⟩
  · rw [Ne, put_err]; omega
  · rw [put_newlyAdded]
    have : ¬ ((k.length : Int) ≤ t.maxKeySizeInBytes) := by omega
    simp [this]
  · intro q; rw [hs]
  · intro maxAlloc p; rw [hs]
  · intro maxAlloc p res; rw [hs]

/-- C10 on a trie of limit 2 holding the key `"te"` and the over-length key
`"tes"`. -/
theorem C10_too_long_put_atomic_witness :
    (keyTes.length : Int) > (putAll (CreatePrefixStoreByteTrie 2) [keyTe]).maxKeySizeInBytes ∧
      ((putAll (CreatePrefixStoreByteTrie 2) [keyTe]).Put keyTes).err ≠ none ∧
      ((putAll (CreatePrefixStoreByteTrie 2) [keyTe]).Put keyTes).store =
        putAll (CreatePrefixStoreByteTrie 2) [keyTe] :=
  ⟨by decide,
    (C10_too_long_put_atomic (putAll (CreatePrefixStoreByteTrie 2) [keyTe]) keyTes (by decide)).1,
    (C10_too_long_put_atomic (putAll (CreatePrefixStoreByteTrie 2) [keyTe]) keyTes
      (by decide)).2.2.1⟩

end Tripod

/-! ## No path is listed twice -/

namespace Tripod

theorem intToByte_lt_of_lt {a b : Int} (ha : 0 ≤ a ∧ a < 256) (hb : 0 ≤ b ∧ b < 256)
    (h : intToByte a = intToByte b) : a = b := by
  have := congrArg byteToInt h
  rwa [byteToInt_intToByte ha.1 ha.2, byteToInt_intToByte hb.1 hb.2] at this

theorem nodup_suffixesRange {m : Int} {cs : List (Int × PrefixStoreByteTrie)}
    (hs : SortedKeys cs) (hr : ∀ c ∈ cs, 0 ≤ c.1 ∧ c.1 < 256) (hi : ∀ c ∈ cs, Inv m c.2)
    (ih : ∀ c ∈ cs, SuffixesNodup c.2) : (suffixesRange cs).Nodup := by
  unfold SortedKeys at hs
  induction cs with
  | nil => simp [suffixesRange_nil]
  | cons c rest ihl =>
    obtain ⟨ch, tt⟩ := c
    rw [List.pairwise_cons] at hs
    rw [suffixesRange_cons, List.nodup_append]
    refine ⟨?_, ?_, ?_⟩
    · refine List.Nodup.map ?_ (ih (ch, tt) (List.mem_cons_self _ _) m
        (hi _ (List.mem_cons_self _ _)))
      intro a b hab
      injection hab
    · exact ihl hs.2 (fun c hc => hr c (List.mem_cons_of_mem _ hc))
        (fun c hc => hi c (List.mem_cons_of_mem _ hc))
        (fun c hc => ih c (List.mem_cons_of_mem _ hc))
    · intro s hs1 hs2
      obtain ⟨r, _, rfl⟩ := List.mem_map.1 hs1
      obtain ⟨c, hc, r', _, he⟩ := mem_suffixesRange.1 hs2
      injection he with h1 _
      have heq : ch = c.1 := intToByte_lt_of_lt (hr _ (List.mem_cons_self _ _))
        (hr _ (List.mem_cons_of_mem _ hc)) h1
      have hlt : ch < c.1 := hs.1 c hc
      omega

theorem nodup_suffixes (t : PrefixStoreByteTrie) : SuffixesNodup t := by
  induction t using trie_induction with
  | h l cs mx ih =>
    intro m hinv
    cases hinv with
    | mk h1 h2 h3 h4 =>
      rw [suffixes_mk, List.nodup_append]
      refine ⟨by cases l <;> simp, nodup_suffixesRange h2 h3 h4 ih, ?_⟩
      intro s hs1 hs2
      have : s = [] := by
        cases l
        · simp at hs1
        · simpa using hs1
      subst this
      exact nil_not_mem_suffixesRange cs hs2

theorem nodup_suffixesRange_children {m : Int} {t : PrefixStoreByteTrie} (h : Inv m t) :
    (suffixesRange t.children).Nodup := by
  cases h with
  | mk h1 h2 h3 h4 =>
    exact nodup_suffixesRange h2 h3 h4 (fun c _ => nodup_suffixes c.2)

/-- The list `PrefixSearch` finds, in stored order, on a trie of the shape
`Inv` has no repeated member. -/
theorem prefixSearch_nodup {maxAlloc : Int} {t : PrefixStoreByteTrie}
    (hinv : Inv t.maxKeySizeInBytes t)
    (p : Key) {out : List Key} (ho : t.PrefixSearch maxAlloc p = some out) : out.Nodup := by
  unfold PrefixStoreByteTrie.PrefixSearch at ho
  by_cases h : (p.length : Int) > t.maxKeySizeInBytes
  · rw [if_pos h] at ho
    injection ho with ho
    rw [← ho]; exact List.nodup_nil
  · rw [if_neg h, get_eq_of_le h] at ho
    cases hg : getWalk p t with
    | none =>
      rw [hg] at ho
      injection ho with ho
      rw [← ho]; exact List.nodup_nil
    | some sub =>
      rw [hg] at ho
      have hsub : Inv t.maxKeySizeInBytes sub := inv_getWalk hinv hg
      have hmax : makeslicePanics 1 maxAlloc sub.maxKeySizeInBytes = false := by
        cases hm : makeslicePanics 1 maxAlloc sub.maxKeySizeInBytes with
        | false => rfl
        | true =>
          unfold PrefixStoreByteTrie.list at ho
          simp [hm] at ho
      unfold PrefixStoreByteTrie.list at ho
      simp only [hmax, Bool.false_eq_true, if_false, dfsRange_eq_suffixes, List.nil_append,
        Option.some.injEq] at ho
      have hnd : ((suffixesRange sub.children).map (fun s => p ++ s)).Nodup :=
        List.Nodup.map (fun a b hab => List.append_cancel_left hab)
          (nodup_suffixesRange_children hsub)
      have hp : p ∉ (suffixesRange sub.children).map (fun s => p ++ s) := by
        intro hmem
        obtain ⟨s, hs, he⟩ := List.mem_map.1 hmem
        have : s = [] := by simpa using he
        subst this
        exact nil_not_mem_suffixesRange _ hs
      rw [← ho]
      by_cases hl : sub.isLast = true
      · simp only [hl, if_true]
        exact List.nodup_cons.2 ⟨hp, hnd⟩
      · simp only [hl]
        exact hnd

/-- A run of `PrefixSearch` that returns a list is a run under every
allocation limit that lets the trie's own limit through: the list does not
depend on the allocation limit. -/
theorem prefixSearchRun_some_limit {maxAlloc : Int} {t : PrefixStoreByteTrie}
    (hinv : Inv t.maxKeySizeInBytes t) {p : Key} {out : List Key}
    (hr : PrefixSearchRun maxAlloc t p (some out)) :
    PrefixSearchRun t.maxKeySizeInBytes t p (some out) := by
  unfold PrefixSearchRun at hr ⊢
  by_cases h : (p.length : Int) > t.maxKeySizeInBytes
  · rw [if_pos h] at hr ⊢
    exact hr
  · rw [if_neg h] at hr ⊢
    cases hg : t.get p with
    | none =>
      rw [hg] at hr
      exact hr
    | some sub =>
      rw [hg] at hr
      obtain ⟨lr, hl, hres⟩ := hr
      have hsub : Inv t.maxKeySizeInBytes sub := by
        rw [get_eq_of_le h] at hg
        exact inv_getWalk hinv hg
      have hok : makeslicePanics 1 t.maxKeySizeInBytes sub.maxKeySizeInBytes = false :=
        list_make_ok hsub (fun _ => le_refl _) h
      cases hl with
      | panics _ => cases hres
      | @returns order entries _ hperm hrange =>
        exact ⟨some entries, ListRun.returns hok hperm hrange, hres⟩

/-- On a reachable trie, a list returned by a run of `PrefixSearch` has no
repetition and its members are the keys that start with the prefix and on
which the walk of `Exists` succeeds, whatever the allocation limit. -/
theorem prefixSearchRun_some {maxAlloc : Int} {t : PrefixStoreByteTrie} (hreach : Reachable t)
    {p : Key} {out : List Key} (hr : PrefixSearchRun maxAlloc t p (some out)) :
    out.Nodup ∧ ∀ k, k ∈ out ↔ (p <+: k ∧ existsWalk k t = true) := by
  have hinv := reachable_inv hreach
  have hr' := prefixSearchRun_some_limit hinv hr
  obtain ⟨o, out', h1, h2, hp⟩ := prefixSearchRun_perm hinv (fun _ => le_refl _) hr'
  injection h1 with h1
  subst h1
  obtain ⟨o', ho, hmem⟩ := @prefixSearch_mem t.maxKeySizeInBytes t hinv
    (fun _ => le_refl _) (fun k hk => (reachable_existsWalk hreach hk).2) p
  rw [h2] at ho
  injection ho with ho
  subst ho
  exact ⟨hp.nodup_iff.2 (prefixSearch_nodup hinv p h2), fun k => by rw [hp.mem_iff, hmem]⟩

/-- On a reachable trie whose limit is within the allocation limit, every run
of `PrefixSearch` returns a list. -/
theorem prefixSearchRun_returns {maxAlloc : Int} {t : PrefixStoreByteTrie}
    (hreach : Reachable t) (hcap : t.maxKeySizeInBytes ≤ maxAlloc) {p : Key}
    {res : Option (List Key)} (hr : PrefixSearchRun maxAlloc t p res) :
    ∃ out, res = some out := by
  obtain ⟨out, _, h1, _, _⟩ := prefixSearchRun_perm (reachable_inv hreach) (fun _ => hcap) hr
  exact ⟨out, h1⟩

end Tripod

namespace Tripod

theorem mem_acceptedKeys (t : PrefixStoreByteTrie) (ks : List Key) (k : Key) :
    k ∈ acceptedKeys t ks ↔
      (k ∈ ks ∧ k ≠ [] ∧ (k.length : Int) ≤ t.maxKeySizeInBytes) := by
  have hlog := mem_putLog t ks k
  unfold acceptedKeys
  rw [List.mem_map]
  constructor
  · rintro ⟨⟨k', a, e⟩, he, rfl⟩
    rw [List.mem_filter] at he
    obtain ⟨hmem, hcond⟩ := he
    simp only [Bool.and_eq_true, Option.isNone_iff_eq_none, Bool.not_eq_true',
      List.isEmpty_eq_false] at hcond
    obtain ⟨h1, h2⟩ := hcond
    subst h1
    have := hlog.1 ⟨a, hmem⟩
    exact ⟨this.1, by simpa using h2, this.2⟩
  · rintro ⟨h1, h2, h3⟩
    obtain ⟨a, ha⟩ := hlog.2 ⟨h1, h3⟩
    refine ⟨(k, a, none), ?_, rfl⟩
    rw [List.mem_filter]
    refine ⟨ha, ?_⟩
    cases k with
    | nil => exact absurd rfl h2
    | cons b r => rfl

theorem count_eq_one_of_nodup {out : List Key} {k : Key} (hnd : out.Nodup) (hm : k ∈ out) :
    out.count k = 1 := by
  have h : out.count k = @List.count Key instBEqOfDecidableEq k out := by
    unfold List.count
    apply List.countP_congr
    intro x _
    simp
  rw [h]
  exact List.count_eq_one_of_mem hnd hm

/-- C11 as stated fails for a limit above the allocation limit: with limit
`math.MaxInt64` on a 64-bit runtime and the one stored key `"a"`, every run of
`PrefixSearch` of the empty prefix panics in the `make` of `list`, so no list
of length one is returned. -/
theorem C11_prefixSearch_each_once_counterexample :
    (((acceptedKeys (CreatePrefixStoreByteTrie maxInt64) [keyA]).filter
        (fun k => decide ([] <+: k))).dedup).length = 1 ∧
      PrefixSearchRun maxAlloc64 (putAll (CreatePrefixStoreByteTrie maxInt64) [keyA]) [] none ∧
      ∀ res, PrefixSearchRun maxAlloc64 (putAll (CreatePrefixStoreByteTrie maxInt64) [keyA]) []
        res → res = none :=
  ⟨by decide, prefixSearchRun_prefixSearch maxAlloc64 hugeTrie [],
    fun _ hr => prefixSearchRun_none_reachable hugeTrie_reachable (by decide) (by decide) hr⟩

/-- C11, amended: for a trie built from `CreatePrefixStoreByteTrie m` by the
calls `Put k` for `k` in `ks`, with `m` not above the allocation limit
`maxAlloc` of `make`, and a prefix `p`, every run of `PrefixSearch p` returns
a list without repetition whose members are the successfully inserted keys
that start with `p`: each such key occurs exactly once, however often it was
put, and the length of the list is the number of distinct such keys. -/
theorem C11_prefixSearch_each_once (maxAlloc m : Int) (ks : List Key) (p : Key)
    (res : Option (List Key)) (hcap : m ≤ maxAlloc)
    (hrun : PrefixSearchRun maxAlloc (putAll (CreatePrefixStoreByteTrie m) ks) p res) :
    ∃ out, res = some out ∧ out.Nodup ∧
      (∀ k ∈ acceptedKeys (CreatePrefixStoreByteTrie m) ks, p <+: k → out.count k = 1) ∧
      (∀ k ∈ out, k ∈ acceptedKeys (CreatePrefixStoreByteTrie m) ks ∧ p <+: k) ∧
      out.length =
        (((acceptedKeys (CreatePrefixStoreByteTrie m) ks).filter
          (fun k => decide (p <+: k))).dedup).length := by
  have hreach : Reachable (putAll (CreatePrefixStoreByteTrie m) ks) :=
    reachable_putAll (Reachable.create m) ks
  have hinv := reachable_inv hreach
  have hmax : (putAll (CreatePrefixStoreByteTrie m) ks).maxKeySizeInBytes = m := by
    rw [putAll_max]; rfl
  have hcap' : 0 ≤ (putAll (CreatePrefixStoreByteTrie m) ks).maxKeySizeInBytes →
      (putAll (CreatePrefixStoreByteTrie m) ks).maxKeySizeInBytes ≤ maxAlloc := by
    intro _; rw [hmax]; exact hcap
  obtain ⟨out, out', h1, h2, hp⟩ := prefixSearchRun_perm hinv hcap' hrun
  obtain ⟨o, ho, hmem⟩ :=
    prefixSearch_mem hinv hcap' (fun k hk => (reachable_existsWalk hreach hk).2) p
  rw [h2] at ho
  injection ho with ho
  subst ho
  have hnd : out.Nodup := hp.nodup_iff.2 (prefixSearch_nodup hinv p h2)
  have hchar : ∀ k, k ∈ out ↔ (k ∈ acceptedKeys (CreatePrefixStoreByteTrie m) ks ∧ p <+: k) := by
    intro k
    rw [hp.mem_iff, hmem, existsWalk_history, mem_acceptedKeys]
    simp only [CreatePrefixStoreByteTrie, PrefixStoreByteTrie.maxKeySizeInBytes]
    tauto
  refine ⟨out, h1, hnd, ?_, fun k hk => (hchar k).1 hk, ?_⟩
  · intro k hk hpk
    exact count_eq_one_of_nodup hnd ((hchar k).2 ⟨hk, hpk⟩)
  · apply List.Perm.length_eq
    rw [List.perm_ext_iff_of_nodup hnd (List.nodup_dedup _)]
    intro k
    rw [hchar, List.mem_dedup, List.mem_filter]
    simp

/-- C11 amended, on limit 128 and `repeatedPuts`, with the empty prefix and
the allocation limit of 64-bit Linux: the run in stored order returns the
three distinct keys. -/
theorem C11_prefixSearch_each_once_witness :
    (128 : Int) ≤ maxAlloc64 ∧
      PrefixSearchRun maxAlloc64 (putAll (CreatePrefixStoreByteTrie 128) repeatedPuts) []
        (some [keyTe, keyTest, keyTest123]) ∧
      ∃ out, some [keyTe, keyTest, keyTest123] = some out ∧ out.Nodup ∧
        (∀ k ∈ acceptedKeys (CreatePrefixStoreByteTrie 128) repeatedPuts,
          [] <+: k → out.count k = 1) ∧
        (∀ k ∈ out, k ∈ acceptedKeys (CreatePrefixStoreByteTrie 128) repeatedPuts ∧ [] <+: k) ∧
        out.length =
          (((acceptedKeys (CreatePrefixStoreByteTrie 128) repeatedPuts).filter
            (fun k => decide ([] <+: k))).dedup).length :=
  ⟨by decide, prefixSearchRun_prefixSearch _ _ _,
    C11_prefixSearch_each_once maxAlloc64 128 repeatedPuts [] _ (by decide)
      (prefixSearchRun_prefixSearch _ _ _)⟩

end Tripod

/-! ## Paths created by `Put` -/

namespace Tripod

theorem getWalk_nil (t : PrefixStoreByteTrie) : getWalk [] t = some t := rfl

theorem getWalk_cons_mk (b : Byte) (r : Key) (l : Bool)
    (cs : List (Int × PrefixStoreByteTrie)) (mx : Int) :
    getWalk (b :: r) (.mk l cs mx) =
      match lookup (byteToInt b) cs with
      | none => none
      | some child => getWalk r child := rfl

theorem getWalk_childOrNew (m : Int) (b : Byte) (r : Key) (l : Bool)
    (cs : List (Int × PrefixStoreByteTrie)) (mx : Int) :
    (getWalk r (childOrNew m b cs)).isSome =
      ((getWalk (b :: r) (.mk l cs mx)).isSome || decide (r = [])) := by
  rw [getWalk_cons_mk]
  unfold childOrNew
  cases hl : lookup (byteToInt b) cs with
  | none =>
    simp only [getWalk_create]
    by_cases hr : r = [] <;> simp [hr]
  | some c =>
    simp only
    cases r with
    | nil => simp [getWalk_nil]
    | cons x y => simp

/-- What the loop of `Put` does to the paths of the trie: the paths after it
are the paths before it and the initial segments of the key. -/
theorem getWalk_putWalk_isSome (m : Int) (k q : Key) (t : PrefixStoreByteTrie) :
    (getWalk q (putWalk m k t).1).isSome = ((getWalk q t).isSome || decide (q <+: k)) := by
  induction k generalizing q t with
  | nil =>
    cases t with
    | mk l cs mx =>
      rw [putWalk_nil]
      cases q with
      | nil => simp [getWalk_nil]
      | cons b r => simp [getWalk_cons_mk]
  | cons b rest ih =>
    cases t with
    | mk l cs mx =>
      rw [putWalk_cons]
      cases q with
      | nil =>
        simp [getWalk_nil]
      | cons b' r =>
        by_cases hb : b' = b
        · subst hb
          rw [getWalk_cons_mk, lookup_setChild_self]
          simp only
          rw [ih, getWalk_childOrNew m b' r l cs mx]
          have hp : (b' :: r <+: b' :: rest) ↔ r <+: rest := by
            rw [List.cons_prefix_cons]; simp
          by_cases hr : r = []
          · subst hr
            have : ([] : Key) <+: rest := ⟨rest, rfl⟩
            simp [hp, this]
          · simp [hp, hr]
        · have hne : byteToInt b' ≠ byteToInt b := fun h => hb (byteToInt_injective h)
          have hp : ¬ (b' :: r <+: b :: rest) := by
            rw [List.cons_prefix_cons]; simp [hb]
          rw [getWalk_cons_mk, lookup_setChild_ne _ _ hne, getWalk_cons_mk]
          simp [hp]

/-- What `Put` does to the paths of the trie. -/
theorem getWalk_put_isSome (t : PrefixStoreByteTrie) (k q : Key) :
    (getWalk q (t.Put k).store).isSome =
      ((getWalk q t).isSome ||
        (decide (q <+: k) && decide ((k.length : Int) ≤ t.maxKeySizeInBytes))) := by
  by_cases hle : (k.length : Int) ≤ t.maxKeySizeInBytes
  · cases k with
    | nil =>
      rw [put_store_nil]
      cases q with
      | nil => simp [getWalk_nil]
      | cons b r => simp
    | cons b rest =>
      have hgt : ¬ (((b :: rest).length : Int) > t.maxKeySizeInBytes) := by omega
      have hs : (t.Put (b :: rest)).store = (putWalk t.maxKeySizeInBytes (b :: rest) t).1 := by
        unfold PrefixStoreByteTrie.Put
        simp only [hgt, if_false]
      rw [hs, getWalk_putWalk_isSome]
      have hle2 : (rest.length : Int) + 1 ≤ t.maxKeySizeInBytes := by simpa using hle
      simp [hle2]
  · have hgt : (k.length : Int) > t.maxKeySizeInBytes := by omega
    rw [put_store_of_gt hgt]
    simp [hle]

theorem getWalk_putAll_isSome (t : PrefixStoreByteTrie) (ks : List Key) (q : Key) :
    (getWalk q (putAll t ks)).isSome = true ↔
      ((getWalk q t).isSome = true ∨
        ∃ k ∈ ks, q <+: k ∧ (k.length : Int) ≤ t.maxKeySizeInBytes) := by
  induction ks generalizing t with
  | nil => simp [putAll]
  | cons a ks ih =>
    rw [putAll, ih, put_max, getWalk_put_isSome]
    simp only [Bool.or_eq_true, Bool.and_eq_true, decide_eq_true_eq, List.mem_cons,
      exists_eq_or_imp]
    tauto

/-- In a reachable trie every node other than the root lies within the limit,
and so does the root when the limit is not negative. -/
theorem reachable_depth {t : PrefixStoreByteTrie} (h : Reachable t) {q : Key}
    (hq : (getWalk q t).isSome = true) (hroot : 0 ≤ t.maxKeySizeInBytes ∨ q ≠ []) :
    (q.length : Int) ≤ t.maxKeySizeInBytes := by
  obtain ⟨m, ks, rfl⟩ := (reachable_iff t).1 h
  rw [putAll_max] at hroot ⊢
  rcases (getWalk_putAll_isSome _ ks q).1 hq with h1 | ⟨k, _, hp, hle⟩
  · rw [getWalk_create] at h1
    have hq0 : q = [] := by
      by_contra hne
      simp [hne] at h1
    subst hq0
    rcases hroot with h0 | h0
    · simpa using h0
    · exact absurd rfl h0
  · have : q.length ≤ k.length := hp.length_le
    omega

end Tripod

namespace Tripod

theorem reaches_iff_getWalk (t : PrefixStoreByteTrie) (key : Key) (n : PrefixStoreByteTrie) :
    Reaches t key n ↔ getWalk key t = some n := by
  constructor
  · intro h
    induction h with
    | here t => rfl
    | step hl _ ih => simp only [getWalk, hl]; exact ih
  · intro h
    induction key generalizing t with
    | nil =>
      simp only [getWalk, Option.some.injEq] at h
      rw [← h]; exact Reaches.here t
    | cons b rest ih =>
      simp only [getWalk] at h
      cases hl : lookup (byteToInt b) t.children with
      | none => rw [hl] at h; cases h
      | some child =>
        rw [hl] at h
        exact Reaches.step hl (ih child h)

theorem getWalk_none_iff (t : PrefixStoreByteTrie) (key : Key) :
    getWalk key t = none ↔ MissingChild t key := by
  induction key generalizing t with
  | nil =>
    constructor
    · intro h; cases h
    · rintro ⟨pre, b, post, n, he, _, _⟩
      cases pre <;> cases he
  | cons b rest ih =>
    cases hl : lookup (byteToInt b) t.children with
    | none =>
      simp only [getWalk, hl, true_iff]
      exact ⟨[], b, rest, t, rfl, Reaches.here t, hl⟩
    | some child =>
      simp only [getWalk, hl]
      rw [ih child]
      constructor
      · rintro ⟨pre, b', post, n, he, hr, hn⟩
        exact ⟨b :: pre, b', post, n, by rw [he]; rfl, Reaches.step hl hr, hn⟩
      · rintro ⟨pre, b', post, n, he, hr, hn⟩
        cases pre with
        | nil =>
          simp only [List.nil_append, List.cons.injEq] at he
          cases hr
          rw [he.1, hn] at hl
          cases hl
        | cons x pre' =>
          simp only [List.cons_append, List.cons.injEq] at he
          cases hr with
          | step hl' hr' =>
            rw [← he.1, hl] at hl'
            injection hl' with hl'
            subst hl'
            exact ⟨pre', b', post, n, he.2, hr', hn⟩

theorem existsWalk_eq_getWalk (key : Key) (t : PrefixStoreByteTrie) :
    existsWalk key t =
      match getWalk key t with
      | none => false
      | some n => n.isLast := by
  induction key generalizing t with
  | nil => rfl
  | cons b rest ih =>
    simp only [existsWalk, getWalk]
    cases lookup (byteToInt b) t.children with
    | none => rfl
    | some child => exact ih child

/-- C13 as stated fails for a limit above the allocation limit: on
`CreatePrefixStoreByteTrie math.MaxInt64`, on a 64-bit runtime,
`PrefixSearch` of the empty prefix does not return the empty list: it finds
the root, and the `make` of `list` panics, in stored order and in every
run. -/
theorem C13_create_empty_counterexample :
    (CreatePrefixStoreByteTrie maxInt64).PrefixSearch maxAlloc64 [] = none ∧
      PrefixSearchRun maxAlloc64 (CreatePrefixStoreByteTrie maxInt64) [] none ∧
      ¬ PrefixSearchRun maxAlloc64 (CreatePrefixStoreByteTrie maxInt64) [] (some []) := by
  refine ⟨by decide,
    prefixSearchRun_prefixSearch maxAlloc64 (CreatePrefixStoreByteTrie maxInt64) [], ?_⟩
  intro hr
  have := prefixSearchRun_none_reachable (Reachable.create maxInt64) (by decide) (by decide) hr
  cases this

/-- C13, amended: for every `m`, the root of `CreatePrefixStoreByteTrie m` has
no children and a false flag, `Exists k` is false for every key, and
`PrefixSearch p` returns the empty list, in stored order and in every other
run, for every non-empty prefix, and for the empty prefix too when `m` is not
above the allocation limit `maxAlloc` of `make`. -/
theorem C13_create_empty (maxAlloc m : Int) :
    (CreatePrefixStoreByteTrie m).children = [] ∧
      (CreatePrefixStoreByteTrie m).isLast = false ∧
      (∀ k, (CreatePrefixStoreByteTrie m).Exists k = false) ∧
      (∀ p, p ≠ [] ∨ m ≤ maxAlloc →
        (CreatePrefixStoreByteTrie m).PrefixSearch maxAlloc p = some []) ∧
      (∀ p res, p ≠ [] ∨ m ≤ maxAlloc →
        PrefixSearchRun maxAlloc (CreatePrefixStoreByteTrie m) p res → res = some []) := by
  have hmaxc : (CreatePrefixStoreByteTrie m).maxKeySizeInBytes = m := rfl
  have hrun : ∀ p res, p ≠ [] ∨ m ≤ maxAlloc →
      PrefixSearchRun maxAlloc (CreatePrefixStoreByteTrie m) p res → res = some [] := by
    intro p res hp hr
    unfold PrefixSearchRun at hr
    by_cases h : (p.length : Int) > (CreatePrefixStoreByteTrie m).maxKeySizeInBytes
    · rwa [if_pos h] at hr
    · rw [if_neg h, get_eq_of_le h, getWalk_create] at hr
      cases p with
      | nil =>
        simp only [if_true] at hr
        obtain ⟨lr, hl, hres⟩ := hr
        have hcap : m ≤ maxAlloc := by
          rcases hp with hp | hp
          · exact absurd rfl hp
          · exact hp
        have h0 : 0 ≤ m := by
          rw [hmaxc] at h
          simpa using h
        have hok : makeslicePanics 1 maxAlloc (CreatePrefixStoreByteTrie m).maxKeySizeInBytes
            = false := by
          rw [hmaxc]
          exact makeslicePanics_false h0 (by omega)
        cases hl with
        | panics hpan => rw [hok] at hpan; cases hpan
        | @returns order out _ hperm hrange =>
          have ho : order = [] := List.Perm.eq_nil hperm
          subst ho
          cases hrange
          simpa [CreatePrefixStoreByteTrie, PrefixStoreByteTrie.isLast] using hres
      | cons b r =>
        simpa using hr
  refine ⟨rfl, rfl, ?_, ?_, hrun⟩
  · intro k
    rw [exists_eq, existsWalk_create]
    simp
  · intro p hp
    exact hrun p _ hp (prefixSearchRun_prefixSearch maxAlloc _ p)

/-- C13 amended, on limit 5 and the empty prefix, with the allocation limit of
64-bit Linux. -/
theorem C13_create_empty_witness :
    (([] : Key) ≠ [] ∨ (5 : Int) ≤ maxAlloc64) ∧
      (CreatePrefixStoreByteTrie 5).PrefixSearch maxAlloc64 [] = some [] :=
  ⟨Or.inr (by decide), (C13_create_empty maxAlloc64 5).2.2.2.1 [] (Or.inr (by decide))⟩

/-- C15: for every trie and keys `k`, `q`: when `q` differs from `k`,
`Exists q` after `Put k` equals `Exists q` before; and `get q` is a node
after `Put k` exactly when it was a node before or `q` is an initial segment
of `k` and `len k <= maxKeySizeInBytes`. -/
theorem C15_put_frame (t : PrefixStoreByteTrie) (k q : Key) :
    (q ≠ k → (t.Put k).store.Exists q = t.Exists q) ∧
      (((t.Put k).store.get q).isSome = true ↔
        ((t.get q).isSome = true ∨
          (q <+: k ∧ (k.length : Int) ≤ t.maxKeySizeInBytes))) := by
  refine ⟨?_, ?_⟩
  · intro hne
    rw [exists_eq, exists_eq, put_max, existsWalk_put]
    simp [hne]
  · unfold PrefixStoreByteTrie.get
    rw [put_max]
    by_cases hq : (q.length : Int) > t.maxKeySizeInBytes
    · simp only [hq, if_true, Option.isSome_none, Bool.false_eq_true, false_or, false_iff,
        not_and]
      intro hp
      have : q.length ≤ k.length := hp.length_le
      omega
    · simp only [hq, if_false, getWalk_put_isSome, Bool.or_eq_true, Bool.and_eq_true,
        decide_eq_true_eq]

/-- C15 on the trie of the test suite: `"tes"` is put, `"test"` keeps its
answer, and the path `"tes"` is there afterwards. -/
theorem C15_put_frame_witness :
    keyTest ≠ keyTes ∧
      (sampleTrie.Put keyTes).store.Exists keyTest = sampleTrie.Exists keyTest ∧
      ((sampleTrie.Put keyTes).store.get keyTes).isSome = true :=
  ⟨by decide, (C15_put_frame sampleTrie keyTes keyTest).1 (by decide),
    (C15_put_frame sampleTrie keyTes keyTes).2.2 (Or.inr ⟨⟨[], by simp⟩, by decide⟩)⟩

/-- C16: for every trie and key, `Exists key` is true exactly when `get key`
returns a node and the flag `isLast` of that node is set. -/
theorem C16_exists_iff_get (t : PrefixStoreByteTrie) (key : Key) :
    t.Exists key = true ↔ ∃ n, t.get key = some n ∧ n.isLast = true := by
  unfold PrefixStoreByteTrie.Exists PrefixStoreByteTrie.get
  by_cases h : (key.length : Int) > t.maxKeySizeInBytes
  · simp [h]
  · simp only [h, if_false]
    rw [existsWalk_eq_getWalk]
    cases getWalk key t with
    | none => simp
    | some n => simp

end Tripod

namespace Tripod

/-- C17 as stated fails with a negative limit: in `CreatePrefixStoreByteTrie (-1)`
the walk along the empty key ends at the root and no symbol lacks a child,
yet the length guard makes `get` of the empty key return none. -/
theorem C17_get_contract_counterexample :
    Reaches (putAll (CreatePrefixStoreByteTrie (-1)) []) [] (CreatePrefixStoreByteTrie (-1)) ∧
      (putAll (CreatePrefixStoreByteTrie (-1)) []).get [] = none ∧
      ¬ GetContract (putAll (CreatePrefixStoreByteTrie (-1)) []) [] := by
  refine ⟨Reaches.here _, rfl, ?_⟩
  intro h
  obtain ⟨pre, b, post, n, he, _, _⟩ := h.1.1 rfl
  cases pre <;> cases he

/-- C17, amended: in a trie built from `CreatePrefixStoreByteTrie m` by the
calls `Put k` for `k` in `ks`, and for every key, provided `m >= 0` or the key
is not empty, `get key` returns none exactly when some symbol of the key has
no child on the way from the root, and returns `n` exactly when the walk
along the key ends at `n`: the length guard of `get` hides no path. -/
theorem C17_get_contract (m : Int) (ks : List Key) (key : Key)
    (h : 0 ≤ m ∨ key ≠ []) : GetContract (putAll (CreatePrefixStoreByteTrie m) ks) key := by
  have hreach : Reachable (putAll (CreatePrefixStoreByteTrie m) ks) :=
    reachable_putAll (Reachable.create m) ks
  have hmax : (putAll (CreatePrefixStoreByteTrie m) ks).maxKeySizeInBytes = m := by
    rw [putAll_max]; rfl
  have hget : (putAll (CreatePrefixStoreByteTrie m) ks).get key =
      getWalk key (putAll (CreatePrefixStoreByteTrie m) ks) := by
    by_cases hlen : (key.length : Int) > (putAll (CreatePrefixStoreByteTrie m) ks).maxKeySizeInBytes
    · unfold PrefixStoreByteTrie.get
      rw [if_pos hlen]
      cases hw : getWalk key (putAll (CreatePrefixStoreByteTrie m) ks) with
      | none => rfl
      | some n =>
        have hd := reachable_depth hreach (q := key) (by rw [hw]; rfl) (by rw [hmax]; exact h)
        omega
    · exact get_eq_of_le hlen
  unfold GetContract
  rw [hget]
  exact ⟨getWalk_none_iff _ key, fun n => (reaches_iff_getWalk _ key n).symm⟩

/-- C17 amended, on the trie of the test suite and the path `"tes"`. -/
theorem C17_get_contract_witness :
    ((0 : Int) ≤ 128 ∨ keyTes ≠ []) ∧
      GetContract (putAll (CreatePrefixStoreByteTrie 128) [keyTest, keyTe, keyTest123]) keyTes :=
  ⟨Or.inl (by decide),
    C17_get_contract 128 [keyTest, keyTe, keyTest123] keyTes (Or.inl (by decide))⟩

/-- C18 as stated fails with a negative limit: the root of
`CreatePrefixStoreByteTrie (-1)` is a node at depth 0, above the limit -1. -/
theorem C18_depth_counterexample :
    Reaches (putAll (CreatePrefixStoreByteTrie (-1)) []) [] (CreatePrefixStoreByteTrie (-1)) ∧
      ¬ ((([] : Key).length : Int) ≤
        (putAll (CreatePrefixStoreByteTrie (-1)) []).maxKeySizeInBytes) := by
  refine ⟨Reaches.here _, ?_⟩
  decide

/-- C18, amended: in a trie built from `CreatePrefixStoreByteTrie m` by the
calls `Put k` for `k` in `ks`, a path leads to at most one node; the node at
the end of a path is terminal exactly when the path is a successfully
inserted key; a terminal node lies at depth between 1 and `m`; a node lies at
depth at most `m` provided it is not the root or `m >= 0`; every key of a
list returned by a run of `PrefixSearch`, under any allocation limit, has a
length between 1 and `m`; and every run does return a list when `m` is not
above the allocation limit. -/
theorem C18_structure (m : Int) (ks : List Key) :
    (∀ s n n', Reaches (putAll (CreatePrefixStoreByteTrie m) ks) s n →
        Reaches (putAll (CreatePrefixStoreByteTrie m) ks) s n' → n = n') ∧
      (∀ s n, Reaches (putAll (CreatePrefixStoreByteTrie m) ks) s n →
        (n.isLast = true ↔ s ∈ acceptedKeys (CreatePrefixStoreByteTrie m) ks)) ∧
      (∀ s n, Reaches (putAll (CreatePrefixStoreByteTrie m) ks) s n → n.isLast = true →
        1 ≤ s.length ∧ (s.length : Int) ≤ m) ∧
      (∀ s n, Reaches (putAll (CreatePrefixStoreByteTrie m) ks) s n → (0 ≤ m ∨ s ≠ []) →
        (s.length : Int) ≤ m) ∧
      (∀ maxAlloc p out,
        PrefixSearchRun maxAlloc (putAll (CreatePrefixStoreByteTrie m) ks) p (some out) →
        ∀ k ∈ out, 1 ≤ k.length ∧ (k.length : Int) ≤ m) ∧
      (∀ maxAlloc p res, m ≤ maxAlloc →
        PrefixSearchRun maxAlloc (putAll (CreatePrefixStoreByteTrie m) ks) p res →
        ∃ out, res = some out) := by
  have hreach : Reachable (putAll (CreatePrefixStoreByteTrie m) ks) :=
    reachable_putAll (Reachable.create m) ks
  have hmax : (putAll (CreatePrefixStoreByteTrie m) ks).maxKeySizeInBytes = m := by
    rw [putAll_max]; rfl
  have hlast : ∀ s n, Reaches (putAll (CreatePrefixStoreByteTrie m) ks) s n →
      (n.isLast = true ↔ existsWalk s (putAll (CreatePrefixStoreByteTrie m) ks) = true) := by
    intro s n hr
    rw [existsWalk_eq_getWalk, (reaches_iff_getWalk _ s n).1 hr]
  have hpos : ∀ s : Key, s ≠ [] → 1 ≤ s.length := by
    intro s hs
    cases s with
    | nil => exact absurd rfl hs
    | cons b r => simp
  refine ⟨?_, ?_, ?_, ?_, ?_, ?_⟩
  · intro s n n' h1 h2
    have e1 := (reaches_iff_getWalk _ s n).1 h1
    have e2 := (reaches_iff_getWalk _ s n').1 h2
    rw [e1] at e2
    injection e2
  · intro s n hr
    rw [hlast s n hr, existsWalk_history, mem_acceptedKeys]
    simp [CreatePrefixStoreByteTrie, PrefixStoreByteTrie.maxKeySizeInBytes]
  · intro s n hr hl
    have := (existsWalk_history m ks s).1 ((hlast s n hr).1 hl)
    exact ⟨hpos s this.2.1, this.2.2⟩
  · intro s n hr h0
    have hq : (getWalk s (putAll (CreatePrefixStoreByteTrie m) ks)).isSome = true := by
      rw [(reaches_iff_getWalk _ s n).1 hr]; rfl
    have := reachable_depth hreach hq (by rw [hmax]; exact h0)
    rwa [hmax] at this
  · intro maxAlloc p out hr k hk
    have hmem := (prefixSearchRun_some hreach hr).2
    have := (existsWalk_history m ks k).1 ((hmem k).1 hk).2
    exact ⟨hpos k this.2.1, this.2.2⟩
  · intro maxAlloc p res hcap hr
    exact prefixSearchRun_returns hreach (by rw [hmax]; exact hcap) hr

/-- C18 amended, on the trie of the test suite: the node at the end of the
path `"te"` is terminal and within the limit; and with the allocation limit
of 64-bit Linux the run of `PrefixSearch "te"` in stored order returns a
list, all of whose keys have a length between 1 and 128. -/
theorem C18_structure_witness :
    (∃ n, Reaches (putAll (CreatePrefixStoreByteTrie 128) [keyTest, keyTe, keyTest123]) keyTe n ∧
      ((0 : Int) ≤ 128 ∨ keyTe ≠ []) ∧ n.isLast = true ∧ (keyTe.length : Int) ≤ 128) ∧
      (128 : Int) ≤ maxAlloc64 ∧
      ∃ out, (putAll (CreatePrefixStoreByteTrie 128)
          [keyTest, keyTe, keyTest123]).PrefixSearch maxAlloc64 keyTe = some out ∧
        ∀ k ∈ out, 1 ≤ k.length ∧ (k.length : Int) ≤ 128 := by
  obtain ⟨n, hn⟩ : ∃ n, getWalk keyTe
      (putAll (CreatePrefixStoreByteTrie 128) [keyTest, keyTe, keyTest123]) = some n :=
    ⟨_, rfl⟩
  have hr := (reaches_iff_getWalk _ keyTe n).2 hn
  have hC := C18_structure 128 [keyTest, keyTe, keyTest123]
  have hrun := prefixSearchRun_prefixSearch maxAlloc64
    (putAll (CreatePrefixStoreByteTrie 128) [keyTest, keyTe, keyTest123]) keyTe
  obtain ⟨out, ho⟩ := hC.2.2.2.2.2 maxAlloc64 keyTe _ (by decide) hrun
  refine ⟨⟨n, hr, Or.inl (by decide), ?_, hC.2.2.2.1 keyTe n hr (Or.inl (by decide))⟩,
    by decide, out, ho, ?_⟩
  · rw [hC.2.1 keyTe n hr, mem_acceptedKeys]
    decide
  · rw [ho] at hrun
    exact hC.2.2.2.2.1 maxAlloc64 keyTe out hrun

end Tripod

/-! ## The rune trie -/

namespace Tripod

theorem runePut_err (t : PrefixStoreRuneTrie) (k : RuneKey) :
    (t.Put k).err = none ↔ (k.length : Int) ≤ t.maxKeySizeInRunes := by
  unfold PrefixStoreRuneTrie.Put
  split
  · rename_i h
    simp only [reduceCtorEq, false_iff]
    omega
  · rename_i h
    cases k with
    | nil => simp only [true_iff]; omega
    | cons b rest => simp only [true_iff]; omega

/-- C12: for every rune trie and every rune key, `Put` returns an error
exactly when the number of runes exceeds `maxKeySizeInRunes`; the outcome
depends on the key through its number of runes only, so two keys of equal
rune count fare alike whatever their UTF-8 sizes. With limit 2, `"ãã"`
(2 runes, 4 bytes) is accepted while `"aaa"` (3 runes, 3 bytes) and `"ããa"`
(3 runes, 5 bytes) are rejected. -/
theorem C12_rune_limit_in_symbols (t : PrefixStoreRuneTrie) (key : RuneKey) :
    ((t.Put key).err ≠ none ↔ (key.length : Int) > t.maxKeySizeInRunes) ∧
      (∀ key', key'.length = key.length → ((t.Put key').err = none ↔ (t.Put key).err = none)) ∧
      (t.maxKeySizeInRunes = 2 →
        utf8Size runesTwoWide = 4 ∧ (t.Put runesTwoWide).err = none ∧
        utf8Size runesThreeAscii = 3 ∧ (t.Put runesThreeAscii).err ≠ none ∧
        utf8Size runesTwoWideOneAscii = 5 ∧ (t.Put runesTwoWideOneAscii).err ≠ none) := by
  refine ⟨?_, ?_, ?_⟩
  · rw [Ne, runePut_err]
    omega
  · intro key' hlen
    rw [runePut_err, runePut_err, hlen]
  · intro h2
    refine ⟨by decide, ?_, by decide, ?_, by decide, ?_⟩
    · rw [runePut_err, h2]; decide
    · rw [Ne, runePut_err, h2]; decide
    · rw [Ne, runePut_err, h2]; decide

/-- C12 on the rune trie of the test suite: limit 2, after `"aa"` was put. -/
theorem C12_rune_limit_in_symbols_witness :
    ((CreatePrefixStoreRuneTrie 2).Put [97, 97]).store.maxKeySizeInRunes = 2 ∧
      utf8Size runesTwoWide = 4 ∧
      (((CreatePrefixStoreRuneTrie 2).Put [97, 97]).store.Put runesTwoWide).err = none ∧
      (((CreatePrefixStoreRuneTrie 2).Put [97, 97]).store.Put runesTwoWideOneAscii).err ≠ none :=
  ⟨by decide,
    ((C12_rune_limit_in_symbols ((CreatePrefixStoreRuneTrie 2).Put [97, 97]).store []).2.2
      (by decide)).1,
    ((C12_rune_limit_in_symbols ((CreatePrefixStoreRuneTrie 2).Put [97, 97]).store []).2.2
      (by decide)).2.1,
    ((C12_rune_limit_in_symbols ((CreatePrefixStoreRuneTrie 2).Put [97, 97]).store []).2.2
      (by decide)).2.2.2.2.2⟩

/-- C14: for a byte trie and for a rune trie with limit `M`, and a key of
length `L > M`, the error of `Put` is the text
`max size of key should be M (L > M)`, with `M`, `L`, `M` written in decimal
(`toString` on integers: digits, with a leading minus sign when negative). -/
theorem C14_error_message (M : Int) (L : Nat) (hlen : (L : Int) > M) :
    (∀ (t : PrefixStoreByteTrie) (k : Key), t.maxKeySizeInBytes = M → k.length = L →
        (t.Put k).err =
          some ("max size of key should be " ++ toString M ++ " (" ++ toString (L : Int) ++
            " > " ++ toString M ++ ")")) ∧
      (∀ (t : PrefixStoreRuneTrie) (k : RuneKey), t.maxKeySizeInRunes = M → k.length = L →
        (t.Put k).err =
          some ("max size of key should be " ++ toString M ++ " (" ++ toString (L : Int) ++
            " > " ++ toString M ++ ")")) := by
  refine ⟨?_, ?_⟩
  · intro t k hM hL
    have h : (k.length : Int) > t.maxKeySizeInBytes := by rw [hM, hL]; exact hlen
    unfold PrefixStoreByteTrie.Put
    rw [if_pos h, hM, hL]
    rfl
  · intro t k hM hL
    have h : (k.length : Int) > t.maxKeySizeInRunes := by rw [hM, hL]; exact hlen
    unfold PrefixStoreRuneTrie.Put
    rw [if_pos h, hM, hL]
    rfl

/-- C14 on a byte trie of limit 2 and a key of three bytes, and on a byte
trie of limit -1 and the empty key. -/
theorem C14_error_message_witness :
    ((3 : Nat) : Int) > 2 ∧
      ((CreatePrefixStoreByteTrie 2).Put keyTes).err =
        some "max size of key should be 2 (3 > 2)" ∧
      ((CreatePrefixStoreByteTrie (-1)).Put []).err =
        some "max size of key should be -1 (0 > -1)" :=
  ⟨by decide, (C14_error_message 2 3 (by decide)).1 (CreatePrefixStoreByteTrie 2) keyTes rfl rfl,
    (C14_error_message (-1) 0 (by decide)).1 (CreatePrefixStoreByteTrie (-1)) [] rfl rfl⟩

end Tripod

/-! ## The byte trie read as a rune trie -/

namespace Tripod

theorem toRuneTrie_mk (l : Bool) (cs : List (Int × PrefixStoreByteTrie)) (mx : Int) :
    toRuneTrie (.mk l cs mx) = .mk l (toRuneChildren cs) mx := by
  rw [toRuneTrie]

theorem toRuneChildren_nil : toRuneChildren [] = [] := by
  rw [toRuneChildren]

theorem toRuneChildren_cons (ch : Int) (tt : PrefixStoreByteTrie)
    (rest : List (Int × PrefixStoreByteTrie)) :
    toRuneChildren ((ch, tt) :: rest) = (ch, toRuneTrie tt) :: toRuneChildren rest := by
  rw [toRuneChildren]

theorem toRuneTrie_create (m : Int) :
    toRuneTrie (CreatePrefixStoreByteTrie m) = CreatePrefixStoreRuneTrie m := by
  rw [CreatePrefixStoreByteTrie, toRuneTrie_mk, toRuneChildren_nil]
  rfl

theorem toRuneTrie_isLast (t : PrefixStoreByteTrie) : (toRuneTrie t).isLast = t.isLast := by
  cases t with
  | mk l cs mx => rw [toRuneTrie_mk]; rfl

theorem toRuneTrie_max (t : PrefixStoreByteTrie) :
    (toRuneTrie t).maxKeySizeInRunes = t.maxKeySizeInBytes := by
  cases t with
  | mk l cs mx => rw [toRuneTrie_mk]; rfl

theorem toRuneTrie_children (t : PrefixStoreByteTrie) :
    (toRuneTrie t).children = toRuneChildren t.children := by
  cases t with
  | mk l cs mx => rw [toRuneTrie_mk]; rfl

theorem runeLookup_toRune (ch : Int) (cs : List (Int × PrefixStoreByteTrie)) :
    runeLookup ch (toRuneChildren cs) = (lookup ch cs).map toRuneTrie := by
  induction cs with
  | nil => rw [toRuneChildren_nil]; rfl
  | cons c rest ih =>
    obtain ⟨c, u⟩ := c
    rw [toRuneChildren_cons]
    unfold runeLookup lookup
    by_cases h : ch = c
    · simp [h]
    · simp only [h, if_false]; exact ih

theorem runeSetChild_toRune (ch : Int) (v : PrefixStoreByteTrie)
    (cs : List (Int × PrefixStoreByteTrie)) :
    runeSetChild ch (toRuneTrie v) (toRuneChildren cs) = toRuneChildren (setChild ch v cs) := by
  induction cs with
  | nil =>
    rw [toRuneChildren_nil]
    unfold runeSetChild setChild
    rw [toRuneChildren_cons, toRuneChildren_nil]
  | cons c rest ih =>
    obtain ⟨c, u⟩ := c
    rw [toRuneChildren_cons]
    unfold runeSetChild setChild
    by_cases h : ch = c
    · simp only [h, if_true, toRuneChildren_cons]
    · by_cases h2 : ch < c
      · simp only [h, h2, if_true, if_false, toRuneChildren_cons]
      · simp only [h, h2, if_false, toRuneChildren_cons]
        rw [ih]

theorem runesOfKey_cons (b : Byte) (r : Key) :
    runesOfKey (b :: r) = byteToInt b :: runesOfKey r := rfl

theorem runesOfKey_length (k : Key) : (runesOfKey k).length = k.length := by
  simp [runesOfKey]

theorem runePutWalk_toRune (m : Int) (k : Key) (t : PrefixStoreByteTrie) :
    runePutWalk m (runesOfKey k) (toRuneTrie t) =
      (toRuneTrie (putWalk m k t).1, (putWalk m k t).2) := by
  induction k generalizing t with
  | nil =>
    cases t with
    | mk l cs mx =>
      rw [putWalk_nil, toRuneTrie_mk, toRuneTrie_mk]
      rfl
  | cons b rest ih =>
    cases t with
    | mk l cs mx =>
      rw [putWalk_cons, toRuneTrie_mk, toRuneTrie_mk, runesOfKey_cons]
      have hchild : (match runeLookup (byteToInt b) (toRuneChildren cs) with
          | some c => c
          | none => CreatePrefixStoreRuneTrie m) = toRuneTrie (childOrNew m b cs) := by
        rw [runeLookup_toRune]
        unfold childOrNew
        cases lookup (byteToInt b) cs with
        | none => simp [toRuneTrie_create]
        | some c => simp
      show (PrefixStoreRuneTrie.mk l (runeSetChild (byteToInt b)
          (runePutWalk m (runesOfKey rest) (match runeLookup (byteToInt b) (toRuneChildren cs) with
            | some c => c
            | none => CreatePrefixStoreRuneTrie m)).1 (toRuneChildren cs)) mx,
          (runePutWalk m (runesOfKey rest) (match runeLookup (byteToInt b) (toRuneChildren cs) with
            | some c => c
            | none => CreatePrefixStoreRuneTrie m)).2) = _
      rw [hchild, ih, runeSetChild_toRune]

theorem runePut_toRune (t : PrefixStoreByteTrie) (k : Key) :
    (toRuneTrie t).Put (runesOfKey k) =
      ⟨toRuneTrie (t.Put k).store, (t.Put k).newlyAdded, (t.Put k).err⟩ := by
  unfold PrefixStoreRuneTrie.Put PrefixStoreByteTrie.Put
  rw [toRuneTrie_max, runesOfKey_length]
  by_cases h : (k.length : Int) > t.maxKeySizeInBytes
  · simp only [h, if_true]
  · simp only [h, if_false]
    cases k with
    | nil => rfl
    | cons b rest =>
      show RunePutResult.mk
        (runePutWalk t.maxKeySizeInBytes (runesOfKey (b :: rest)) (toRuneTrie t)).1
        (runePutWalk t.maxKeySizeInBytes (runesOfKey (b :: rest)) (toRuneTrie t)).2 none = _
      rw [runePutWalk_toRune]

theorem runePutAll_toRune (t : PrefixStoreByteTrie) (ks : List Key) :
    runePutAll (toRuneTrie t) (ks.map runesOfKey) = toRuneTrie (putAll t ks) := by
  induction ks generalizing t with
  | nil => rfl
  | cons k ks ih =>
    simp only [List.map_cons, runePutAll, putAll, runePut_toRune]
    exact ih _

theorem runePutLog_toRune (t : PrefixStoreByteTrie) (ks : List Key) :
    runePutLog (toRuneTrie t) (ks.map runesOfKey) =
      (putLog t ks).map (fun e => (runesOfKey e.1, e.2)) := by
  induction ks generalizing t with
  | nil => rfl
  | cons k ks ih =>
    simp only [List.map_cons, runePutLog, putLog, runePut_toRune]
    rw [ih]

theorem runeExistsWalk_toRune (k : Key) (t : PrefixStoreByteTrie) :
    runeExistsWalk (runesOfKey k) (toRuneTrie t) = existsWalk k t := by
  induction k generalizing t with
  | nil => exact toRuneTrie_isLast t
  | cons b rest ih =>
    rw [runesOfKey_cons]
    simp only [runeExistsWalk, existsWalk, toRuneTrie_children, runeLookup_toRune]
    cases lookup (byteToInt b) t.children with
    | none => rfl
    | some child => exact ih child

theorem runeGetWalk_toRune (k : Key) (t : PrefixStoreByteTrie) :
    runeGetWalk (runesOfKey k) (toRuneTrie t) = (getWalk k t).map toRuneTrie := by
  induction k generalizing t with
  | nil => rfl
  | cons b rest ih =>
    rw [runesOfKey_cons]
    simp only [runeGetWalk, getWalk, toRuneTrie_children, runeLookup_toRune]
    cases lookup (byteToInt b) t.children with
    | none => rfl
    | some child => exact ih child

theorem runeExists_toRune (t : PrefixStoreByteTrie) (k : Key) :
    (toRuneTrie t).Exists (runesOfKey k) = t.Exists k := by
  unfold PrefixStoreRuneTrie.Exists PrefixStoreByteTrie.Exists
  rw [toRuneTrie_max, runesOfKey_length, runeExistsWalk_toRune]

theorem runeGet_toRune (t : PrefixStoreByteTrie) (k : Key) :
    (toRuneTrie t).get (runesOfKey k) = (t.get k).map toRuneTrie := by
  unfold PrefixStoreRuneTrie.get PrefixStoreByteTrie.get
  rw [toRuneTrie_max, runesOfKey_length, runeGetWalk_toRune]
  split <;> rfl

end Tripod

/-! ## The traversal of the rune trie -/

namespace Tripod

theorem runeTrie_induction {P : PrefixStoreRuneTrie → Prop}
    (h : ∀ l cs mx, (∀ c ∈ cs, P c.2) → P (.mk l cs mx)) : ∀ t, P t := by
  intro t
  refine PrefixStoreRuneTrie.rec (motive_1 := P) (motive_2 := fun cs => ∀ c ∈ cs, P c.2)
    (motive_3 := fun c => P c.2) ?_ ?_ ?_ ?_ t
  · intro l cs mx ih; exact h l cs mx ih
  · intro c hc; cases hc
  · intro hd tl ih1 ih2 c hc
    rcases List.mem_cons.1 hc with rfl | hc
    · exact ih1
    · exact ih2 c hc
  · intro ch tt ih; exact ih

theorem dfsRune_mk (l : Bool) (cs : List (Rune × PrefixStoreRuneTrie)) (mx : Int)
    (pfx buffer : RuneKey) (entries : List RuneKey) :
    _dfs_rune (.mk l cs mx) pfx buffer entries =
      dfsRuneRange cs pfx buffer (if l then entries ++ [pfx ++ buffer] else entries) := by
  rw [_dfs_rune]

theorem dfsRuneRange_nil (pfx buffer : RuneKey) (entries : List RuneKey) :
    dfsRuneRange [] pfx buffer entries = entries := by
  rw [dfsRuneRange]

theorem dfsRuneRange_cons (ch : Rune) (tt : PrefixStoreRuneTrie)
    (rest : List (Rune × PrefixStoreRuneTrie)) (pfx buffer : RuneKey) (entries : List RuneKey) :
    dfsRuneRange ((ch, tt) :: rest) pfx buffer entries =
      dfsRuneRange rest pfx buffer (_dfs_rune tt pfx (buffer ++ [ch]) entries) := by
  rw [dfsRuneRange]
  simp

theorem dfsRuneRange_appends {cs : List (Rune × PrefixStoreRuneTrie)}
    (h : ∀ c ∈ cs, RuneDfsAppends c.2) (pfx buffer : RuneKey) (entries : List RuneKey) :
    dfsRuneRange cs pfx buffer entries = entries ++ dfsRuneRange cs pfx buffer [] := by
  induction cs generalizing entries with
  | nil => simp [dfsRuneRange_nil]
  | cons c rest ih =>
    obtain ⟨ch, tt⟩ := c
    have hr : ∀ c ∈ rest, RuneDfsAppends c.2 := fun c hc => h c (List.mem_cons_of_mem _ hc)
    rw [dfsRuneRange_cons, dfsRuneRange_cons, ih hr,
      ih hr (_dfs_rune tt pfx (buffer ++ [ch]) []),
      h (ch, tt) (List.mem_cons_self _ _) pfx _ entries, List.append_assoc]

theorem dfsRune_appends (t : PrefixStoreRuneTrie) : RuneDfsAppends t := by
  induction t using runeTrie_induction with
  | h l cs mx ih =>
    intro pfx buffer entries
    rw [dfsRune_mk, dfsRune_mk, dfsRuneRange_appends ih,
      dfsRuneRange_appends ih pfx buffer (if l = true then [] ++ [pfx ++ buffer] else [])]
    cases l <;> simp

theorem dfsRuneRange_appends_all (cs : List (Rune × PrefixStoreRuneTrie))
    (pfx buffer : RuneKey) (entries : List RuneKey) :
    dfsRuneRange cs pfx buffer entries = entries ++ dfsRuneRange cs pfx buffer [] :=
  dfsRuneRange_appends (fun c _ => dfsRune_appends c.2) pfx buffer entries

theorem dfsRuneRange_perm {order cs : List (Rune × PrefixStoreRuneTrie)} (h : order.Perm cs)
    (pfx buffer : RuneKey) :
    (dfsRuneRange order pfx buffer []).Perm (dfsRuneRange cs pfx buffer []) := by
  induction h with
  | nil => exact List.Perm.refl _
  | cons c _ ih =>
    obtain ⟨ch, tt⟩ := c
    rw [dfsRuneRange_cons, dfsRuneRange_cons, dfsRuneRange_appends_all,
      dfsRuneRange_appends_all _ _ _ (_dfs_rune tt pfx (buffer ++ [ch]) [])]
    exact List.Perm.append_left _ ih
  | swap c d l =>
    obtain ⟨ch, tt⟩ := c
    obtain ⟨dh, dt⟩ := d
    simp only [dfsRuneRange_cons]
    rw [dfsRuneRange_appends_all,
      dfsRuneRange_appends_all _ _ _ (_dfs_rune dt pfx (buffer ++ [dh])
        (_dfs_rune tt pfx (buffer ++ [ch]) [])),
      dfsRune_appends tt pfx _ (_dfs_rune dt pfx (buffer ++ [dh]) []),
      dfsRune_appends dt pfx _ (_dfs_rune tt pfx (buffer ++ [ch]) [])]
    exact List.Perm.append_right _ List.perm_append_comm
  | trans _ _ ih1 ih2 => exact ih1.trans ih2

theorem runeRangeRun_perm {order : List (Rune × PrefixStoreRuneTrie)}
    (h : ∀ c ∈ order, RuneDfsRunSpec c.2) (pfx buffer : RuneKey) (entries out : List RuneKey)
    (hr : RuneRangeRun order pfx buffer entries out) :
    out.Perm (dfsRuneRange order pfx buffer entries) := by
  induction order generalizing entries with
  | nil =>
    cases hr
    rw [dfsRuneRange_nil]
  | cons c rest ih =>
    cases hr with
    | @step ch tt _ _ _ _ entries1 _ h1 h2 =>
      rw [take_length_pred_append_singleton] at h2
      have p1 := h (ch, tt) (List.mem_cons_self _ _) pfx _ entries entries1 h1
      have p2 := ih (fun c hc => h c (List.mem_cons_of_mem _ hc)) entries1 h2
      refine p2.trans ?_
      rw [dfsRuneRange_cons, dfsRuneRange_appends_all,
        dfsRuneRange_appends_all _ _ _ (_dfs_rune tt pfx (buffer ++ [ch]) entries)]
      exact List.Perm.append_right _ p1

theorem dfsRuneRun_perm (t : PrefixStoreRuneTrie) : RuneDfsRunSpec t := by
  induction t using runeTrie_induction with
  | h l cs mx ih =>
    intro pfx buffer entries out hr
    cases hr with
    | @node _ _ order _ _ _ _ _ hp hrange =>
      have hall : ∀ c ∈ order, RuneDfsRunSpec c.2 := fun c hc => ih c (hp.subset hc)
      have p := runeRangeRun_perm hall pfx buffer _ out hrange
      refine p.trans ?_
      rw [dfsRune_mk, dfsRuneRange_appends_all,
        dfsRuneRange_appends_all cs]
      exact List.Perm.append_left _ (dfsRuneRange_perm hp pfx buffer)

theorem runeRangeRun_perm_all {order : List (Rune × PrefixStoreRuneTrie)}
    (pfx buffer : RuneKey) (entries out : List RuneKey)
    (hr : RuneRangeRun order pfx buffer entries out) :
    out.Perm (dfsRuneRange order pfx buffer entries) :=
  runeRangeRun_perm (fun c _ => dfsRuneRun_perm c.2) pfx buffer entries out hr

theorem runesOfKey_append (a b : Key) : runesOfKey (a ++ b) = runesOfKey a ++ runesOfKey b := by
  simp [runesOfKey]

theorem runeOfByte_intToByte {ch : Int} (h : 0 ≤ ch ∧ ch < 256) :
    runeOfByte (intToByte ch) = ch :=
  byteToInt_intToByte h.1 h.2

theorem dfsRuneRange_agrees {m : Int} {cs : List (Int × PrefixStoreByteTrie)}
    (hr : ∀ c ∈ cs, 0 ≤ c.1 ∧ c.1 < 256) (hi : ∀ c ∈ cs, Inv m c.2)
    (ih : ∀ c ∈ cs, DfsRuneAgrees c.2) (pfx buffer : Key) (entries : List Key) :
    dfsRuneRange (toRuneChildren cs) (runesOfKey pfx) (runesOfKey buffer)
        (entries.map runesOfKey) =
      (dfsRange cs pfx buffer entries).map runesOfKey := by
  induction cs generalizing entries with
  | nil => rw [toRuneChildren_nil, dfsRuneRange_nil, dfsRange_nil]
  | cons c rest ihl =>
    obtain ⟨ch, tt⟩ := c
    rw [toRuneChildren_cons, dfsRuneRange_cons, dfsRange_cons]
    have hb : runesOfKey buffer ++ [ch] = runesOfKey (buffer ++ [intToByte ch]) := by
      rw [runesOfKey_append]
      simp [runesOfKey, runeOfByte_intToByte (hr (ch, tt) (List.mem_cons_self _ _))]
    rw [hb, ih (ch, tt) (List.mem_cons_self _ _) m (hi _ (List.mem_cons_self _ _))]
    exact ihl (fun c hc => hr c (List.mem_cons_of_mem _ hc))
      (fun c hc => hi c (List.mem_cons_of_mem _ hc))
      (fun c hc => ih c (List.mem_cons_of_mem _ hc)) _

theorem dfsRune_agrees (t : PrefixStoreByteTrie) : DfsRuneAgrees t := by
  induction t using trie_induction with
  | h l cs mx ih =>
    intro m hinv pfx buffer entries
    cases hinv with
    | mk h1 h2 h3 h4 =>
      rw [toRuneTrie_mk, dfsRune_mk, dfs_mk]
      have he : (if l = true then entries.map runesOfKey ++ [runesOfKey pfx ++ runesOfKey buffer]
          else entries.map runesOfKey) =
          (if l = true then entries ++ [pfx ++ buffer] else entries).map runesOfKey := by
        cases l <;> simp [runesOfKey_append]
      rw [he]
      exact dfsRuneRange_agrees h3 h4 ih pfx buffer _

theorem dfsRuneRange_agrees_children {m : Int} {t : PrefixStoreByteTrie} (h : Inv m t)
    (pfx : Key) :
    dfsRuneRange (toRuneTrie t).children (runesOfKey pfx) [] [] =
      (dfsRange t.children pfx [] []).map runesOfKey := by
  cases h with
  | mk h1 h2 h3 h4 =>
    rw [toRuneTrie_children]
    exact dfsRuneRange_agrees h3 h4 (fun c _ => dfsRune_agrees c.2) pfx [] []

end Tripod

/-! ## Agreement of the two tries -/

namespace Tripod

/-- Past the length guard of `PrefixSearch`, when four times the limit is
within the allocation limit, neither the `make` of the byte trie nor the
`make` of the rune trie panics. -/
theorem both_make_ok {maxAlloc : Int} {t sub : PrefixStoreByteTrie}
    (hsub : Inv t.maxKeySizeInBytes sub)
    (hcap : 0 ≤ t.maxKeySizeInBytes → 4 * t.maxKeySizeInBytes ≤ maxAlloc) {p : Key}
    (h : ¬ (p.length : Int) > t.maxKeySizeInBytes) :
    makeslicePanics 1 maxAlloc sub.maxKeySizeInBytes = false ∧
      makeslicePanics 4 maxAlloc sub.maxKeySizeInBytes = false := by
  have h0 : (0 : Int) ≤ p.length := Int.natCast_nonneg _
  have h1 : 0 ≤ t.maxKeySizeInBytes := by omega
  have h2 := hcap h1
  rw [inv_max hsub]
  exact ⟨makeslicePanics_false h1 (by omega), makeslicePanics_false h1 h2⟩

theorem runePrefixSearch_toRune {maxAlloc : Int} {t : PrefixStoreByteTrie}
    (hinv : Inv t.maxKeySizeInBytes t)
    (hcap : 0 ≤ t.maxKeySizeInBytes → 4 * t.maxKeySizeInBytes ≤ maxAlloc) (p : Key) :
    (toRuneTrie t).PrefixSearch maxAlloc (runesOfKey p) =
      (t.PrefixSearch maxAlloc p).map (fun out => out.map runesOfKey) := by
  unfold PrefixStoreRuneTrie.PrefixSearch PrefixStoreByteTrie.PrefixSearch
  rw [toRuneTrie_max, runesOfKey_length, runeGet_toRune]
  by_cases h : (p.length : Int) > t.maxKeySizeInBytes
  · simp only [h, if_true]
    rfl
  · simp only [h, if_false]
    cases hg : t.get p with
    | none => rfl
    | some sub =>
      have hsub : Inv t.maxKeySizeInBytes sub := by
        rw [get_eq_of_le h] at hg
        exact inv_getWalk hinv hg
      simp only [Option.map_some']
      unfold PrefixStoreRuneTrie.list PrefixStoreByteTrie.list
      rw [toRuneTrie_max, toRuneTrie_isLast]
      obtain ⟨hb, hr⟩ := both_make_ok hsub hcap h
      simp only [hb, hr, Bool.false_eq_true, if_false, dfsRuneRange_agrees_children hsub p]
      cases sub.isLast <;> simp

/-- Every run of `PrefixSearch` on a byte trie of the shape `Inv` read as a
rune trie returns a list, a rearrangement of the one found in stored
order. -/
theorem runePrefixSearchRun_perm {maxAlloc : Int} {t : PrefixStoreByteTrie}
    (hinv : Inv t.maxKeySizeInBytes t)
    (hcap : 0 ≤ t.maxKeySizeInBytes → 4 * t.maxKeySizeInBytes ≤ maxAlloc)
    {p : Key} {res : Option (List RuneKey)}
    (hr : RunePrefixSearchRun maxAlloc (toRuneTrie t) (runesOfKey p) res) :
    ∃ out c, res = some out ∧ (toRuneTrie t).PrefixSearch maxAlloc (runesOfKey p) = some c ∧
      out.Perm c := by
  unfold RunePrefixSearchRun at hr
  unfold PrefixStoreRuneTrie.PrefixSearch
  rw [toRuneTrie_max, runesOfKey_length, runeGet_toRune] at hr ⊢
  by_cases h : (p.length : Int) > t.maxKeySizeInBytes
  · rw [if_pos h] at hr ⊢
    exact ⟨[], [], hr, rfl, List.Perm.refl _⟩
  · rw [if_neg h] at hr ⊢
    cases hg : t.get p with
    | none =>
      rw [hg] at hr
      exact ⟨[], [], hr, rfl, List.Perm.refl _⟩
    | some sub =>
      rw [hg] at hr
      simp only [Option.map_some'] at hr ⊢
      obtain ⟨lr, hl, hres⟩ := hr
      have hsub : Inv t.maxKeySizeInBytes sub := by
        rw [get_eq_of_le h] at hg
        exact inv_getWalk hinv hg
      have hmax : makeslicePanics 4 maxAlloc (toRuneTrie sub).maxKeySizeInRunes = false := by
        rw [toRuneTrie_max]
        exact (both_make_ok hsub hcap h).2
      cases hl with
      | panics hneg => rw [hmax] at hneg; cases hneg
      | @returns order out _ hp hrange =>
        have q := (runeRangeRun_perm_all (runesOfKey p) [] [] out hrange).trans
          (dfsRuneRange_perm hp (runesOfKey p) [])
        unfold PrefixStoreRuneTrie.list
        simp only [hmax, Bool.false_eq_true, if_false]
        by_cases hlast : (toRuneTrie sub).isLast = true
        · exact ⟨runesOfKey p :: out, _, by simpa [hlast] using hres, by simp [hlast],
            List.Perm.cons _ q⟩
        · exact ⟨out, _, by simpa [hlast] using hres, by simp [hlast], q⟩

theorem runeRangeRun_dfsRange {cs : List (Rune × PrefixStoreRuneTrie)}
    (h : ∀ c ∈ cs, RuneDfsHasRun c.2) (pfx buffer : RuneKey) (entries : List RuneKey) :
    RuneRangeRun cs pfx buffer entries (dfsRuneRange cs pfx buffer entries) := by
  induction cs generalizing entries with
  | nil => rw [dfsRuneRange_nil]; exact RuneRangeRun.done
  | cons c rest ih =>
    obtain ⟨ch, tt⟩ := c
    rw [dfsRuneRange_cons]
    refine RuneRangeRun.step (h (ch, tt) (List.mem_cons_self _ _) pfx _ entries) ?_
    rw [take_length_pred_append_singleton]
    exact ih (fun c hc => h c (List.mem_cons_of_mem _ hc)) _

theorem dfsRuneRun_dfs (t : PrefixStoreRuneTrie) : RuneDfsHasRun t := by
  induction t using runeTrie_induction with
  | h l cs mx ih =>
    intro pfx buffer entries
    rw [dfsRune_mk]
    exact DfsRuneRun.node (List.Perm.refl cs) (runeRangeRun_dfsRange ih pfx buffer _)

/-- Visiting the children in stored order is one of the runs of
`PrefixSearch` of the rune trie. -/
theorem runePrefixSearchRun_prefixSearch (maxAlloc : Int) (t : PrefixStoreRuneTrie)
    (p : RuneKey) : RunePrefixSearchRun maxAlloc t p (t.PrefixSearch maxAlloc p) := by
  unfold RunePrefixSearchRun PrefixStoreRuneTrie.PrefixSearch
  split
  · rfl
  · cases hg : t.get p with
    | none => rfl
    | some sub =>
      simp only
      unfold PrefixStoreRuneTrie.list
      cases hneg : makeslicePanics 4 maxAlloc sub.maxKeySizeInRunes with
      | true => exact ⟨none, RuneListRun.panics hneg, by simp⟩
      | false =>
        exact ⟨some (dfsRuneRange sub.children p [] []),
          RuneListRun.returns hneg (List.Perm.refl _)
            (runeRangeRun_dfsRange (fun c _ => dfsRuneRun_dfs c.2) _ _ _), by simp⟩

/-- Past the length guard, when `get` finds a node and the `make` of `list`
panics on it, every run of `PrefixSearch` of the rune trie panics. -/
theorem runePrefixSearchRun_none {maxAlloc : Int} {t sub : PrefixStoreRuneTrie} {p : RuneKey}
    (h : ¬ (p.length : Int) > t.maxKeySizeInRunes) (hg : t.get p = some sub)
    (hpan : makeslicePanics 4 maxAlloc sub.maxKeySizeInRunes = true)
    {res : Option (List RuneKey)} (hr : RunePrefixSearchRun maxAlloc t p res) : res = none := by
  unfold RunePrefixSearchRun at hr
  rw [if_neg h, hg] at hr
  obtain ⟨lr, hl, hres⟩ := hr
  cases hl with
  | panics _ => exact hres
  | returns hok _ _ => rw [hpan] at hok; cases hok

theorem runesOfKey_injective : Function.Injective runesOfKey := by
  intro a b h
  unfold runesOfKey at h
  exact List.map_injective_iff.2 (fun x y hxy => byteToInt_injective hxy) h

/-- C19 as stated fails: the two tries do not fail alike. On a 32-bit
platform, with limit `1 << 30` and no key put, `PrefixSearch` of the empty
prefix returns the empty list on the byte trie, whose buffer of `1 << 30`
bytes is within the allocation limit, and panics in every run on the rune
trie, whose buffer of `1 << 30` runes (`1 << 32` bytes) is not. -/
theorem C19_byte_rune_agree_counterexample :
    PrefixSearchRun maxAlloc32 (putAll (CreatePrefixStoreByteTrie limitGiB) []) []
        (some []) ∧
      (∀ res, PrefixSearchRun maxAlloc32 (putAll (CreatePrefixStoreByteTrie limitGiB) []) []
        res → res = some []) ∧
      RunePrefixSearchRun maxAlloc32
        (runePutAll (CreatePrefixStoreRuneTrie limitGiB) (([] : List Key).map runesOfKey))
        (runesOfKey []) none ∧
      ∀ res, RunePrefixSearchRun maxAlloc32
        (runePutAll (CreatePrefixStoreRuneTrie limitGiB) (([] : List Key).map runesOfKey))
        (runesOfKey []) res → res = none :=
  ⟨prefixSearchRun_prefixSearch maxAlloc32 (CreatePrefixStoreByteTrie limitGiB) [],
    fun _ hr => by
      obtain ⟨o, out, h1, h2, hp⟩ :=
        prefixSearchRun_perm (reachable_inv (Reachable.create limitGiB)) (fun _ => by decide) hr
      have ho : out = [] := by
        have h3 : (CreatePrefixStoreByteTrie limitGiB).PrefixSearch maxAlloc32 [] = some [] := by
          decide
        rw [h3] at h2
        injection h2 with h2
        exact h2.symm
      subst ho
      rw [h1, List.perm_nil.1 hp],
    runePrefixSearchRun_prefixSearch maxAlloc32 (CreatePrefixStoreRuneTrie limitGiB) [],
    fun _ hr => runePrefixSearchRun_none (by decide)
      (show (CreatePrefixStoreRuneTrie limitGiB).get [] = some (CreatePrefixStoreRuneTrie limitGiB)
        from rfl)
      (by decide) hr⟩

/-- C19, amended: for every limit `m` and every sequence `ks` of byte keys,
the rune trie fed the same keys read as runes (each byte as the rune of the
same value) answers as the byte trie does: every `Put` of the sequence
returns the same `newlyAdded` and the same error; `Exists` returns the same
boolean on every key; and, when the rune buffer of `m` runes (`4 * m` bytes)
is within the allocation limit `maxAlloc` of `make`, `PrefixSearch` in stored
order returns the same keys, and any run of the one and any run of the other
return lists that are rearrangements of each other once the byte keys are
read as rune keys. Reading bytes as runes loses nothing: `byte(int(b)) = b`
and distinct byte keys give distinct rune keys. -/
theorem C19_byte_rune_agree (maxAlloc m : Int) (ks : List Key) :
    runePutLog (CreatePrefixStoreRuneTrie m) (ks.map runesOfKey) =
        (putLog (CreatePrefixStoreByteTrie m) ks).map (fun e => (runesOfKey e.1, e.2)) ∧
      (∀ k, (runePutAll (CreatePrefixStoreRuneTrie m) (ks.map runesOfKey)).Exists (runesOfKey k) =
        (putAll (CreatePrefixStoreByteTrie m) ks).Exists k) ∧
      (4 * m ≤ maxAlloc →
        ∀ p, (runePutAll (CreatePrefixStoreRuneTrie m) (ks.map runesOfKey)).PrefixSearch
            maxAlloc (runesOfKey p) =
          ((putAll (CreatePrefixStoreByteTrie m) ks).PrefixSearch maxAlloc p).map
            (fun out => out.map runesOfKey)) ∧
      (4 * m ≤ maxAlloc →
        ∀ p res res', PrefixSearchRun maxAlloc (putAll (CreatePrefixStoreByteTrie m) ks) p res →
          RunePrefixSearchRun maxAlloc
            (runePutAll (CreatePrefixStoreRuneTrie m) (ks.map runesOfKey)) (runesOfKey p) res' →
          ∃ out out', res = some out ∧ res' = some out' ∧ out'.Perm (out.map runesOfKey)) ∧
      (∀ b, intToByte (byteToInt b) = b) ∧ Function.Injective runesOfKey := by
  have hstate : runePutAll (CreatePrefixStoreRuneTrie m) (ks.map runesOfKey) =
      toRuneTrie (putAll (CreatePrefixStoreByteTrie m) ks) := by
    rw [← toRuneTrie_create, runePutAll_toRune]
  have hreach : Reachable (putAll (CreatePrefixStoreByteTrie m) ks) :=
    reachable_putAll (Reachable.create m) ks
  have hinv := reachable_inv hreach
  have hmax : (putAll (CreatePrefixStoreByteTrie m) ks).maxKeySizeInBytes = m := by
    rw [putAll_max]; rfl
  have hcap4 : 4 * m ≤ maxAlloc →
      (0 ≤ (putAll (CreatePrefixStoreByteTrie m) ks).maxKeySizeInBytes →
        4 * (putAll (CreatePrefixStoreByteTrie m) ks).maxKeySizeInBytes ≤ maxAlloc) := by
    intro h _; rw [hmax]; exact h
  have hcap1 : 4 * m ≤ maxAlloc →
      (0 ≤ (putAll (CreatePrefixStoreByteTrie m) ks).maxKeySizeInBytes →
        (putAll (CreatePrefixStoreByteTrie m) ks).maxKeySizeInBytes ≤ maxAlloc) := by
    intro h h0; rw [hmax] at h0 ⊢; omega
  refine ⟨?_, ?_, ?_, ?_, intToByte_byteToInt, runesOfKey_injective⟩
  · rw [← toRuneTrie_create, runePutLog_toRune]
  · intro k
    rw [hstate, runeExists_toRune]
  · intro hcap p
    rw [hstate, runePrefixSearch_toRune hinv (hcap4 hcap)]
  · intro hcap p res res' hb hr
    rw [hstate] at hr
    obtain ⟨out, c, h1, h2, hp⟩ := prefixSearchRun_perm hinv (hcap1 hcap) hb
    obtain ⟨out', c', h1', h2', hp'⟩ := runePrefixSearchRun_perm hinv (hcap4 hcap) hr
    rw [runePrefixSearch_toRune hinv (hcap4 hcap), h2] at h2'
    simp only [Option.map_some', Option.some.injEq] at h2'
    refine ⟨out, out', h1, h1', ?_⟩
    rw [← h2'] at hp'
    exact hp'.trans (hp.map runesOfKey).symm

/-- C19 amended, on limit 128 and the keys of the test suite, prefix `"tes"`,
with the allocation limit of 64-bit Linux: the runs in stored order of the
two tries agree. -/
theorem C19_byte_rune_agree_witness :
    (4 * 128 : Int) ≤ maxAlloc64 ∧
      PrefixSearchRun maxAlloc64
        (putAll (CreatePrefixStoreByteTrie 128) [keyTest, keyTe, keyTest123]) keyTes
        (some [keyTest, keyTest123]) ∧
      ∃ out out', some [keyTest, keyTest123] = some out ∧
        (runePutAll (CreatePrefixStoreRuneTrie 128)
          ([keyTest, keyTe, keyTest123].map runesOfKey)).PrefixSearch maxAlloc64
            (runesOfKey keyTes) = some out' ∧
        out'.Perm (out.map runesOfKey) :=
  ⟨by decide, prefixSearchRun_prefixSearch _ _ _,
    (C19_byte_rune_agree maxAlloc64 128 [keyTest, keyTe, keyTest123]).2.2.2.1 (by decide)
      keyTes _ _ (prefixSearchRun_prefixSearch _ _ _) (runePrefixSearchRun_prefixSearch _ _ _)⟩

end Tripod

namespace Tripod

theorem rangeRun_appends {order : List (Int × PrefixStoreByteTrie)}
    (h : ∀ c ∈ order, DfsRunAppends c.2) (pfx buffer : Key) (entries out : List Key)
    (hr : RangeRun order pfx buffer entries out) : ∃ new, out = entries ++ new := by
  induction order generalizing entries buffer with
  | nil =>
    cases hr
    exact ⟨[], by simp⟩
  | cons c rest ih =>
    cases hr with
    | @step ch tt _ _ _ _ entries1 _ h1 h2 =>
      obtain ⟨n1, hn1⟩ := h (ch, tt) (List.mem_cons_self _ _) pfx _ entries entries1 h1
      obtain ⟨n2, hn2⟩ := ih (fun c hc => h c (List.mem_cons_of_mem _ hc)) _ entries1 h2
      exact ⟨n1 ++ n2, by rw [hn2, hn1, List.append_assoc]⟩

theorem dfsRun_appends (t : PrefixStoreByteTrie) : DfsRunAppends t := by
  induction t using trie_induction with
  | h l cs mx ih =>
    intro pfx buffer entries out hr
    cases hr with
    | @node _ _ order _ _ _ _ _ hp hrange =>
      have hall : ∀ c ∈ order, DfsRunAppends c.2 := fun c hc => ih c (hp.subset hc)
      obtain ⟨new, hnew⟩ := rangeRun_appends hall pfx buffer _ out hrange
      cases l
      · exact ⟨new, by simpa using hnew⟩
      · exact ⟨(pfx ++ buffer) :: new, by simpa using hnew⟩

theorem existsWalk_iff_reaches (s : Key) (t : PrefixStoreByteTrie) :
    existsWalk s t = true ↔ ∃ d, Reaches t s d ∧ d.isLast = true := by
  rw [existsWalk_eq_getWalk]
  constructor
  · intro h
    cases hg : getWalk s t with
    | none => rw [hg] at h; cases h
    | some d =>
      rw [hg] at h
      exact ⟨d, (reaches_iff_getWalk t s d).2 hg, h⟩
  · rintro ⟨d, hr, hl⟩
    rw [(reaches_iff_getWalk t s d).1 hr]
    exact hl

/-- C20: let `n` be a node of a reachable trie, `p` a prefix, `b` a buffer
and `entries` a list. Visiting the children in stored order is a run of
`_dfs(n, p, b, entries)`, and every run, whatever the visiting order, ends
with `entries` followed by new elements, without repetition, which are
exactly the keys `p ++ b ++ s` for the paths `s` from `n` to a terminal node
below it (`s` empty when `n` is terminal). In the loop, after the call on the
child under `ch`, which sees the buffer `b ++ [byte(ch)]`, the remaining
children are visited with the buffer `b` again. -/
theorem C20_dfs_emits (t n : PrefixStoreByteTrie) (q : Key) (hreach : Reachable t)
    (hn : getWalk q t = some n) (p b : Key) (entries : List Key) :
    DfsRun n p b entries (_dfs n p b entries) ∧
      (∀ out, DfsRun n p b entries out →
        ∃ new, out = entries ++ new ∧ new.Nodup ∧
          ∀ k, k ∈ new ↔ ∃ s d, Reaches n s d ∧ d.isLast = true ∧ k = p ++ b ++ s) ∧
      (∀ ch tt rest, dfsRange ((ch, tt) :: rest) p b entries =
        dfsRange rest p b (_dfs tt p (b ++ [intToByte ch]) entries)) := by
  have hinv : Inv t.maxKeySizeInBytes n := inv_getWalk (reachable_inv hreach) hn
  refine ⟨dfsRun_dfs n p b entries, ?_, fun ch tt rest => dfsRange_cons ch tt rest p b entries⟩
  intro out hr
  obtain ⟨new, hnew⟩ := dfsRun_appends n p b entries out hr
  have hperm := dfsRun_perm n p b entries out hr
  rw [hnew, List.perm_append_left_iff] at hperm
  have hnd : ((suffixes n).map (fun s => p ++ (b ++ s))).Nodup :=
    List.Nodup.map (fun x y hxy => List.append_cancel_left (List.append_cancel_left hxy))
      (nodup_suffixes n _ hinv)
  refine ⟨new, hnew, hperm.nodup_iff.2 hnd, ?_⟩
  intro k
  rw [hperm.mem_iff, List.mem_map]
  constructor
  · rintro ⟨s, hs, rfl⟩
    obtain ⟨d, hd, hl⟩ := (existsWalk_iff_reaches s n).1 ((mem_suffixes n _ hinv s).1 hs)
    exact ⟨s, d, hd, hl, by rw [List.append_assoc]⟩
  · rintro ⟨s, d, hd, hl, rfl⟩
    exact ⟨s, (mem_suffixes n _ hinv s).2 ((existsWalk_iff_reaches s n).2 ⟨d, hd, hl⟩),
      by rw [List.append_assoc]⟩

/-- C20 on the trie of the test suite: the node at the end of the path
`"tes"`, with prefix `"tes"`, an empty buffer and an empty list. -/
theorem C20_dfs_emits_witness :
    Reachable sampleTrie ∧
      ∃ n, getWalk keyTes sampleTrie = some n ∧
        _dfs n keyTes [] [] = [keyTest, keyTest123] ∧
        DfsRun n keyTes [] [] (_dfs n keyTes [] []) := by
  obtain ⟨n, hn⟩ : ∃ n, getWalk keyTes sampleTrie = some n := ⟨_, rfl⟩
  have hd : _dfs n keyTes [] [] = [keyTest, keyTest123] := by
    have : some n = getWalk keyTes sampleTrie := hn.symm
    injection (this.trans (by rfl : getWalk keyTes sampleTrie = some _)) with h
    rw [h]
    decide
  exact ⟨sampleTrie_reachable, n, hn, hd,
    (C20_dfs_emits sampleTrie n keyTes sampleTrie_reachable hn keyTes [] []).1⟩

end Tripod

namespace Tripod

/-- In a trie built by `Put` calls, below every node other than the root
there is a terminal node (the node itself included). -/
theorem history_live (m : Int) (ks : List Key) {q : Key} {n : PrefixStoreByteTrie}
    (hq : q ≠ []) (hn : getWalk q (putAll (CreatePrefixStoreByteTrie m) ks) = some n) :
    ∃ s, existsWalk s n = true := by
  have hsome : (getWalk q (putAll (CreatePrefixStoreByteTrie m) ks)).isSome = true := by
    rw [hn]; rfl
  rcases (getWalk_putAll_isSome _ ks q).1 hsome with h1 | ⟨k, hk, ⟨s, hs⟩, hle⟩
  · rw [getWalk_create] at h1
    simp [hq] at h1
  · have hne : k ≠ [] := by
      intro h0
      rw [h0] at hs
      exact hq (List.append_eq_nil.1 hs).1
    have hex : existsWalk k (putAll (CreatePrefixStoreByteTrie m) ks) = true :=
      (existsWalk_history m ks k).2 ⟨hk, hne, by
        simpa [CreatePrefixStoreByteTrie, PrefixStoreByteTrie.maxKeySizeInBytes] using hle⟩
    rw [← hs, existsWalk_append, hn] at hex
    exact ⟨s, hex⟩

/-- C21 as stated fails for a limit above the allocation limit: with limit
`math.MaxInt64` on a 64-bit runtime and the key `"a"` put, the path `"a"`
exists (`get` returns a node), yet no run of `PrefixSearch "a"` returns a
non-empty list: every run panics in the `make` of `list`. -/
theorem C21_no_dead_branch_counterexample :
    keyA ≠ [] ∧
      ((putAll (CreatePrefixStoreByteTrie maxInt64) [keyA]).get keyA).isSome = true ∧
      PrefixSearchRun maxAlloc64 (putAll (CreatePrefixStoreByteTrie maxInt64) [keyA]) keyA none ∧
      ∀ res, PrefixSearchRun maxAlloc64 (putAll (CreatePrefixStoreByteTrie maxInt64) [keyA])
        keyA res → res = none :=
  ⟨by decide, by decide, prefixSearchRun_prefixSearch maxAlloc64 hugeTrie keyA,
    fun _ hr => prefixSearchRun_none_reachable hugeTrie_reachable (by decide) (by decide) hr⟩

/-- C21, amended: in a trie built from `CreatePrefixStoreByteTrie m` by the
calls `Put k` for `k` in `ks`, every node other than the root that has no
children is terminal; and, when `m` is not above the allocation limit
`maxAlloc` of `make`, for every non-empty prefix `p`, every run of
`PrefixSearch p` returns a list, which is non-empty exactly when `get p`
returns a node. -/
theorem C21_no_dead_branch (maxAlloc m : Int) (ks : List Key) :
    (∀ q n, q ≠ [] → Reaches (putAll (CreatePrefixStoreByteTrie m) ks) q n →
        n.children = [] → n.isLast = true) ∧
      (m ≤ maxAlloc →
        ∀ p res, p ≠ [] →
          PrefixSearchRun maxAlloc (putAll (CreatePrefixStoreByteTrie m) ks) p res →
          ∃ out, res = some out ∧
            (out ≠ [] ↔ ((putAll (CreatePrefixStoreByteTrie m) ks).get p).isSome = true)) := by
  have hreach : Reachable (putAll (CreatePrefixStoreByteTrie m) ks) :=
    reachable_putAll (Reachable.create m) ks
  have hmax : (putAll (CreatePrefixStoreByteTrie m) ks).maxKeySizeInBytes = m := by
    rw [putAll_max]; rfl
  refine ⟨?_, ?_⟩
  · intro q n hq hr hc
    obtain ⟨s, hs⟩ := history_live m ks hq ((reaches_iff_getWalk _ q n).1 hr)
    cases s with
    | nil => exact hs
    | cons b r =>
      simp only [existsWalk, hc, lookup] at hs
      cases hs
  · intro hcap p res hp hrun
    obtain ⟨out, h1⟩ := prefixSearchRun_returns hreach (by rw [hmax]; exact hcap) hrun
    rw [h1] at hrun
    have hmem := (prefixSearchRun_some hreach hrun).2
    refine ⟨out, h1, ?_⟩
    constructor
    · intro hne
      obtain ⟨k, hk⟩ := List.exists_mem_of_ne_nil out hne
      obtain ⟨⟨s, hs⟩, hex⟩ := (hmem k).1 hk
      have hlen := (reachable_existsWalk hreach hex).2
      have hple : ¬ (p.length : Int) > (putAll (CreatePrefixStoreByteTrie m) ks).maxKeySizeInBytes := by
        have : p.length ≤ k.length := by rw [← hs]; simp
        omega
      rw [get_eq_of_le hple]
      rw [← hs, existsWalk_append] at hex
      cases hg : getWalk p (putAll (CreatePrefixStoreByteTrie m) ks) with
      | none => rw [hg] at hex; cases hex
      | some n => rfl
    · intro hget
      have hple : ¬ (p.length : Int) > (putAll (CreatePrefixStoreByteTrie m) ks).maxKeySizeInBytes := by
        intro hgt
        unfold PrefixStoreByteTrie.get at hget
        rw [if_pos hgt] at hget
        cases hget
      rw [get_eq_of_le hple] at hget
      cases hg : getWalk p (putAll (CreatePrefixStoreByteTrie m) ks) with
      | none => rw [hg] at hget; cases hget
      | some n =>
        obtain ⟨s, hs⟩ := history_live m ks hp hg
        have hex : existsWalk (p ++ s) (putAll (CreatePrefixStoreByteTrie m) ks) = true := by
          rw [existsWalk_append, hg]; exact hs
        have hin : p ++ s ∈ out := (hmem _).2 ⟨⟨s, rfl⟩, hex⟩
        exact List.ne_nil_of_mem hin

/-- C21 amended, on the trie of the test suite with the allocation limit of
64-bit Linux: the path `"tes"` is there and the run of `PrefixSearch` in
stored order is not empty. -/
theorem C21_no_dead_branch_witness :
    (128 : Int) ≤ maxAlloc64 ∧ keyTes ≠ [] ∧
      PrefixSearchRun maxAlloc64
        (putAll (CreatePrefixStoreByteTrie 128) [keyTest, keyTe, keyTest123]) keyTes
        (some [keyTest, keyTest123]) ∧
      ∃ out, some [keyTest, keyTest123] = some out ∧
        (out ≠ [] ↔
          ((putAll (CreatePrefixStoreByteTrie 128) [keyTest, keyTe, keyTest123]).get
            keyTes).isSome = true) :=
  ⟨by decide, by decide, prefixSearchRun_prefixSearch _ _ _,
    (C21_no_dead_branch maxAlloc64 128 [keyTest, keyTe, keyTest123]).2 (by decide) keyTes _
      (by decide) (prefixSearchRun_prefixSearch _ _ _)⟩

end Tripod

/-! ## Order of the `Put` calls -/

namespace Tripod

end Tripod

namespace Tripod

/-- Every run of `PrefixSearch` on a reachable trie whose limit is within the
allocation limit returns a list without repetition whose members are the keys
that start with the prefix and on which the walk of `Exists` succeeds. -/
theorem prefixSearchRun_reachable {maxAlloc : Int} {t : PrefixStoreByteTrie}
    (hreach : Reachable t) (hcap : t.maxKeySizeInBytes ≤ maxAlloc) {p : Key}
    {res : Option (List Key)} (hrun : PrefixSearchRun maxAlloc t p res) :
    ∃ out, res = some out ∧ out.Nodup ∧
      ∀ k, k ∈ out ↔ (p <+: k ∧ existsWalk k t = true) := by
  obtain ⟨out, h1⟩ := prefixSearchRun_returns hreach hcap hrun
  rw [h1] at hrun
  exact ⟨out, h1, prefixSearchRun_some hreach hrun⟩

/-- C23 as stated fails for a limit above the allocation limit: on the
reachable trie `CreatePrefixStoreByteTrie math.MaxInt64`, on a 64-bit runtime,
the empty prefix is an initial segment of `"b"`; `PrefixSearch "b"` returns
the empty list, while every run of `PrefixSearch` of the empty prefix panics
and returns no list to compare it with. -/
theorem C23_prefixSearch_antitone_counterexample :
    Reachable (CreatePrefixStoreByteTrie maxInt64) ∧ ([] : Key) <+: keyB ∧
      PrefixSearchRun maxAlloc64 (CreatePrefixStoreByteTrie maxInt64) keyB (some []) ∧
      ∀ res, PrefixSearchRun maxAlloc64 (CreatePrefixStoreByteTrie maxInt64) [] res →
        res = none :=
  ⟨Reachable.create maxInt64, ⟨keyB, rfl⟩,
    prefixSearchRun_prefixSearch maxAlloc64 (CreatePrefixStoreByteTrie maxInt64) keyB,
    fun _ hr => prefixSearchRun_none_reachable (Reachable.create maxInt64) (by decide)
      (by decide) hr⟩

/-- C23, amended: on a reachable trie whose limit is not above the allocation
limit `maxAlloc` of `make`, when `p` is an initial segment of `q`, any run of
`PrefixSearch q` and any run of `PrefixSearch p` return lists such that every
member of the first is a member of the second and the first is not longer
than the second (also when `q` is over the limit of the trie). -/
theorem C23_prefixSearch_antitone (maxAlloc : Int) (t : PrefixStoreByteTrie) (p q : Key)
    (resP resQ : Option (List Key)) (hreach : Reachable t)
    (hcap : t.maxKeySizeInBytes ≤ maxAlloc) (hpq : p <+: q)
    (hP : PrefixSearchRun maxAlloc t p resP) (hQ : PrefixSearchRun maxAlloc t q resQ) :
    ∃ outP outQ, resP = some outP ∧ resQ = some outQ ∧
      (∀ k ∈ outQ, k ∈ outP) ∧ outQ.length ≤ outP.length := by
  obtain ⟨outP, eP, _, hmP⟩ := prefixSearchRun_reachable hreach hcap hP
  obtain ⟨outQ, eQ, hndQ, hmQ⟩ := prefixSearchRun_reachable hreach hcap hQ
  have hsub : ∀ k ∈ outQ, k ∈ outP := by
    intro k hk
    obtain ⟨h1, h2⟩ := (hmQ k).1 hk
    exact (hmP k).2 ⟨hpq.trans h1, h2⟩
  exact ⟨outP, outQ, eP, eQ, hsub, (List.subperm_of_subset hndQ hsub).length_le⟩

/-- C23 amended, on the trie of the test suite with the prefixes `"te"` and
`"tes"`, both run in stored order, with the allocation limit of 64-bit
Linux. -/
theorem C23_prefixSearch_antitone_witness :
    Reachable sampleTrie ∧ sampleTrie.maxKeySizeInBytes ≤ maxAlloc64 ∧ keyTe <+: keyTes ∧
      ∃ outP outQ, sampleTrie.PrefixSearch maxAlloc64 keyTe = some outP ∧
        sampleTrie.PrefixSearch maxAlloc64 keyTes = some outQ ∧
        (∀ k ∈ outQ, k ∈ outP) ∧ outQ.length ≤ outP.length :=
  ⟨sampleTrie_reachable, by decide, ⟨[115], rfl⟩,
    C23_prefixSearch_antitone maxAlloc64 sampleTrie keyTe keyTes _ _ sampleTrie_reachable
      (by decide) ⟨[115], rfl⟩
      (prefixSearchRun_prefixSearch _ _ _) (prefixSearchRun_prefixSearch _ _ _)⟩

/-- C24 as stated fails for a limit above the allocation limit: on the
reachable trie `CreatePrefixStoreByteTrie math.MaxInt64`, on a 64-bit runtime,
`Put "a"` returns `newlyAdded = true`, yet `PrefixSearch` of the empty prefix
panics in every run before the call and in every run after it, so there are
no two lengths that differ by one. -/
theorem C24_put_counts_counterexample :
    Reachable (CreatePrefixStoreByteTrie maxInt64) ∧
      ((CreatePrefixStoreByteTrie maxInt64).Put keyA).newlyAdded = true ∧
      (∀ res, PrefixSearchRun maxAlloc64 (CreatePrefixStoreByteTrie maxInt64) [] res →
        res = none) ∧
      ∀ res, PrefixSearchRun maxAlloc64 ((CreatePrefixStoreByteTrie maxInt64).Put keyA).store []
        res → res = none :=
  ⟨Reachable.create maxInt64, by decide,
    fun _ hr => prefixSearchRun_none_reachable (Reachable.create maxInt64) (by decide)
      (by decide) hr,
    fun _ hr => prefixSearchRun_none_reachable (Reachable.put keyA (Reachable.create maxInt64))
      (by decide) (by decide) hr⟩

/-- C24, amended: on a reachable trie whose limit is not above the allocation
limit `maxAlloc` of `make`, and for every key `k`, any run of `PrefixSearch`
with the empty prefix after `Put k` returns a list one longer than any run
before the call when `Put k` returned `newlyAdded = true`, and of the same
length when it returned `false` (with or without an error). -/
theorem C24_put_counts (maxAlloc : Int) (t : PrefixStoreByteTrie) (k : Key)
    (resB resA : Option (List Key)) (hreach : Reachable t)
    (hcap : t.maxKeySizeInBytes ≤ maxAlloc) (hB : PrefixSearchRun maxAlloc t [] resB)
    (hA : PrefixSearchRun maxAlloc (t.Put k).store [] resA) :
    ∃ outB outA, resB = some outB ∧ resA = some outA ∧
      outA.length = outB.length + (if (t.Put k).newlyAdded = true then 1 else 0) := by
  obtain ⟨outB, eB, hndB, hmB⟩ := prefixSearchRun_reachable hreach hcap hB
  obtain ⟨outA, eA, hndA, hmA⟩ :=
    prefixSearchRun_reachable (Reachable.put k hreach) (by rw [put_max]; exact hcap) hA
  have hnil : ∀ x : Key, ([] : Key) <+: x := fun x => ⟨x, rfl⟩
  have hB' : ∀ x, x ∈ outB ↔ existsWalk x t = true := fun x => by
    rw [hmB]; exact ⟨fun h => h.2, fun h => ⟨hnil x, h⟩⟩
  have hA' : ∀ x, x ∈ outA ↔ (existsWalk x t = true ∨
      (x = k ∧ k ≠ [] ∧ (k.length : Int) ≤ t.maxKeySizeInBytes)) := fun x => by
    rw [hmA, existsWalk_put]
    simp only [Bool.or_eq_true, Bool.and_eq_true, decide_eq_true_eq]
    constructor
    · rintro ⟨_, h | ⟨⟨h1, h2⟩, h3⟩⟩
      · exact Or.inl h
      · exact Or.inr ⟨h1, h2, h3⟩
    · rintro (h | ⟨h1, h2, h3⟩)
      · exact ⟨hnil x, Or.inl h⟩
      · exact ⟨hnil x, Or.inr ⟨⟨h1, h2⟩, h3⟩⟩
  refine ⟨outB, outA, eB, eA, ?_⟩
  have hnew := put_newlyAdded t k
  by_cases hadd : (t.Put k).newlyAdded = true
  · rw [if_pos hadd]
    rw [hadd] at hnew
    have hcond : (k ≠ [] ∧ (k.length : Int) ≤ t.maxKeySizeInBytes) ∧ existsWalk k t = false := by
      simpa using hnew.symm
    have hk : k ∉ outB := by
      rw [hB', hcond.2]; simp
    have hperm : outA.Perm (k :: outB) := by
      rw [List.perm_ext_iff_of_nodup hndA (List.nodup_cons.2 ⟨hk, hndB⟩)]
      intro x
      rw [hA', List.mem_cons, hB']
      constructor
      · rintro (h | ⟨h1, _, _⟩)
        · exact Or.inr h
        · exact Or.inl h1
      · rintro (h | h)
        · exact Or.inr ⟨h, hcond.1.1, hcond.1.2⟩
        · exact Or.inl h
    rw [hperm.length_eq, List.length_cons]
  · rw [if_neg hadd]
    have hf : (t.Put k).newlyAdded = false := by
      cases h : (t.Put k).newlyAdded
      · rfl
      · exact absurd h hadd
    rw [hf] at hnew
    have hperm : outA.Perm outB := by
      rw [List.perm_ext_iff_of_nodup hndA hndB]
      intro x
      rw [hA', hB']
      constructor
      · rintro (h | ⟨h1, h2, h3⟩)
        · exact h
        · subst h1
          by_contra hx
          have hx' : existsWalk x t = false := by
            cases h : existsWalk x t
            · rfl
            · exact absurd h hx
          rw [hx'] at hnew
          simp [h2, h3] at hnew
      · intro h; exact Or.inl h
    rw [hperm.length_eq, Nat.add_zero]

/-- C24 amended, on the trie of the test suite with the allocation limit of
64-bit Linux: `"tes"` is new, and the list in stored order grows from three
keys to four. -/
theorem C24_put_counts_witness :
    Reachable sampleTrie ∧ sampleTrie.maxKeySizeInBytes ≤ maxAlloc64 ∧
      (sampleTrie.Put keyTes).newlyAdded = true ∧
      ∃ outB outA, sampleTrie.PrefixSearch maxAlloc64 [] = some outB ∧
        (sampleTrie.Put keyTes).store.PrefixSearch maxAlloc64 [] = some outA ∧
        outA.length = outB.length + (if (sampleTrie.Put keyTes).newlyAdded = true then 1 else 0) :=
  ⟨sampleTrie_reachable, by decide, by decide,
    C24_put_counts maxAlloc64 sampleTrie keyTes _ _ sampleTrie_reachable (by decide)
      (prefixSearchRun_prefixSearch _ _ _) (prefixSearchRun_prefixSearch _ _ _)⟩

theorem exists_get {t : PrefixStoreByteTrie} {p : Key} (h : t.Exists p = true) :
    ¬ ((p.length : Int) > t.maxKeySizeInBytes) ∧ ∃ n, t.get p = some n ∧ n.isLast = true := by
  have hle : ¬ ((p.length : Int) > t.maxKeySizeInBytes) := by
    intro hgt
    unfold PrefixStoreByteTrie.Exists at h
    rw [if_pos hgt] at h
    cases h
  refine ⟨hle, ?_⟩
  unfold PrefixStoreByteTrie.Exists at h
  rw [if_neg hle, existsWalk_eq_getWalk] at h
  rw [get_eq_of_le hle]
  cases hg : getWalk p t with
  | none => rw [hg] at h; cases h
  | some n => rw [hg] at h; exact ⟨n, rfl, h⟩

/-- C25 as stated fails for a limit above the allocation limit: on the
reachable trie of limit `math.MaxInt64` on which `"a"` was put, on a 64-bit
runtime, `Exists "a"` is true, yet every run of `PrefixSearch "a"` panics in
`list` and returns no list whose first element could be `"a"`. -/
theorem C25_stored_prefix_first_counterexample :
    Reachable hugeTrie ∧ hugeTrie.Exists keyA = true ∧
      ∀ res, PrefixSearchRun maxAlloc64 hugeTrie keyA res → res = none :=
  ⟨hugeTrie_reachable, by decide,
    fun _ hr => prefixSearchRun_none_reachable hugeTrie_reachable (by decide) (by decide) hr⟩

/-- C25, amended: on a reachable trie whose limit is not above the allocation
limit `maxAlloc` of `make`, and for a prefix `p` with `Exists p` true, every
run of `PrefixSearch p` returns a list whose first element is `p` and in
which `p` does not occur again. -/
theorem C25_stored_prefix_first (maxAlloc : Int) (t : PrefixStoreByteTrie) (p : Key)
    (res : Option (List Key)) (hreach : Reachable t) (hcap : t.maxKeySizeInBytes ≤ maxAlloc)
    (hex : t.Exists p = true) (hrun : PrefixSearchRun maxAlloc t p res) :
    ∃ rest, res = some (p :: rest) ∧ p ∉ rest := by
  obtain ⟨out, e, hnd, _⟩ := prefixSearchRun_reachable hreach hcap hrun
  obtain ⟨hle, n, hg, hl⟩ := exists_get hex
  unfold PrefixSearchRun at hrun
  rw [if_neg hle, hg] at hrun
  obtain ⟨lr, _, hres⟩ := hrun
  cases lr with
  | none =>
    rw [e] at hres
    cases hres
  | some entries =>
    simp only [hl, if_true] at hres
    rw [e] at hres
    injection hres with hres
    rw [hres] at hnd
    exact ⟨entries, by rw [e, hres], (List.nodup_cons.1 hnd).1⟩

/-- C25 amended, on the trie of the test suite and its key `"te"`, run in
stored order with the allocation limit of 64-bit Linux. -/
theorem C25_stored_prefix_first_witness :
    Reachable sampleTrie ∧ sampleTrie.maxKeySizeInBytes ≤ maxAlloc64 ∧
      sampleTrie.Exists keyTe = true ∧
      ∃ rest, sampleTrie.PrefixSearch maxAlloc64 keyTe = some (keyTe :: rest) ∧ keyTe ∉ rest :=
  ⟨sampleTrie_reachable, by decide, by decide,
    C25_stored_prefix_first maxAlloc64 sampleTrie keyTe _ sampleTrie_reachable (by decide)
      (by decide) (prefixSearchRun_prefixSearch _ _ _)⟩

/-- C26 as stated fails: the allocation in `list` can fail with a capacity that
is not negative. On `CreatePrefixStoreByteTrie math.MaxInt64`, on a 64-bit
runtime, the empty prefix passes the length guard and `get` finds the root;
the capacity handed to `make` is not negative but above the allocation limit,
so `list` panics and every run of `PrefixSearch` ends without a list. -/
theorem C26_list_never_panics_counterexample :
    ¬ ((([] : Key).length : Int) > (CreatePrefixStoreByteTrie maxInt64).maxKeySizeInBytes) ∧
      (CreatePrefixStoreByteTrie maxInt64).get [] = some (CreatePrefixStoreByteTrie maxInt64) ∧
      0 ≤ (CreatePrefixStoreByteTrie maxInt64).maxKeySizeInBytes ∧
      (CreatePrefixStoreByteTrie maxInt64).list maxAlloc64 [] = none ∧
      ∀ res, PrefixSearchRun maxAlloc64 (CreatePrefixStoreByteTrie maxInt64) [] res →
        res = none :=
  ⟨by decide, rfl, by decide, by decide,
    fun _ hr => prefixSearchRun_none_reachable (Reachable.create maxInt64) (by decide)
      (by decide) hr⟩

/-- C26, amended: in a trie built from `CreatePrefixStoreByteTrie m` by `Put`
calls, for every integer `m`, whenever `PrefixSearch p` gets past its length
guard and finds a node, the capacity that `list` hands to `make` is not
negative, and `list` returns when `m` is not above the allocation limit
`maxAlloc` of `make` and panics when it is; `PrefixSearch p` has a run, and
when `m` is not above `maxAlloc` every run returns a list (no panic); with
`m < 0` every `Put` returns an error, every `Exists` is false and every run
of `PrefixSearch` returns the empty list. The guard matters: `list` called on
a node with a negative limit does panic, as it does on a node with a limit
above `maxAlloc`. -/
theorem C26_list_never_panics (maxAlloc m : Int) (ks : List Key) (p : Key) :
    (∀ sub, ¬ ((p.length : Int) > (putAll (CreatePrefixStoreByteTrie m) ks).maxKeySizeInBytes) →
        (putAll (CreatePrefixStoreByteTrie m) ks).get p = some sub →
        0 ≤ sub.maxKeySizeInBytes ∧ (m ≤ maxAlloc → sub.list maxAlloc p ≠ none) ∧
          (m > maxAlloc → sub.list maxAlloc p = none)) ∧
      PrefixSearchRun maxAlloc (putAll (CreatePrefixStoreByteTrie m) ks) p
        ((putAll (CreatePrefixStoreByteTrie m) ks).PrefixSearch maxAlloc p) ∧
      (m ≤ maxAlloc →
        ∀ res, PrefixSearchRun maxAlloc (putAll (CreatePrefixStoreByteTrie m) ks) p res →
          ∃ out, res = some out) ∧
      (m < 0 →
        ((putAll (CreatePrefixStoreByteTrie m) ks).Put p).err ≠ none ∧
        (putAll (CreatePrefixStoreByteTrie m) ks).Exists p = false ∧
        ∀ res, PrefixSearchRun maxAlloc (putAll (CreatePrefixStoreByteTrie m) ks) p res →
          res = some []) ∧
      (∀ (n : PrefixStoreByteTrie), n.maxKeySizeInBytes < 0 → n.list maxAlloc p = none) ∧
      (∀ (n : PrefixStoreByteTrie), n.maxKeySizeInBytes > maxAlloc →
        n.list maxAlloc p = none) := by
  have hreach : Reachable (putAll (CreatePrefixStoreByteTrie m) ks) :=
    reachable_putAll (Reachable.create m) ks
  have hinv := reachable_inv hreach
  have hmax : (putAll (CreatePrefixStoreByteTrie m) ks).maxKeySizeInBytes = m := by
    rw [putAll_max]; rfl
  refine ⟨?_, prefixSearchRun_prefixSearch _ _ p, ?_, ?_, ?_, ?_⟩
  · intro sub hle hg
    rw [get_eq_of_le hle] at hg
    have hsub := inv_max (inv_getWalk hinv hg)
    rw [hmax] at hsub hle
    have h0 : (0 : Int) ≤ p.length := Int.natCast_nonneg _
    have hnn : 0 ≤ sub.maxKeySizeInBytes := by rw [hsub]; omega
    refine ⟨hnn, ?_, ?_⟩
    · intro hcap
      unfold PrefixStoreByteTrie.list
      rw [makeslicePanics_false hnn (by rw [hsub]; omega)]
      simp
    · intro hbig
      unfold PrefixStoreByteTrie.list
      rw [makeslicePanics_true (by rw [hsub]; omega)]
      simp
  · intro hcap res hr
    exact prefixSearchRun_returns hreach (by rw [hmax]; exact hcap) hr
  · intro hneg
    have h0 : (0 : Int) ≤ p.length := Int.natCast_nonneg _
    have hgt : (p.length : Int) > (putAll (CreatePrefixStoreByteTrie m) ks).maxKeySizeInBytes := by
      rw [hmax]; omega
    refine ⟨?_, ?_, ?_⟩
    · rw [Ne, put_err]; omega
    · unfold PrefixStoreByteTrie.Exists
      rw [if_pos hgt]
    · intro res hr
      unfold PrefixSearchRun at hr
      rwa [if_pos hgt] at hr
  · intro n hn
    unfold PrefixStoreByteTrie.list makeslicePanics
    simp [hn]
  · intro n hn
    unfold PrefixStoreByteTrie.list
    rw [makeslicePanics_true (by omega)]
    simp

/-- C26 amended, with the allocation limit of 64-bit Linux: on a trie of
limit 128 on which `"te"` was put, `PrefixSearch` of the empty prefix returns
a list; on a trie of limit -1 on which `"te"` was put (and refused), `Put`
fails, `Exists` is false, `PrefixSearch` returns the empty list and `list`
called on the root panics. -/
theorem C26_list_never_panics_witness :
    ((128 : Int) ≤ maxAlloc64 ∧
      ∃ out, (putAll (CreatePrefixStoreByteTrie 128) [keyTe]).PrefixSearch maxAlloc64 [] =
        some out) ∧
      (-1 : Int) < 0 ∧
      ((putAll (CreatePrefixStoreByteTrie (-1)) [keyTe]).Put []).err ≠ none ∧
      (putAll (CreatePrefixStoreByteTrie (-1)) [keyTe]).Exists [] = false ∧
      (putAll (CreatePrefixStoreByteTrie (-1)) [keyTe]).PrefixSearch maxAlloc64 [] = some [] ∧
      (putAll (CreatePrefixStoreByteTrie (-1)) [keyTe]).list maxAlloc64 [] = none :=
  ⟨⟨by decide, (C26_list_never_panics maxAlloc64 128 [keyTe] []).2.2.1 (by decide) _
      (C26_list_never_panics maxAlloc64 128 [keyTe] []).2.1⟩,
    by decide,
    ((C26_list_never_panics maxAlloc64 (-1) [keyTe] []).2.2.2.1 (by decide)).1,
    ((C26_list_never_panics maxAlloc64 (-1) [keyTe] []).2.2.2.1 (by decide)).2.1,
    ((C26_list_never_panics maxAlloc64 (-1) [keyTe] []).2.2.2.1 (by decide)).2.2 _
      (C26_list_never_panics maxAlloc64 (-1) [keyTe] []).2.1,
    (C26_list_never_panics maxAlloc64 (-1) [keyTe] []).2.2.2.2.1 _ (by decide)⟩

end Tripod
